import Mathlib

set_option maxRecDepth 4000

/-!
# Verification of the UDDL query/path conversion core

A shallow embedding of the query/path conversion core of the `uddl-owl-paper`
repository (`participant_path_parser.py`, `query_parser.py`,
`query_path_conversion.py`), together with proofs and refutations of the
behavioural claims made by the repository's specification.

Conventions used throughout the embedding:
* Python `str` fields that may be `None` are embedded as `Option String`;
  Python truthiness on strings (`if s:`, `a or b`) is embedded through
  `pyTruthy`/`pyOr`, which treat both `None` and `""` as falsy.
* Python dictionaries are embedded as insertion-ordered association lists:
  key lookup takes the first match, assignment of a fresh key appends at the
  end, and iteration follows list order (matching CPython's insertion-ordered
  dicts).
* Python `set` values whose observable use is order-insensitive (dependency
  sets in `path2query`) are embedded as duplicate-free lists.
* Operations that can raise (`next(...)` without default, indexing `[0]` or
  `[-1]` on a possibly-empty list, `min` of a possibly-empty sequence) are
  embedded in `Option`, with `none` marking the raise.
-/

namespace UddlOwl

/-- Python truthiness of an optional string: `None` and `""` are falsy. -/
def pyTruthy : Option String → Bool
  | none => false
  | some s => s ≠ ""

/-- Python `a or b` for an optional string `a` and a string default `b`. -/
def pyOr (a : Option String) (b : String) : String :=
  match a with
  | none => b
  | some s => if s = "" then b else s

/-- Python rendering of an optional string interpolated into an f-string:
`None` prints as `"None"`. -/
def pyStr : Option String → String
  | none => "None"
  | some s => s

/-! ## Participant path model (`participant_path_parser.py`)

`EntityResolution` carries the optional cached target type: the copy of
`participant_path_parser.py` in the snapshot omits the field, but every
consumer in the repository (`query_path_conversion.py` line 100 constructs
`EntityResolution(left.characteristic, target_type)` with two arguments,
`_resolve_target_type`, `tuple2owl.py`, `sparql_conversion.py`, `vistuple.py`
all read `.target_type`), and the specification's data model (§3,
`EntityResolution{rolename, optional cached target type}`) includes it, so the
field is modelled from the spec as an optional second component defaulting to
`none`. -/

/-- A single hop of a participant path: a forward composition hop
(`EntityResolution`) or a backward hop onto an association via a participant
rolename (`AssociationResolution`).  Equality is Python dataclass equality:
all fields compared. -/
inductive Resolution where
  | entityRes (rolename : String) (target_type : Option String)
  | assocRes (rolename : String) (association_name : String)
deriving DecidableEq, Repr

namespace Resolution

/-- The rolename of either kind of hop. -/
def rolename : Resolution → String
  | entityRes r _ => r
  | assocRes r _ => r

/-- `__str__`: `.rolename` for an entity hop, `->rolename[assoc]` for an
association hop (the cached target type does not print). -/
def str : Resolution → String
  | entityRes r _ => "." ++ r
  | assocRes r a => "->" ++ r ++ "[" ++ a ++ "]"

/-- Structural equality in the sense of spec §4.1: rolename, and for
association hops also the association name; the incidental cached target
type is not compared. -/
def structEq : Resolution → Resolution → Bool
  | entityRes r _, entityRes r' _ => r = r'
  | assocRes r a, assocRes r' a' => r = r' && a = a'
  | _, _ => false

/-- `"".join(str(res) for res in resolutions)`. -/
def renderList : List Resolution → String
  | [] => ""
  | r :: rs => r.str ++ renderList rs

end Resolution

/-- `ParticipantPath`: a start type plus an ordered hop sequence. -/
structure ParticipantPath where
  start_type : String
  resolutions : List Resolution
deriving DecidableEq, Repr

namespace ParticipantPath

/-- `__str__`: the start type followed by each resolution's rendering. -/
def str (p : ParticipantPath) : String :=
  p.start_type ++ Resolution.renderList p.resolutions

/-- Structural path equality (spec §4.1): same start type,
element-wise structurally equal resolutions. -/
def structEq (p q : ParticipantPath) : Bool :=
  p.start_type = q.start_type &&
    (p.resolutions.length = q.resolutions.length &&
      (p.resolutions.zip q.resolutions).all fun rr => rr.1.structEq rr.2)

end ParticipantPath

/-! ### The participant path parser (`ParticipantPath.parse`) -/

/-- `identifier = (alphabetic character | "_"), {alphabetic character | digit | "_"}`:
a character allowed to start an identifier. -/
def isIdentStart (c : Char) : Bool :=
  ('a' ≤ c && c ≤ 'z') || ('A' ≤ c && c ≤ 'Z') || c = '_'

/-- A character allowed inside an identifier. -/
def isIdentChar (c : Char) : Bool :=
  isIdentStart c || ('0' ≤ c && c ≤ '9')

/-- A nonempty character sequence matching the identifier pattern
`[a-zA-Z_][a-zA-Z0-9_]*`. -/
def validIdentChars : List Char → Bool
  | [] => false
  | c :: rest => isIdentStart c && rest.all isIdentChar

/-- A string matching the identifier pattern. -/
def validIdent (s : String) : Bool :=
  validIdentChars s.data

/-- Greedy match of one identifier at the head of the input: the matched
identifier and the remaining characters, or `none` when the head cannot
start an identifier. -/
def takeIdent : List Char → Option (String × List Char)
  | [] => none
  | c :: rest =>
    if isIdentStart c then
      some (String.mk (c :: rest.takeWhile isIdentChar), rest.dropWhile isIdentChar)
    else
      none

/-- The resolution-sequence loop of `ParticipantPath.parse` (lines 56–77):
repeatedly consume `->rolename[assoc]` or `.rolename`; any other leading
character is a `ValueError`, embedded as `none`.  The loop consumes at least
one character per iteration, so it is driven by a character-count budget
(`parseResolutions` below supplies the exact count). -/
def parseResolutionsAux : Nat → List Char → Option (List Resolution)
  | _, [] => some []
  | 0, _ :: _ => none
  | fuel + 1, '-' :: '>' :: cs'' =>
    (takeIdent cs'').bind fun ri =>
      match ri.2 with
      | '[' :: rest2 =>
        (takeIdent rest2).bind fun ai =>
          match ai.2 with
          | ']' :: rest4 =>
            (parseResolutionsAux fuel rest4).map (Resolution.assocRes ri.1 ai.1 :: ·)
          | _ => none
      | _ => none
  | fuel + 1, '.' :: cs' =>
    (takeIdent cs').bind fun ri =>
      (parseResolutionsAux fuel ri.2).map (Resolution.entityRes ri.1 none :: ·)
  | _, _ :: _ => none

/-- The resolution-sequence loop at its exact character budget. -/
def parseResolutions (cs : List Char) : Option (List Resolution) :=
  parseResolutionsAux cs.length cs

/-- `ParticipantPath.parse` (lines 31–85): parse the start type identifier,
then the resolution sequence; `ValueError` is embedded as `none`. -/
def ParticipantPath.parse (text : String) : Option ParticipantPath :=
  (takeIdent text.data).bind fun sr =>
    (parseResolutions sr.2).map fun rs => ⟨sr.1, rs⟩

/-- Resolutions with the cached target types forgotten: this is what parsing
a rendered path produces for the entity hops. -/
def stripTargets : List Resolution → List Resolution
  | [] => []
  | .entityRes r _ :: rs => .entityRes r none :: stripTargets rs
  | .assocRes r a :: rs => .assocRes r a :: stripTargets rs

/-- Every rolename (and association name) in the list matches the
identifier pattern. -/
def ResolutionsWellFormed (rs : List Resolution) : Bool :=
  rs.all fun r =>
    match r with
    | .entityRes rn _ => validIdent rn
    | .assocRes rn an => validIdent rn && validIdent an

/-- A path whose start type and every hop name match the identifier
pattern of the grammar. -/
def PathWellFormed (p : ParticipantPath) : Bool :=
  validIdent p.start_type && ResolutionsWellFormed p.resolutions

/-! ## Query AST (`query_parser.py`)

Field name notes: Python `alias` and `on` are reserved words in Lean, so they
are embedded as `alias_` and `onConds`. -/

/-- `Reference{entity, characteristic}` (frozen dataclass).  The parser always
fills `characteristic`; `path2query` builds identity references with
`characteristic = None`, hence `Option String`. -/
structure Reference where
  entity : Option String
  characteristic : Option String
deriving DecidableEq, Repr

/-- The three projection forms: `ProjectedCharacteristic{reference, alias}`,
`AllCharacteristics`, `EntityWildcard{entity}`. -/
inductive Projection where
  | projChar (reference : Reference) (alias_ : Option String)
  | allChars
  | entityWildcard (entity : String)
deriving DecidableEq, Repr

/-- `Entity{name, alias}`. -/
structure Entity where
  name : String
  alias_ : Option String
deriving DecidableEq, Repr

/-- `Equivalence{left, right}`; `right = None` is a unary join condition. -/
structure Equivalence where
  left : Reference
  right : Option Reference
deriving DecidableEq, Repr

/-- `Join{target, on}`. -/
structure Join where
  target : Entity
  onConds : List Equivalence
deriving DecidableEq, Repr

/-- `FromClause{entities, joins}`. -/
structure FromClause where
  entities : List Entity
  joins : List Join
deriving DecidableEq, Repr

/-- `QueryStatement{projections, from_clause, qualifier}`. -/
structure QueryStatement where
  projections : List Projection
  from_clause : FromClause
  qualifier : Option String
deriving DecidableEq, Repr

/-! ## Schema model (`tuple.py`)

`UddlTuple{subject, predicate, object, rolename, multiplicity}`.  The
conversion functions embedded here consume `object` only through `str(...)`,
and never read `multiplicity`, so `object` is embedded as its rendered string
and `multiplicity` is omitted. -/

/-- A schema fact. -/
structure UddlTuple where
  subject : String
  predicate : String
  object : String
  rolename : String
deriving DecidableEq, Repr

/-! ## The alias map and small dictionary helpers

Python dicts are embedded as insertion-ordered association lists with unique
keys: lookup takes the first matching entry, inserting a fresh key appends at
the end, updating an existing key rewrites the entry in place. -/

/-- Alias map: alias name → list of participant paths reaching it. -/
abbrev AliasMap := List (String × List ParticipantPath)

/-- Python `k in d`. -/
def amContains (m : AliasMap) (k : String) : Bool :=
  m.any (·.1 = k)

/-- Python `d[k]` (all uses in the source are guarded by `in` checks or by
construction, so the default `[]` is never observed). -/
def amGet (m : AliasMap) (k : String) : List ParticipantPath :=
  ((m.find? (·.1 = k)).map (·.2)).getD []

/-- `if target_alias not in alias_map: alias_map[target_alias] = []`. -/
def amSeed (m : AliasMap) (k : String) : AliasMap :=
  if amContains m k then m else m ++ [(k, [])]

/-- `alias_map[k].append(p)` for an existing key `k`. -/
def amAppend (m : AliasMap) (k : String) (p : ParticipantPath) : AliasMap :=
  m.map fun kv => if kv.1 = k then (kv.1, kv.2 ++ [p]) else kv

/-- String-valued dict (`alias_types`, `alias_type_tracker`). -/
abbrev StrMap := List (String × String)

/-- Python `k in d` for a string dict. -/
def smContains (m : StrMap) (k : String) : Bool :=
  m.any (·.1 = k)

/-- Python `d.get(k)` for a string dict. -/
def smGet? (m : StrMap) (k : String) : Option String :=
  (m.find? (·.1 = k)).map (·.2)

/-- Python `d[k] = v` for a string dict. -/
def smSet (m : StrMap) (k v : String) : StrMap :=
  if smContains m k then m.map (fun kv => if kv.1 = k then (k, v) else kv)
  else m ++ [(k, v)]

/-! ## `get_model_attributes` (`query_path_conversion.py` lines 49–60) -/

/-- Insert into an ascending list of strings. -/
def insertSorted (s : String) : List String → List String
  | [] => [s]
  | x :: xs => if s ≤ x then s :: x :: xs else x :: insertSorted s xs

/-- Ascending insertion sort, matching Python `sorted` on duplicate-free
string lists. -/
def sortStrings : List String → List String
  | [] => []
  | x :: xs => insertSorted x (sortStrings xs)

/-- `sorted(list({t.rolename | t.subject == type_name, t.predicate == 'composes'}))`. -/
def get_model_attributes (model : List UddlTuple) (type_name : String) : List String :=
  sortStrings ((model.filterMap fun t =>
    if t.subject = type_name && t.predicate = "composes" then some t.rolename
    else none).dedup)

/-! ## `query2path` (`query_path_conversion.py` lines 63–135) -/

/-- The inner helper `is_identity(ref)`: the reference exists and its
characteristic is `None` or the empty string. -/
def is_identity : Option Reference → Bool
  | none => false
  | some r => r.characteristic == none || r.characteristic == some ""

/-- Python `k in d` for an optional key (`right_alias in alias_map` where
`right_alias` may be `None`, which is never a dict key here). -/
def optContains (m : AliasMap) : Option String → Bool
  | some k => amContains m k
  | none => false

/-- The five-way condition classification of `query2path` (lines 96–108):
returns the source alias and the resolution to append, or `none` when no
shape matches (the condition is then a silent no-op). -/
def classifyCond (m : AliasMap) (root_alias target_alias target_type : String)
    (cond : Equivalence) : Option (String × Resolution) :=
  let left := cond.left
  let left_alias := pyOr left.entity root_alias
  match cond.right with
  | none =>
    some (left_alias, .entityRes (pyStr left.characteristic) (some target_type))
  | some right =>
    let ra? := right.entity
    if amContains m left_alias && (ra? == some target_alias)
        && is_identity (some right) then
      some (left_alias, .entityRes (pyStr left.characteristic) (some target_type))
    else if optContains m ra? && (left_alias == target_alias)
        && is_identity (some left) then
      some (ra?.getD "", .entityRes (pyStr right.characteristic) (some target_type))
    else if (left_alias == target_alias) && optContains m ra?
        && is_identity (some right) then
      some (ra?.getD "", .assocRes (pyStr left.characteristic) target_type)
    else if (ra? == some target_alias) && amContains m left_alias
        && is_identity (some left) then
      some (left_alias, .assocRes (pyStr right.characteristic) target_type)
    else none

/-- Lines 110–114: for each path reaching the source alias, append the found
resolution, and record the new path under the target alias unless a path with
the same string rendering is already there.  The iteration runs over the
source alias's path list as it stood before the loop (in Python the source
and target lists are distinct objects whenever `source_alias ≠ target_alias`,
which is every case the claims exercise; when they coincide Python iterates a
list while appending to it and does not terminate, so every claim that
quantifies over statements restricts to the `condNoSelf`/`noSelfJoins`
domain on which the two semantics agree). -/
def addCondPaths (start_type source_alias target_alias : String)
    (found_res : Resolution) (m : AliasMap) : AliasMap :=
  (amGet m source_alias).foldl
    (fun m' parent_path =>
      let new_path : ParticipantPath :=
        ⟨start_type, parent_path.resolutions ++ [found_res]⟩
      if (amGet m' target_alias).any (fun p => p.str = new_path.str) then m'
      else amAppend m' target_alias new_path)
    m

/-- One condition of a join (the body of the `for cond in join.on` loop). -/
def processCond (start_type root_alias target_alias target_type : String)
    (m : AliasMap) (cond : Equivalence) : AliasMap :=
  match classifyCond m root_alias target_alias target_type cond with
  | some (source_alias, found_res) =>
    if amContains m source_alias then
      addCondPaths start_type source_alias target_alias found_res m
    else m
  | none => m

/-- The `for cond in join.on` loop. -/
def processJoinConds (start_type root_alias target_alias target_type : String)
    (m : AliasMap) (conds : List Equivalence) : AliasMap :=
  conds.foldl (processCond start_type root_alias target_alias target_type) m

/-- The `for join in from_clause.joins` loop (lines 79–114), threading the
alias map and the `alias_types` dict. -/
def processJoins (start_type root_alias : String)
    (st : AliasMap × StrMap) (joins : List Join) : AliasMap × StrMap :=
  joins.foldl
    (fun (st : AliasMap × StrMap) join =>
      let target_alias := pyOr join.target.alias_ join.target.name
      let target_type := join.target.name
      let alias_types := smSet st.2 target_alias target_type
      let m := amSeed st.1 target_alias
      (processJoinConds start_type root_alias target_alias target_type m
        join.onConds, alias_types))
    st

/-- One projection (the body of the `for proj in query_ast.projections` loop,
lines 118–133). -/
def projectionPaths (start_type root_alias : String) (m : AliasMap)
    (alias_types : StrMap) (model : List UddlTuple) :
    Projection → List ParticipantPath
  | .projChar reference _ =>
    let entity_ref := pyOr reference.entity root_alias
    let attr := reference.characteristic
    if pyTruthy attr && amContains m entity_ref then
      (amGet m entity_ref).map fun base =>
        ⟨start_type, base.resolutions ++ [.entityRes (pyStr attr) none]⟩
    else []
  | .allChars =>
    if model ≠ [] && amContains m root_alias && smContains alias_types root_alias then
      (get_model_attributes model ((smGet? alias_types root_alias).getD "")).foldl
        (fun acc attr => acc ++ ((amGet m root_alias).map fun base =>
          ⟨start_type, base.resolutions ++ [.entityRes attr none]⟩)) []
    else []
  | .entityWildcard e =>
    if model ≠ [] && amContains m e && smContains alias_types e then
      (get_model_attributes model ((smGet? alias_types e).getD "")).foldl
        (fun acc attr => acc ++ ((amGet m e).map fun base =>
          ⟨start_type, base.resolutions ++ [.entityRes attr none]⟩)) []
    else []

/-- `query2path(query_ast, model)` (lines 63–135): the alias map and the
projected terminal paths.  A `model` of `[]` plays the role of Python's
`None` default (both are falsy and only truthiness is ever tested). -/
def query2path (query_ast : QueryStatement) (model : List UddlTuple) :
    AliasMap × List ParticipantPath :=
  match query_ast.from_clause.entities with
  | [] => ([], [])
  | root_entity :: _ =>
    let start_type := root_entity.name
    let root_alias := pyOr root_entity.alias_ root_entity.name
    let m0 : AliasMap := [(root_alias, [⟨start_type, []⟩])]
    let at0 : StrMap := [(root_alias, start_type)]
    let st := processJoins start_type root_alias (m0, at0)
      query_ast.from_clause.joins
    let projected := query_ast.projections.foldl
      (fun acc proj => acc
        ++ projectionPaths start_type root_alias st.1 st.2 model proj) []
    (st.1, projected)

/-! ## `path2query` (`query_path_conversion.py` lines 138–277) -/

/-- Lines 160/178/234/245/259/273: the first alias (in alias-map order) one of
whose paths has exactly the given resolution sequence (Python list equality on
dataclass resolutions). -/
def pathPrefixOwner (m : AliasMap) (pre : List Resolution) : Option String :=
  (m.find? fun kv => kv.2.any fun p2 => p2.resolutions = pre).map (·.1)

/-- Lines 156–162 / 174–180: the intermediate aliases a path passes through —
the owners of its proper prefixes, excluding the alias itself and the root. -/
def pathDeps (m : AliasMap) (root_alias a : String) (p : ParticipantPath) :
    List String :=
  (List.range p.resolutions.length).filterMap fun i =>
    match pathPrefixOwner m (p.resolutions.take i) with
    | some o => if o ≠ a && o ≠ root_alias then some o else none
    | none => none

/-- The dependency set of one alias (lines 151–163), as a duplicate-free
list. -/
def depsOf (m : AliasMap) (root_alias a : String) : List String :=
  ((amGet m a).foldl (fun acc p => acc ++ pathDeps m root_alias a p) []).dedup

/-- `has_joinable_path` (lines 172–183): some path's prefix-aliases are all
already processed. -/
def has_joinable_path (m : AliasMap) (root_alias : String)
    (processed : List String) (a : String) : Bool :=
  (amGet m a).any fun p => (pathDeps m root_alias a p).all (· ∈ processed)

/-- `min(len(p.resolutions) for p in alias_map[alias])`; `none` embeds the
`ValueError` Python raises on an empty sequence. -/
def minResLen (paths : List ParticipantPath) : Option Nat :=
  (paths.map (·.resolutions.length)).min?

/-- `dependency_score` (lines 196–200): (penalty, number of unprocessed
dependencies, minimum path depth). -/
def scoreOf (m : AliasMap) (root_alias : String)
    (processed candidates : List String) (a : String) :
    Option (Nat × Nat × Nat) :=
  (minResLen (amGet m a)).map fun mn =>
    let unprocessed := (depsOf m root_alias a).filter (· ∉ processed)
    let penalty := (unprocessed.filter (· ∈ candidates)).length
    (penalty, unprocessed.length, mn)

/-- Lexicographic comparison of Python's score tuples. -/
def scoreLe (x y : Nat × Nat × Nat) : Bool :=
  x.1 < y.1 || (x.1 = y.1 && (x.2.1 < y.2.1 || (x.2.1 = y.2.1 && x.2.2 ≤ y.2.2)))

/-- Stable insertion into a list sorted by `le` (stability matches Python's
stable `sort`/`sorted`). -/
def insertStable {α : Type} (le : α → α → Bool) (x : α) : List α → List α
  | [] => [x]
  | y :: ys => if le x y then x :: y :: ys else y :: insertStable le x ys

/-- Stable sort by `le`. -/
def stableSort {α : Type} (le : α → α → Bool) : List α → List α
  | [] => []
  | x :: xs => insertStable le x (stableSort le xs)

/-- Pair every alias with its key, failing (as Python's `sort` does, which
materialises all keys first) when any key computation raises. -/
def keyedByMinLen (m : AliasMap) (l : List String) :
    Option (List (String × Nat)) :=
  l.mapM fun a => (minResLen (amGet m a)).map ((a, ·))

/-- `ready.sort(key=lambda k: min(len(p.resolutions) for p in alias_map[k]))`
(line 211). -/
def sortByMinLen (m : AliasMap) (l : List String) : Option (List String) :=
  (keyedByMinLen m l).map fun keyed =>
    (stableSort (fun x y => x.2 ≤ y.2) keyed).map (·.1)

/-- One round of the topological-sort `while remaining:` loop (lines
185–214): compute `ready`, falling back to the joinable-path heuristic and
then to minimum depth when no alias is dependency-ready. -/
def readyRound (m : AliasMap) (root_alias : String)
    (remaining processed : List String) : Option (List String) := do
  let ready1 := remaining.filter fun a =>
    (depsOf m root_alias a).all (· ∈ processed)
  let ready ←
    if ready1 ≠ [] then some ready1
    else
      let candidates := remaining.filter (has_joinable_path m root_alias processed)
      if candidates ≠ [] then do
        let keyed ← candidates.mapM fun a =>
          (scoreOf m root_alias processed candidates a).map ((a, ·))
        let sorted := stableSort (fun x y => scoreLe x.2 y.2) keyed
        match sorted with
        | [] => some []
        | best :: _ => some ((sorted.filter (·.2 = best.2)).map (·.1))
      else do
        let keyed ← remaining.mapM fun a =>
          (minResLen (amGet m a)).map ((a, ·))
        some ((stableSort (fun x y => x.2 ≤ y.2) keyed).map (·.1))
  sortByMinLen m ready

/-- The `while remaining:` loop (lines 185–214).  Each round removes at least
one alias (the last-resort branch orders all of `remaining`), so a budget of
`remaining.length` rounds is exact; exhaustion with a nonempty remainder is
unreachable but embedded as a raise. -/
def sortAliasesLoop (m : AliasMap) (root_alias : String) :
    Nat → List String → List String → List String → Option (List String)
  | 0, remaining, _, acc => if remaining = [] then some acc else none
  | fuel + 1, remaining, processed, acc =>
    if remaining = [] then some acc
    else do
      let ready ← readyRound m root_alias remaining processed
      sortAliasesLoop m root_alias fuel (remaining.filter (· ∉ ready))
        (processed ++ ready) (acc ++ ready)

/-- Lines 227–245: the first path of the alias whose immediate-prefix owner
is truthy and already typed, else (fallback) the alias's first path with
whatever owner its prefix has; `none` embeds the `IndexError` on an empty
path list. -/
def findBestPath (m : AliasMap) (tracker : StrMap) (a : String) :
    Option (ParticipantPath × Option String) :=
  match (amGet m a).findSome? (fun p =>
    match pathPrefixOwner m p.resolutions.dropLast with
    | some s => if s ≠ "" && smContains tracker s then some (p, some s) else none
    | none => none) with
  | some r => some r
  | none =>
    match amGet m a with
    | [] => none
    | p :: _ => some (p, pathPrefixOwner m p.resolutions.dropLast)

/-- `_resolve_target_type` (lines 280–298). `none` embeds the `IndexError`
when the path list or the resolution sequence is empty. -/
def resolveTargetType (paths : List ParticipantPath) (model : List UddlTuple)
    (source_type : Option String) : Option String :=
  match paths.head? with
  | none => none
  | some p =>
    match p.resolutions.getLast? with
    | none => none
    | some last_res =>
      match last_res with
      | .assocRes _ an => some an
      | .entityRes rn tt =>
        if pyTruthy tt then some (tt.getD "")
        else if model = [] then some rn
        else
          match source_type with
          | some st =>
            if st ≠ "" then
              match model.find? (fun t => t.subject = st && t.rolename = rn) with
              | some t =>
                -- `obj.split('.')[0] if '.' in obj else obj`
                some (if t.object.data.contains '.' then
                    String.mk (t.object.data.takeWhile (· ≠ '.'))
                  else t.object)
              | none => some rn
            else some rn
          | none => some rn

/-- Lines 254–265: one equivalence per path reaching the alias, oriented by
the kind of its last hop; a path whose prefix has no owner is skipped
(`StopIteration` caught), a path with no last hop raises (`IndexError`,
embedded as `none`). -/
def aliasEquivalences (m : AliasMap) (a : String) : Option (List Equivalence) :=
  (amGet m a).foldlM
    (fun acc p =>
      match pathPrefixOwner m p.resolutions.dropLast with
      | none => some acc
      | some src =>
        match p.resolutions.getLast? with
        | none => none
        | some res =>
          match res with
          | .entityRes rn _ =>
            some (acc ++ [⟨⟨some src, some rn⟩, some ⟨some a, none⟩⟩])
          | .assocRes rn _ =>
            some (acc ++ [⟨⟨some a, some rn⟩, some ⟨some src, none⟩⟩]))
    []

/-- Line 247: `alias_type_tracker.get(source_alias) if source_alias else
None` (an empty-string alias is falsy). -/
def trackerSourceType (tracker : StrMap) (src? : Option String) : Option String :=
  match src? with
  | some s => if s ≠ "" then smGet? tracker s else none
  | none => none

/-- The join-emission loop (lines 216–266), threading `alias_type_tracker`. -/
def buildJoins (m : AliasMap) (model : List UddlTuple) (root_alias : String) :
    List String → StrMap → Option (List Join)
  | [], _ => some []
  | a :: rest, tracker =>
    if a = root_alias then buildJoins m model root_alias rest tracker
    else do
      let bp ← findBestPath m tracker a
      let target_type ← resolveTargetType [bp.1] model
        (trackerSourceType tracker bp.2)
      let equivalences ← aliasEquivalences m a
      let js ← buildJoins m model root_alias rest (smSet tracker a target_type)
      some (⟨⟨target_type, some a⟩, equivalences⟩ :: js)

/-- Lines 269–275: one `ProjectedCharacteristic` per terminal path, named
after the owner of its prefix; prefix without owner is skipped
(`StopIteration` caught), an empty terminal path raises (`IndexError`). -/
def buildProjections (m : AliasMap) (paths : List ParticipantPath) :
    Option (List Projection) :=
  paths.foldlM
    (fun acc p =>
      match pathPrefixOwner m p.resolutions.dropLast with
      | none => some acc
      | some src =>
        match p.resolutions.getLast? with
        | none => none
        | some res => some (acc ++ [.projChar ⟨some src, some res.rolename⟩ none]))
    []

/-- `path2query(alias_map, projected_paths, model)` (lines 138–277).  `none`
embeds an uncaught exception; Python's set-valued `remaining` is iterated in
alias-map insertion order. -/
def path2query (alias_map : AliasMap) (projected_paths : List ParticipantPath)
    (model : List UddlTuple) : Option (List QueryStatement) :=
  if alias_map.isEmpty then some []
  else do
    let root_alias ← (alias_map.find? fun kv =>
      kv.2.any fun p => p.resolutions.length = 0).map (·.1)
    let start_type ← ((amGet alias_map root_alias).head?).map (·.start_type)
    let remaining := (alias_map.map (·.1)).filter (· ≠ root_alias)
    let sorted_aliases ← sortAliasesLoop alias_map root_alias remaining.length
      remaining [root_alias] []
    let joins ← buildJoins alias_map model root_alias sorted_aliases
      [(root_alias, start_type)]
    let projections ← buildProjections alias_map projected_paths
    some [⟨projections, ⟨[⟨start_type, some root_alias⟩], joins⟩, none⟩]

/-! ## `_reconstruct_alias_map` (`query_path_conversion.py` lines 301–380) -/

/-- `str.split(sep)` on character lists (empty input gives one empty
segment, as in Python). -/
def splitChars (sep : Char) : List Char → List (List Char)
  | [] => [[]]
  | c :: cs =>
    let r := splitChars sep cs
    if c = sep then [] :: r
    else
      match r with
      | s :: rest => (c :: s) :: rest
      | [] => [[c]]

/-- `get_entity_type` (lines 317–326): look up `(source_type, rolename)` in
the model and take the segment after the last dot of the object
(`obj.split('.')[-1]`), falling back to the rolename. -/
def rec_get_entity_type (model : List UddlTuple) (source_type rolename : String) :
    String :=
  if model = [] then rolename
  else
    match model.find? (fun t => t.subject = source_type && t.rolename = rolename) with
    | some t =>
      (((splitChars '.' t.object.data).getLast?).map String.mk).getD t.object
    | none => rolename

/-- The mutable state of `_reconstruct_alias_map`: the alias map under
construction and the path-string → alias index. -/
structure ReconState where
  alias_map : AliasMap
  path_to_alias : StrMap
deriving Repr

/-- Lines 360–365: `type_name`, then `type_name_1`, `type_name_2`, … until
free.  Among `alias_map.length + 1` numbered candidates one is always free,
so the `.getD` default is unreachable. -/
def freshAliasName (m : AliasMap) (base : String) : String :=
  if ¬ amContains m base then base
  else
    ((List.range (m.length + 1)).findSome? fun i =>
      let cand := base ++ "_" ++ toString (i + 1)
      if ¬ amContains m cand then some cand else none).getD base

/-- `get_or_create_alias` (lines 328–369): find the alias of a path, creating
it (and recursively its parent's) when absent, named after the resolved
entity type of its last hop.  The recursion descends to the path's parent
(one resolution shorter), so a budget of the path's resolution count is
exact; the zero-budget arm for a nonempty path is unreachable. -/
def get_or_create_alias (model : List UddlTuple) :
    Nat → ReconState → ParticipantPath → String × ReconState
  | fuel, st, path_obj =>
    let path_str := path_obj.str
    match st.path_to_alias.find? (·.1 = path_str) with
    | some kv => (kv.2, st)
    | none =>
      let tnst : String × ReconState :=
        match path_obj.resolutions with
        | [] => (path_obj.start_type, st)
        | _ :: _ =>
          match fuel with
          | 0 => (path_obj.start_type, st)
          | f + 1 =>
            let parent_path : ParticipantPath :=
              ⟨path_obj.start_type, path_obj.resolutions.dropLast⟩
            let st2 := (get_or_create_alias model f st parent_path).2
            let parent_type :=
              if parent_path.resolutions ≠ [] then
                parent_path.resolutions.foldl
                  (fun (curr : String) (res : Resolution) =>
                    match res with
                    | .assocRes _ an => an
                    | .entityRes rn _ => rec_get_entity_type model curr rn)
                  path_obj.start_type
              else path_obj.start_type
            let tn :=
              match path_obj.resolutions.getLast? with
              | some (.assocRes _ an) => an
              | some (.entityRes rn _) => rec_get_entity_type model parent_type rn
              | none => path_obj.start_type
            (tn, st2)
      let alias_name := freshAliasName tnst.2.alias_map tnst.1
      (alias_name,
        ⟨tnst.2.alias_map ++ [(alias_name, [path_obj])],
         tnst.2.path_to_alias ++ [(path_str, alias_name)]⟩)

/-- `_reconstruct_alias_map(model, paths, partial_map)` (lines 301–380). -/
def reconstruct_alias_map (model : List UddlTuple)
    (paths : List ParticipantPath) (partial_map : AliasMap) : AliasMap :=
  let pta : StrMap := partial_map.foldl
    (fun acc kv => kv.2.foldl (fun acc2 p => smSet acc2 p.str kv.1) acc) []
  let st0 : ReconState := ⟨partial_map, pta⟩
  (paths.foldl
    (fun st p =>
      let entity_path : ParticipantPath := ⟨p.start_type, p.resolutions.dropLast⟩
      (List.range (entity_path.resolutions.length + 1)).foldl
        (fun st2 i =>
          let sub_path : ParticipantPath :=
            ⟨p.start_type, entity_path.resolutions.take i⟩
          (get_or_create_alias model sub_path.resolutions.length st2 sub_path).2)
        st)
    st0).alias_map

/-! ## The query tokenizer (`query_parser.py` lines 126–149)

`re.finditer` over the alternation of token patterns, case-insensitive:
at each position the alternatives are tried in specification order, keywords
carry `\b` word-boundary guards on both sides, `SKIP` (whitespace) matches
are dropped, and positions where nothing matches are silently skipped.  The
scan is embedded with a character-count budget (each step consumes at least
one character, so the input length is an exact budget) and a flag recording
whether the previous character is a word character (the state `\b`
inspects). -/

/-- Python `\w` restricted to the ASCII plane: `[a-zA-Z0-9_]`.  Python's
`\w` (and the `IGNORECASE` case-folding of the keyword patterns) is
Unicode-aware — `é` is a word character, `ſ` case-folds onto `s` — so this
model is faithful on ASCII text only; every claim that quantifies over
characters therefore restricts its scope to ASCII input. -/
def isWordChar (c : Char) : Bool :=
  isIdentChar c

/-- An ASCII character (the plane on which the tokenizer model is
faithful). -/
def asciiChar (c : Char) : Bool :=
  c.toNat < 128

/-- An ASCII string. -/
def asciiText (s : String) : Bool :=
  s.data.all asciiChar

/-- Token kinds of the UDDL query tokenizer (`SKIP` never surfaces). -/
inductive TokKind where
  | SELECT | FROM | JOIN | ON | AND | AS | ALL
  | ID | ASTERISK | PERIOD | COMMA | EQUALS
deriving DecidableEq, Repr

/-- A token: its kind and the exact matched text (`mo.group()`). -/
structure Token where
  kind : TokKind
  value : String
deriving DecidableEq, Repr

/-- Case-insensitive match of a keyword spelling against a prefix of the
input; returns the actually matched text and the rest. -/
def matchKeywordCI : List Char → List Char → Option (List Char × List Char)
  | [], cs => some ([], cs)
  | _ :: _, [] => none
  | p :: ps, c :: cs =>
    if c.toLower = p.toLower then
      (matchKeywordCI ps cs).map fun mr => (c :: mr.1, mr.2)
    else none

/-- The keyword alternatives, in specification order. -/
def keywordList : List (TokKind × String) :=
  [(.SELECT, "SELECT"), (.FROM, "FROM"), (.JOIN, "JOIN"), (.ON, "ON"),
   (.AND, "AND"), (.AS, "AS"), (.ALL, "ALL")]

/-- A true word boundary after a keyword match: end of input or a non-word
character. -/
def boundaryAfter (rest : List Char) : Bool :=
  match rest.head? with
  | none => true
  | some c => !isWordChar c

/-- Try the keyword patterns of a list at the current position. -/
def tryKeywordsOn (l : List (TokKind × String)) (cs : List Char) :
    Option (Token × List Char) :=
  l.findSome? fun kw =>
    match matchKeywordCI kw.2.data cs with
    | some (m, rest) =>
      if boundaryAfter rest then some (⟨kw.1, String.mk m⟩, rest)
      else none
    | none => none

/-- Try the seven keyword patterns (each `\bKW\b`, case-insensitive): the
boundary before demands a non-word previous character, the boundary after a
non-word (or absent) next character. -/
def tryKeywords (prevWord : Bool) (cs : List Char) : Option (Token × List Char) :=
  if prevWord then none else tryKeywordsOn keywordList cs

/-- The `ID` pattern `[a-zA-Z_][a-zA-Z0-9_]*` (greedy). -/
def tryID (cs : List Char) : Option (Token × List Char) :=
  (takeIdent cs).map fun sr => (⟨.ID, sr.1⟩, sr.2)

/-- The single-character patterns, in specification order. -/
def symbolList : List (Char × TokKind) :=
  [('*', .ASTERISK), ('.', .PERIOD), (',', .COMMA), ('=', .EQUALS)]

/-- The single-character patterns `ASTERISK`, `PERIOD`, `COMMA`, `EQUALS`. -/
def trySymbol (cs : List Char) : Option (Token × List Char) :=
  match cs with
  | [] => none
  | c :: rest =>
    symbolList.findSome? fun sk =>
      if c = sk.1 then some (⟨sk.2, String.mk [c]⟩, rest) else none

/-- One match attempt at the current position, alternatives in specification
order; also returns whether the match's last character is a word character
(keywords and identifiers end in word characters, symbols do not). -/
def tokStep (prevWord : Bool) (cs : List Char) : Option (Token × List Char × Bool) :=
  match tryKeywords prevWord cs with
  | some (t, rest) => some (t, rest, true)
  | none =>
    match tryID cs with
    | some (t, rest) => some (t, rest, true)
    | none =>
      match trySymbol cs with
      | some (t, rest) => some (t, rest, false)
      | none => none

/-- The scan loop: emit the token found at this position, or skip one
character (whitespace via `SKIP`, and characters matching no pattern at
all — both produce no token). -/
def tokenizeAux : Nat → Bool → List Char → List Token
  | 0, _, _ => []
  | _ + 1, _, [] => []
  | fuel + 1, prevWord, c :: cs =>
    match tokStep prevWord (c :: cs) with
    | some (t, rest, pw) => t :: tokenizeAux fuel pw rest
    | none => tokenizeAux fuel (isWordChar c) cs

/-- `_tokenize(text)`: scan from the start of the string (no previous
character, so a word boundary). -/
def tokenize (text : String) : List Token :=
  tokenizeAux text.data.length false text.data

/-! ## The query parser (`query_parser.py` lines 151–288)

Each `parse_*` method is embedded as a function from the remaining token list
to `Option (result × remaining)`; `none` embeds `SyntaxError`.  The three
`while` loops (projection list, join list, join criteria) are driven by a
token-count budget, exact because every iteration consumes at least one
token. -/

/-- `_consume(expected_kind)`: fail unless the next token has the expected
kind (end of input has kind `None`, which never matches). -/
def consume? (expected : TokKind) (ts : List Token) : Option (String × List Token) :=
  match ts with
  | [] => none
  | t :: rest => if t.kind = expected then some (t.value, rest) else none

/-- `_peek()[0]`. -/
def peekKind (ts : List Token) : Option TokKind :=
  ts.head?.map (·.kind)

/-- `parse_char_ref` (lines 276–283): `[entity.]characteristic`; note a bare
identifier becomes `Reference(entity=None, characteristic=ID)`. -/
def parse_char_ref (ts : List Token) : Option (Reference × List Token) := do
  let (first, ts1) ← consume? .ID ts
  if peekKind ts1 = some .PERIOD then do
    let (_, ts2) ← consume? .PERIOD ts1
    let (second, ts3) ← consume? .ID ts2
    some (⟨some first, some second⟩, ts3)
  else
    some (⟨none, some first⟩, ts1)

/-- `parse_equivalence_expression` (lines 267–274). -/
def parse_equivalence_expression (ts : List Token) :
    Option (Equivalence × List Token) := do
  let (left, ts1) ← parse_char_ref ts
  if peekKind ts1 = some .EQUALS then do
    let (_, ts2) ← consume? .EQUALS ts1
    let (right, ts3) ← parse_char_ref ts2
    some (⟨left, some right⟩, ts3)
  else
    some (⟨left, none⟩, ts1)

/-- The `while` loop of `parse_join_criteria` (lines 256–265). -/
def parse_join_criteria : Nat → List Token → Option (List Equivalence × List Token)
  | 0, _ => none
  | fuel + 1, ts => do
    let (cond, ts1) ← parse_equivalence_expression ts
    if peekKind ts1 = some .AND then do
      let (_, ts2) ← consume? .AND ts1
      let (conds, ts3) ← parse_join_criteria fuel ts2
      some (cond :: conds, ts3)
    else
      some ([cond], ts1)

/-- `parse_selected_entity` (lines 237–246): entity type with optional
(possibly implicit) alias. -/
def parse_selected_entity (ts : List Token) : Option (Entity × List Token) := do
  let (entity_type, ts1) ← consume? .ID ts
  match peekKind ts1 with
  | some .AS => do
    let (_, ts2) ← consume? .AS ts1
    let (al, ts3) ← consume? .ID ts2
    some (⟨entity_type, some al⟩, ts3)
  | some .ID => do
    let (al, ts2) ← consume? .ID ts1
    some (⟨entity_type, some al⟩, ts2)
  | _ => some (⟨entity_type, none⟩, ts1)

/-- `parse_join_expression` (lines 248–254). -/
def parse_join_expression (fuel : Nat) (ts : List Token) :
    Option (Join × List Token) := do
  let (_, ts1) ← consume? .JOIN ts
  let (entity, ts2) ← parse_selected_entity ts1
  let (_, ts3) ← consume? .ON ts2
  let (criteria, ts4) ← parse_join_criteria fuel ts3
  some (⟨entity, criteria⟩, ts4)

/-- The `while self._peek()[0] == 'JOIN'` loop of `parse_from_clause`. -/
def parse_joins : Nat → List Token → Option (List Join × List Token)
  | 0, _ => none
  | fuel + 1, ts =>
    if peekKind ts = some .JOIN then do
      let (j, ts1) ← parse_join_expression (fuel + 1) ts
      let (js, ts2) ← parse_joins fuel ts1
      some (j :: js, ts2)
    else
      some ([], ts)

/-- `parse_from_clause` (lines 223–235). -/
def parse_from_clause (fuel : Nat) (ts : List Token) :
    Option (FromClause × List Token) := do
  let (_, ts1) ← consume? .FROM ts
  let (e, ts2) ← parse_selected_entity ts1
  let (joins, ts3) ← parse_joins fuel ts2
  some (⟨[e], joins⟩, ts3)

/-- The optional (possibly implicit) `AS` alias suffix of a projection
(lines 213–221). -/
def finishProj (ref : Reference) (ts : List Token) :
    Option (Projection × List Token) :=
  match peekKind ts with
  | some .AS => do
    let (_, ts1) ← consume? .AS ts
    let (al, ts2) ← consume? .ID ts1
    some (.projChar ref (some al), ts2)
  | some .ID => do
    let (al, ts1) ← consume? .ID ts
    some (.projChar ref (some al), ts1)
  | _ => some (.projChar ref none, ts)

/-- `parse_projected_expression` (lines 198–221). -/
def parse_projected_expression (ts : List Token) :
    Option (Projection × List Token) := do
  let (first_id, ts1) ← consume? .ID ts
  if peekKind ts1 = some .PERIOD then do
    let (_, ts2) ← consume? .PERIOD ts1
    if peekKind ts2 = some .ASTERISK then do
      let (_, ts3) ← consume? .ASTERISK ts2
      some (.entityWildcard first_id, ts3)
    else do
      let (char_name, ts3) ← consume? .ID ts2
      finishProj ⟨some first_id, some char_name⟩ ts3
  else
    finishProj ⟨none, some first_id⟩ ts1

/-- The `while True` loop of `parse_projected_list` (lines 189–196). -/
def parse_projected_list_loop : Nat → List Token →
    Option (List Projection × List Token)
  | 0, _ => none
  | fuel + 1, ts => do
    let (p, ts1) ← parse_projected_expression ts
    if peekKind ts1 = some .COMMA then do
      let (_, ts2) ← consume? .COMMA ts1
      let (ps, ts3) ← parse_projected_list_loop fuel ts2
      some (p :: ps, ts3)
    else
      some ([p], ts1)

/-- `parse_projected_list` (lines 183–196). -/
def parse_projected_list (fuel : Nat) (ts : List Token) :
    Option (List Projection × List Token) :=
  if peekKind ts = some .ASTERISK then do
    let (_, ts1) ← consume? .ASTERISK ts
    some ([Projection.allChars], ts1)
  else
    parse_projected_list_loop fuel ts

/-- `parse_query_statement` (lines 165–181). -/
def parse_query_statement (fuel : Nat) (ts : List Token) :
    Option (QueryStatement × List Token) := do
  let (_, ts1) ← consume? .SELECT ts
  let q : Option String × List Token :=
    match ts1 with
    | t :: rest => if t.kind = .ALL then (some t.value, rest) else (none, ts1)
    | [] => (none, ts1)
  let (projected, ts3) ← parse_projected_list fuel q.2
  let (from_clause, ts4) ← parse_from_clause fuel ts3
  some (⟨projected, from_clause, q.1⟩, ts4)

/-- `get_ast(query_string)`: tokenize and parse; trailing unconsumed tokens
are ignored, exactly as in the source.  The token budget `length + 1` covers
every loop, since each loop iteration consumes at least one token. -/
def getAst (query_string : String) : Option QueryStatement :=
  let ts := tokenize query_string
  (parse_query_statement (ts.length + 1) ts).map (·.1)

/-! ## Concrete scenario data -/

/-- Modelled from the spec: the example schema file `examples/gordon.txt`
loaded by the tests is not part of the snapshot; these facts record exactly
the AirSystem-scenario relationships named in spec §8 and the glossary —
`AirSystem` composes `navSystem : NavigationSystem` and
`airFrame : AirFrame`, the association `Observe` has participants
`observer : NavigationSystem` and `observed : AirFrame`, and `AirFrame`
composes the observable `pos`. -/
def gordonModel : List UddlTuple :=
  [⟨"AirSystem", "composes", "NavigationSystem", "navSystem"⟩,
   ⟨"AirSystem", "composes", "AirFrame", "airFrame"⟩,
   ⟨"Observe", "participates", "NavigationSystem", "observer"⟩,
   ⟨"Observe", "participates", "AirFrame", "observed"⟩,
   ⟨"AirFrame", "composes", "Position", "pos"⟩]

/-- The spec §8 backward-navigation path
`AirSystem.navSystem->observer[Observe].observed.pos`. -/
def c2ScenarioPath : ParticipantPath :=
  ⟨"AirSystem",
   [.entityRes "navSystem" none, .assocRes "observer" "Observe",
    .entityRes "observed" none, .entityRes "pos" none]⟩

/-- The claimed reverse-compilation target of the backward-navigation
scenario, as query text. -/
def c2ClaimText : String :=
  "SELECT AirFrame.pos FROM AirSystem JOIN NavigationSystem ON AirSystem.navSystem JOIN Observe ON Observe.observer = NavigationSystem JOIN AirFrame ON Observe.observed"

/-- The diamond-scenario paths `A.b.d` and `A.c.d` seeded under alias `D`,
and terminal characteristic paths extending each branch. -/
def diamondSeed : AliasMap :=
  [("D", [⟨"A", [.entityRes "b" none, .entityRes "d" none]⟩,
          ⟨"A", [.entityRes "c" none, .entityRes "d" none]⟩])]

/-- Terminal path `A.b.d.x`. -/
def diamondTermB : ParticipantPath :=
  ⟨"A", [.entityRes "b" none, .entityRes "d" none, .entityRes "x" none]⟩

/-- Terminal path `A.c.d.y`. -/
def diamondTermC : ParticipantPath :=
  ⟨"A", [.entityRes "c" none, .entityRes "d" none, .entityRes "y" none]⟩

/-! ## C7: which names a join-condition operand mentions -/

/-- The alias names an operand mentions: its entity qualifier and its
characteristic name (a bare operand like `B` in `ON A.b = B` carries the
name in the characteristic slot). -/
def refNames (r : Reference) : List String :=
  (match r.entity with | some e => [e] | none => []) ++
    (match r.characteristic with | some c => [c] | none => [])

/-- The condition's operands name no alias present in the alias map. -/
def condNamesNoKnownAlias (m : AliasMap) (cond : Equivalence) : Bool :=
  (refNames cond.left).all (fun n => !amContains m n) &&
    (match cond.right with
     | some r => (refNames r).all (fun n => !amContains m n)
     | none => true)

/-! ### C10: characters matching no token pattern -/

/-- The letters occurring in some keyword spelling. -/
def keywordLetters : List Char :=
  "SELECTFROMJOINANDSALL".data

/-- An ASCII character that can take part in no token: not a word
character, not one of the four symbol characters, not whitespace, and (for
the case-insensitive keyword patterns) lowering it gives no keyword letter.
The ASCII guard is part of the definition: Python's Unicode-aware `\w` and
`IGNORECASE` folding make non-ASCII characters *not* inert (`é` extends an
identifier and breaks a keyword's `\b`; `ſ` case-folds onto `s` and can
complete a keyword), so only ASCII characters are ever claimed to be
skipped. -/
def unmatchedChar (c : Char) : Bool :=
  asciiChar c && !isWordChar c && !(c ∈ ['*', '.', ',', '=', ' ', '\t', '\n']) &&
    !(keywordLetters.any fun p => c.toLower = p.toLower)

/-! ## The pretty printer (`pretty_print`)

`query_parser.py` in the snapshot defines no `pretty_print`; it is modelled
from the spec below.  The printer is embedded in two layers: a *piece list*
(the emitted tokens interleaved with the whitespace separators the canonical
layout prescribes) and its rendering to text, so that the round-trip proof
can reason about the token stream the text scans back to. -/

/-- Case-insensitive equality of a keyword spelling (first argument) with a
candidate character sequence, position by position. -/
def ciEq : List Char → List Char → Bool
  | [], [] => true
  | p :: ps, c :: cs => (c.toLower == p.toLower) && ciEq ps cs
  | _, _ => false

/-- The candidate matches no keyword spelling case-insensitively (so the
tokenizer scans it as an `ID`, never as a keyword). -/
def idNotKeyword (v : List Char) : Bool :=
  keywordList.all fun kw => !ciEq kw.2.data v

/-- The canonical spelling of each keyword kind. -/
def kwSpell : TokKind → String
  | .SELECT => "SELECT"
  | .FROM => "FROM"
  | .JOIN => "JOIN"
  | .ON => "ON"
  | .AND => "AND"
  | .AS => "AS"
  | .ALL => "ALL"
  | _ => ""

/-- The four single-character token kinds. -/
def isSymbolKind : TokKind → Bool
  | .ASTERISK | .PERIOD | .COMMA | .EQUALS => true
  | _ => false

/-- The canonical spelling of each symbol kind. -/
def symSpell : TokKind → String
  | .ASTERISK => "*"
  | .PERIOD => "."
  | .COMMA => ","
  | .EQUALS => "="
  | _ => ""

/-- Whether a token's text ends in a word character (keywords and
identifiers do, symbols do not): the `\b` state after scanning it. -/
def endsWord (t : Token) : Bool := !isSymbolKind t.kind

/-- A token the scanner reproduces verbatim when it stands at a word
boundary: an `ID` carrying a valid non-keyword identifier, a symbol carrying
its character, or (at a non-word position only) a keyword carrying a
case-variant of its spelling. -/
def tokOK (pw : Bool) (t : Token) : Bool :=
  match t.kind with
  | .ID => validIdentChars t.value.data && idNotKeyword t.value.data
  | .ASTERISK => t.value == "*"
  | .PERIOD => t.value == "."
  | .COMMA => t.value == ","
  | .EQUALS => t.value == "="
  | _ => !pw && ciEq (kwSpell t.kind).data t.value.data
      && t.value.data.all isWordChar

/-- One element of printer output: a token's text, or a whitespace
separator character. -/
inductive Piece where
  | tok (t : Token)
  | sep (c : Char)
deriving DecidableEq, Repr

/-- The emitted text of a piece list. -/
def renderPieces : List Piece → List Char
  | [] => []
  | .tok t :: ps => t.value.data ++ renderPieces ps
  | .sep c :: ps => c :: renderPieces ps

/-- The tokens of a piece list (separators emit none). -/
def toksOfPieces : List Piece → List Token
  | [] => []
  | .tok t :: ps => t :: toksOfPieces ps
  | .sep _ :: ps => toksOfPieces ps

/-- The separator characters the printer uses. -/
def sepOK (c : Char) : Bool := c == ' ' || c == '\n'

/-- The character sequence is empty or starts with a character that is not a
word character and whose lowering is not one either (so it both closes a
`\b` boundary and cannot continue a case-insensitive keyword match). -/
def lowHead : List Char → Bool
  | [] => true
  | c :: _ => !isWordChar c && !isWordChar c.toLower

/-- One keyword alternative of the scanner: a case-insensitive match of the
spelling followed by a `\b` boundary. -/
def kwAttempt (kw : TokKind × String) (cs : List Char) : Option (Token × List Char) :=
  match matchKeywordCI kw.2.data cs with
  | some (m, rest) =>
    if boundaryAfter rest then some (⟨kw.1, String.mk m⟩, rest) else none
  | none => none

/-- The rendering of the list starts at a word boundary (empty, a
separator, or a symbol token). -/
def headBoundary : List Piece → Bool
  | [] => true
  | .sep _ :: _ => true
  | .tok t :: _ => isSymbolKind t.kind

/-- Word-boundary head status of a piece list relative to a following
context whose own status is `nb`. -/
def headBoundaryA : List Piece → Bool → Bool
  | [], nb => nb
  | .sep _ :: _, _ => true
  | .tok t :: _, _ => isSymbolKind t.kind

/-- Scannability of a piece list starting at `\b` state `pw`, the following
context starting at a word boundary iff `nb`: every token is reproduced by
the scanner and every word-ending token is followed by a boundary. -/
def piecesOKA : Bool → List Piece → Bool → Bool
  | _, [], _ => true
  | _, .sep c :: ps, nb => sepOK c && piecesOKA false ps nb
  | pw, .tok t :: ps, nb =>
    tokOK pw t && (!endsWord t || headBoundaryA ps nb)
      && piecesOKA (endsWord t) ps nb

/-- Scannability of a complete piece list (end of input is a boundary). -/
def piecesOK (pw : Bool) (ps : List Piece) : Bool := piecesOKA pw ps true

/-- The `\b` state after scanning a piece list. -/
def pwOut : Bool → List Piece → Bool
  | pw, [] => pw
  | _, .sep _ :: ps => pwOut false ps
  | _, .tok t :: ps => pwOut (endsWord t) ps

/-- Join piece lists with a separator piece list between consecutive
elements. -/
def joinPieces (s : List Piece) : List (List Piece) → List Piece
  | [] => []
  | [x] => x
  | x :: xs => x ++ s ++ joinPieces s xs

/-- The canonical token of a keyword kind. -/
def kwTok (k : TokKind) : Token := ⟨k, kwSpell k⟩

/-- An identifier token. -/
def idTok (v : String) : Token := ⟨.ID, v⟩

/-- Pieces of a reference: `entity.characteristic`, or the bare
characteristic; an identity reference (`characteristic = None`) prints its
entity qualifier alone. -/
def piecesOfRef (r : Reference) : List Piece :=
  (match r.entity with
   | some e => [.tok (idTok e), .tok ⟨.PERIOD, "."⟩]
   | none => []) ++
  (match r.characteristic with
   | some c => [.tok (idTok c)]
   | none => [])

/-- Pieces of an optional alias, printed with an explicit `AS`. -/
def piecesOfAlias : Option String → List Piece
  | some a => [.sep ' ', .tok (kwTok .AS), .sep ' ', .tok (idTok a)]
  | none => []

/-- Pieces of one projection. -/
def piecesOfProj : Projection → List Piece
  | .projChar r al => piecesOfRef r ++ piecesOfAlias al
  | .allChars => [.tok ⟨.ASTERISK, "*"⟩]
  | .entityWildcard e =>
    [.tok (idTok e), .tok ⟨.PERIOD, "."⟩, .tok ⟨.ASTERISK, "*"⟩]

/-- Pieces of an entity reference (`name [AS alias]`). -/
def piecesOfEntity (e : Entity) : List Piece :=
  .tok (idTok e.name) :: piecesOfAlias e.alias_

/-- Pieces of one equivalence condition. -/
def piecesOfEquiv (q : Equivalence) : List Piece :=
  piecesOfRef q.left ++
  (match q.right with
   | some r => [.sep ' ', .tok ⟨.EQUALS, "="⟩, .sep ' '] ++ piecesOfRef r
   | none => [])

/-- Pieces of one join: `JOIN target ON cond`, each further condition on its
own line after `AND`. -/
def piecesOfJoin (j : Join) : List Piece :=
  [.sep '\n', .tok (kwTok .JOIN), .sep ' '] ++ piecesOfEntity j.target ++
  [.sep ' ', .tok (kwTok .ON), .sep ' '] ++
  joinPieces [.sep '\n', .tok (kwTok .AND), .sep ' ']
    (j.onConds.map piecesOfEquiv)

/-- Pieces of a whole statement: `SELECT [ALL]`, the projections one per
line, `FROM` and the root entity on a fresh line, then the joins.  The
`ALL` qualifier is reprinted with the exact text the parse stored. -/
def piecesOfQuery (q : QueryStatement) : List Piece :=
  [.tok (kwTok .SELECT), .sep ' '] ++
  (match q.qualifier with
   | some s => [.tok ⟨.ALL, s⟩, .sep ' ']
   | none => []) ++
  joinPieces [.tok ⟨.COMMA, ","⟩, .sep '\n'] (q.projections.map piecesOfProj) ++
  [.sep '\n', .tok (kwTok .FROM), .sep ' '] ++
  joinPieces [.tok ⟨.COMMA, ","⟩, .sep ' ']
    (q.from_clause.entities.map piecesOfEntity) ++
  (q.from_clause.joins.map piecesOfJoin).join

/-- Modelled from the spec: `pretty_print()` renders the canonical
multi-line form of a statement (one projection per line when multiple, one
`ON`/`AND` condition per line per join, keywords in their canonical
spelling, identifiers verbatim, aliases with an explicit `AS`), a
deterministic function of the AST used for display and round-trip
equivalence checks. -/
def pretty_print (q : QueryStatement) : String :=
  ⟨renderPieces (piecesOfQuery q)⟩

/-! ## Well-formedness of an AST for printing

The round trip cannot hold of every `QueryStatement` value: the grammar has
no spelling for an identifier that reads as a keyword, for an identity
reference in a condition, for `*` among other projections, or for an empty
condition list.  `astWF` states the decidable conditions under which the
printed text scans and parses back to the same tree. -/

/-- A valid identifier whose text is not a keyword. -/
def identOK (s : String) : Bool :=
  validIdentChars s.data && idNotKeyword s.data

/-- An optional alias is absent or a printable identifier. -/
def aliasWF : Option String → Bool
  | some a => identOK a
  | none => true

/-- A reference is printable in operand position: its characteristic is
present, and every named part is a printable identifier. -/
def refWF (r : Reference) : Bool :=
  (match r.entity with
   | some e => identOK e
   | none => true) &&
  (match r.characteristic with
   | some c => identOK c
   | none => false)

/-- A printable projection (`*` is only printable as the sole
projection and is excluded here). -/
def projWF : Projection → Bool
  | .projChar r al => refWF r && aliasWF al
  | .allChars => false
  | .entityWildcard e => identOK e

/-- A printable entity reference. -/
def entityWF (e : Entity) : Bool := identOK e.name && aliasWF e.alias_

/-- A printable equivalence condition. -/
def equivWF (q : Equivalence) : Bool :=
  refWF q.left &&
  (match q.right with
   | some r => refWF r
   | none => true)

/-- A printable join: printable target and a nonempty printable condition
list. -/
def joinWF (j : Join) : Bool :=
  entityWF j.target && !j.onConds.isEmpty && j.onConds.all equivWF

/-- A printable projection list: the sole `*`, or a nonempty list of
printable projections. -/
def projsWF (ps : List Projection) : Bool :=
  ps == [Projection.allChars] || (!ps.isEmpty && ps.all projWF)

/-- A printable statement: printable projections, exactly one root entity,
printable joins, and a qualifier that is absent or a case-variant of
`ALL`. -/
def astWF (q : QueryStatement) : Bool :=
  projsWF q.projections &&
  (match q.from_clause.entities with
   | [e] => entityWF e
   | _ => false) &&
  q.from_clause.joins.all joinWF &&
  (match q.qualifier with
   | some s => ciEq "ALL".data s.data && s.data.all isWordChar
   | none => true)

/-! ## The canonical token stream of a printed statement -/

/-- Tokens of a printed reference. -/
def toksOfRef (r : Reference) : List Token :=
  (match r.entity with
   | some e => [⟨.ID, e⟩, ⟨.PERIOD, "."⟩]
   | none => []) ++
  (match r.characteristic with
   | some c => [⟨.ID, c⟩]
   | none => [])

/-- Tokens of a printed optional alias. -/
def toksOfAlias : Option String → List Token
  | some a => [⟨.AS, "AS"⟩, ⟨.ID, a⟩]
  | none => []

/-- Tokens of a printed projection. -/
def toksOfProj : Projection → List Token
  | .projChar r al => toksOfRef r ++ toksOfAlias al
  | .allChars => [⟨.ASTERISK, "*"⟩]
  | .entityWildcard e => [⟨.ID, e⟩, ⟨.PERIOD, "."⟩, ⟨.ASTERISK, "*"⟩]

/-- Tokens of a printed entity reference. -/
def toksOfEntity (e : Entity) : List Token :=
  ⟨.ID, e.name⟩ :: toksOfAlias e.alias_

/-- Tokens of a printed equivalence condition. -/
def toksOfEquiv (qv : Equivalence) : List Token :=
  toksOfRef qv.left ++
  (match qv.right with
   | some r => ⟨.EQUALS, "="⟩ :: toksOfRef r
   | none => [])

/-- Token lists joined by a single separating token. -/
def joinToksSep (st : Token) : List (List Token) → List Token
  | [] => []
  | [x] => x
  | x :: xs => x ++ st :: joinToksSep st xs

/-- Tokens of a printed join. -/
def toksOfJoin (j : Join) : List Token :=
  ⟨.JOIN, "JOIN"⟩ :: (toksOfEntity j.target ++ ⟨.ON, "ON"⟩ ::
    joinToksSep ⟨.AND, "AND"⟩ (j.onConds.map toksOfEquiv))

/-- Tokens of a printed statement. -/
def toksOfQuery (q : QueryStatement) : List Token :=
  ⟨.SELECT, "SELECT"⟩ ::
  ((match q.qualifier with
    | some s => [⟨.ALL, s⟩]
    | none => []) ++
   (joinToksSep ⟨.COMMA, ","⟩ (q.projections.map toksOfProj) ++
    (⟨.FROM, "FROM"⟩ ::
     (joinToksSep ⟨.COMMA, ","⟩ (q.from_clause.entities.map toksOfEntity) ++
      (q.from_clause.joins.map toksOfJoin).join))))

/-! ## C1: the forward-hop round trip `path2query ∘ query2path`

The closed forms below describe what `query2path` builds for a query whose
joins all hang off the root with unary conditions, and what `path2query`
emits back for that alias map; `structurallyEquivalentQ` renders the claim's
equivalence notion ("same projected characteristics as a set; same join
targets; same per-join condition set up to left/right commutativity",
extended — as §8's identity/attribute equivalence demands — to identify the
unary spelling `ON s.c` with the identity spelling `ON s.c = t`). -/

/-- The effective alias of an entity reference (`alias or name`). -/
def effAlias (e : Entity) : String := pyOr e.alias_ e.name

/-- The rendered characteristic of a condition's left operand. -/
def charOf (c : Equivalence) : String := pyStr c.left.characteristic

/-- First occurrence of each string, given the set already seen. -/
def firstOccAux (seen : List String) : List String → List String
  | [] => []
  | x :: xs =>
    if x ∈ seen then firstOccAux seen xs
    else x :: firstOccAux (x :: seen) xs

/-- Duplicate removal keeping first occurrences. -/
def firstOcc (l : List String) : List String := firstOccAux [] l

/-- Pairwise-distinct strings. -/
def distinctStrs : List String → Bool
  | [] => true
  | x :: xs => !(xs.contains x) && distinctStrs xs

/-- The path set `query2path` stores under one join's target alias: one
single-hop path per distinct condition characteristic, in first-occurrence
order (duplicates are dropped by the rendered-string check). -/
def c1JoinPaths (start T : String) (conds : List Equivalence) :
    List ParticipantPath :=
  (firstOcc (conds.map charOf)).map fun c =>
    ⟨start, [.entityRes c (some T)]⟩

/-- The alias map `query2path` builds for a star query. -/
def c1Map (start root : String) (joins : List Join) : AliasMap :=
  (root, [⟨start, []⟩]) :: joins.map fun j =>
    (effAlias j.target, c1JoinPaths start j.target.name j.onConds)

/-- The `alias_types` dict `query2path` builds. -/
def c1Types (start root : String) (joins : List Join) : StrMap :=
  (root, start) :: joins.map fun j => (effAlias j.target, j.target.name)

/-- The terminal paths `query2path` emits for the projections. -/
def c1TermPaths (start root : String) (joins : List Join)
    (ps : List Projection) : List ParticipantPath :=
  ps.foldl
    (fun acc p => acc ++
      match p with
      | .projChar r _ =>
        (amGet (c1Map start root joins) (pyOr r.entity root)).map fun base =>
          ⟨start, base.resolutions ++
            [.entityRes (pyStr r.characteristic) none]⟩
      | _ => []) []

/-- A round-trippable condition: unary, source the root (explicitly or by
default), named characteristic. -/
def c1CondOK (root : String) (cond : Equivalence) : Bool :=
  cond.right.isNone &&
  (match cond.left.entity with
   | none => true
   | some s => s == root) &&
  (match cond.left.characteristic with
   | some c => c ≠ ""
   | none => false)

/-- A round-trippable join: named target, fresh nonempty alias, and a
nonempty list of round-trippable conditions. -/
def c1JoinOK (root : String) (j : Join) : Bool :=
  j.target.name ≠ "" && effAlias j.target ≠ "" && effAlias j.target ≠ root &&
  !j.onConds.isEmpty && j.onConds.all (c1CondOK root)

/-- A round-trippable projection: a named characteristic of the root or of a
join target. -/
def c1ProjOK (root : String) (targets : List String) : Projection → Bool
  | .projChar r _ =>
    (match r.characteristic with
     | some x => x ≠ ""
     | none => false) &&
    (root :: targets).contains (pyOr r.entity root)
  | _ => false

/-- The round-trippable query family: a single root entity, star-shaped
joins with unary conditions, pairwise distinct target aliases and target
type names, and projections over known aliases. -/
def c1QueryOK (q : QueryStatement) : Bool :=
  match q.from_clause.entities with
  | [re] =>
    let root := pyOr re.alias_ re.name
    root ≠ "" &&
    q.from_clause.joins.all (c1JoinOK root) &&
    distinctStrs (q.from_clause.joins.map fun j => effAlias j.target) &&
    distinctStrs (q.from_clause.joins.map (·.target.name)) &&
    q.projections.all
      (c1ProjOK root (q.from_clause.joins.map fun j => effAlias j.target))
  | _ => false

/-- The joins `path2query` emits back: explicit alias equal to the original
effective alias, and one identity-form condition per distinct characteristic
of the original join. -/
def c1ExpectedJoins (root : String) (joins : List Join) : List Join :=
  joins.map fun j =>
    ⟨⟨j.target.name, some (effAlias j.target)⟩,
      (firstOcc (j.onConds.map charOf)).map fun c =>
        ⟨⟨some root, some c⟩, some ⟨some (effAlias j.target), none⟩⟩⟩

/-- The projections `path2query` emits back: each original projection
reappears with its effective source alias made explicit, once per stored
path of that alias. -/
def c1ExpectedProjections (start root : String) (joins : List Join)
    (ps : List Projection) : List Projection :=
  ps.foldl
    (fun acc p => acc ++
      match p with
      | .projChar r _ =>
        (amGet (c1Map start root joins) (pyOr r.entity root)).map fun _ =>
          (.projChar ⟨some (pyOr r.entity root),
            some (pyStr r.characteristic)⟩ none : Projection)
      | _ => []) []

/-- The exact statement `path2query` returns for a round-trippable query. -/
def c1Expected (q : QueryStatement) : QueryStatement :=
  match q.from_clause.entities with
  | [re] =>
    ⟨c1ExpectedProjections re.name (pyOr re.alias_ re.name)
        q.from_clause.joins q.projections,
      ⟨[⟨re.name, some (pyOr re.alias_ re.name)⟩],
        c1ExpectedJoins (pyOr re.alias_ re.name) q.from_clause.joins⟩,
      none⟩
  | _ => ⟨[], ⟨[], []⟩, none⟩

/-- The claim's key for a projected characteristic: its effective source
entity (defaulting to the root) and its characteristic. -/
def projKeys (rootX : String) (ps : List Projection) :
    List (String × String) :=
  ps.filterMap fun p =>
    match p with
    | .projChar r _ => some (pyOr r.entity rootX, pyStr r.characteristic)
    | _ => none

/-- The claim's key for a join target: type name and effective alias. -/
def targKeys (js : List Join) : List (String × String) :=
  js.map fun j => (j.target.name, effAlias j.target)

/-- The claim's key for a join condition against target alias `t`: the
source alias and characteristic, reading a unary condition and an
identity-form condition (in either operand order) alike. -/
def condKeySpec (rootX t : String) (e : Equivalence) :
    Option (String × String) :=
  match e.right with
  | none => e.left.characteristic.map fun c => (pyOr e.left.entity rootX, c)
  | some r =>
    if r.characteristic.isNone && (pyOr r.entity rootX == t) then
      e.left.characteristic.map fun c => (pyOr e.left.entity rootX, c)
    else if e.left.characteristic.isNone
        && (pyOr e.left.entity rootX == t) then
      r.characteristic.map fun c => (pyOr r.entity rootX, c)
    else none

/-- Equality of key lists as sets. -/
def sameSetB (A B : List (String × String)) : Bool :=
  A.all (B.contains ·) && B.all (A.contains ·)

/-- Condition sets of two joins agree up to operand order and the
unary/identity spelling. -/
def condSetEquiv (rootX t : String) (cs ds : List Equivalence) : Bool :=
  match cs.mapM (condKeySpec rootX t), ds.mapM (condKeySpec rootX t) with
  | some ks, some ls => sameSetB ks ls
  | _, _ => false

/-- The claim's structural equivalence of two statements: same projected
characteristic set (source defaulted to the root), same join-target set
(type name and effective alias), and for each join a join of the other with
the same target and the same condition set up to operand order and the
unary/identity spelling. -/
def structurallyEquivalentQ (q1 q2 : QueryStatement) : Bool :=
  match q1.from_clause.entities.head?, q2.from_clause.entities.head? with
  | some r1, some r2 =>
    let root1 := pyOr r1.alias_ r1.name
    let root2 := pyOr r2.alias_ r2.name
    sameSetB (projKeys root1 q1.projections) (projKeys root2 q2.projections) &&
    sameSetB (targKeys q1.from_clause.joins) (targKeys q2.from_clause.joins) &&
    (q1.from_clause.joins.all fun j1 =>
      q2.from_clause.joins.any fun j2 =>
        ((j1.target.name, effAlias j1.target)
            == (j2.target.name, effAlias j2.target)) &&
          condSetEquiv root1 (effAlias j1.target) j1.onConds j2.onConds) &&
    (q2.from_clause.joins.all fun j2 =>
      q1.from_clause.joins.any fun j1 =>
        ((j1.target.name, effAlias j1.target)
            == (j2.target.name, effAlias j2.target)) &&
          condSetEquiv root1 (effAlias j1.target) j1.onConds j2.onConds)
  | _, _ => false

/-- A condition that can never select its own join target as the source
alias: its left qualifier (defaulted to the root alias) and its explicit
right qualifier (if any) both differ from the target alias.  This marks the
domain on which the snapshot semantics of `addCondPaths` coincides with the
program: when source and target alias coincide on a nonempty path list,
Python iterates `alias_map[source_alias]` while appending to that same list
(`query_path_conversion.py` lines 111–114) and never terminates. -/
def condNoSelf (root t : String) (cond : Equivalence) : Bool :=
  (pyOr cond.left.entity root ≠ t) &&
  (match cond.right with
   | none => true
   | some r =>
     match r.entity with
     | none => true
     | some s => s ≠ t)

/-- No join condition of the statement is self-referential in the sense of
`condNoSelf`: on these statements the forward compilation terminates in
Python exactly as in the embedding. -/
def noSelfJoins (q : QueryStatement) : Bool :=
  match q.from_clause.entities with
  | [] => true
  | re :: _ =>
    q.from_clause.joins.all fun j =>
      j.onConds.all
        (condNoSelf (pyOr re.alias_ re.name)
          (pyOr j.target.alias_ j.target.name))

theorem takeIdent_append (cs : List Char) :
    ∀ s rest, takeIdent cs = some (s, rest) → s.data ++ rest = cs := by
  intro s rest h
  match cs with
  | [] => simp [takeIdent] at h
  | c :: cs' =>
    simp only [takeIdent] at h
    split at h
    · obtain ⟨h1, h2⟩ := Prod.mk.injEq .. ▸ (Option.some.injEq .. ▸ h)
      subst h2
      have : s.data = c :: cs'.takeWhile isIdentChar := by rw [← h1]
      rw [this]
      simp [List.takeWhile_append_dropWhile]
    · exact absurd h (by simp)

/-! ### Round-trip lemmas for the participant path parser -/

theorem takeWhile_append_of_all {p : Char → Bool} (l1 l2 : List Char)
    (h1 : l1.all p = true) (h2 : ∀ c, l2.head? = some c → p c = false) :
    (l1 ++ l2).takeWhile p = l1 ∧ (l1 ++ l2).dropWhile p = l2 := by
  induction l1 with
  | nil =>
    cases l2 with
    | nil => simp
    | cons c tl => simp [List.takeWhile_cons, List.dropWhile_cons, h2 c rfl]
  | cons c tl ih =>
    simp only [List.all_cons, Bool.and_eq_true] at h1
    have := ih h1.2
    simp [List.takeWhile_cons, List.dropWhile_cons, h1.1, this.1, this.2]

theorem takeIdent_of_valid (s : String) (rest : List Char)
    (hv : validIdent s = true)
    (hrest : ∀ c, rest.head? = some c → isIdentChar c = false) :
    takeIdent (s.data ++ rest) = some (s, rest) := by
  unfold validIdent at hv
  match h : s.data with
  | [] => rw [h] at hv; simp [validIdentChars] at hv
  | c :: tl =>
    rw [h] at hv
    simp only [validIdentChars, Bool.and_eq_true] at hv
    have hw := takeWhile_append_of_all tl rest hv.2 hrest
    have hs : String.mk (c :: tl) = s := by
      cases s; simp_all
    simp [takeIdent, hv.1, hw.1, hw.2, hs]

/-- The rendering of a resolution list never starts with an identifier
character: it is empty or starts with a period or an arrow. -/
theorem renderList_head_not_ident (rs : List Resolution) :
    ∀ c, (Resolution.renderList rs).data.head? = some c → isIdentChar c = false := by
  cases rs with
  | nil => intro c hc; simp [Resolution.renderList] at hc
  | cons r rs' =>
    cases r with
    | entityRes rn tt =>
      intro c hc
      simp only [Resolution.renderList, Resolution.str, String.data_append] at hc
      have : c = '.' := by
        have : (("." : String).data ++ rn.data ++ (Resolution.renderList rs').data).head? = some c := by
          simpa using hc
        simpa [show ("." : String).data = ['.'] from rfl] using this.symm
      subst this; decide
    | assocRes rn an =>
      intro c hc
      simp only [Resolution.renderList, Resolution.str, String.data_append] at hc
      have : c = '-' := by
        have : (("->" : String).data ++ rn.data ++ (("[" : String).data ++ an.data
            ++ (("]" : String).data ++ (Resolution.renderList rs').data))).head? = some c := by
          simpa [List.append_assoc] using hc
        simpa [show ("->" : String).data = ['-', '>'] from rfl] using this.symm
      subst this; decide

theorem validIdent_length (s : String) (h : validIdent s = true) :
    1 ≤ s.data.length := by
  unfold validIdent validIdentChars at h
  match hd : s.data with
  | [] => rw [hd] at h; simp at h
  | c :: tl => simp

theorem parseResolutionsAux_renderList (rs : List Resolution) :
    ∀ fuel, ResolutionsWellFormed rs = true →
      (Resolution.renderList rs).data.length ≤ fuel →
      parseResolutionsAux fuel (Resolution.renderList rs).data
        = some (stripTargets rs) := by
  induction rs with
  | nil =>
    intro fuel _ _
    show parseResolutionsAux fuel ([] : List Char) = some (stripTargets [])
    cases fuel <;> rfl
  | cons r rs' ih =>
    intro fuel h hlen
    simp only [ResolutionsWellFormed, List.all_cons, Bool.and_eq_true] at h
    cases r with
    | entityRes rn tt =>
      have hrn : validIdent rn = true := h.1
      have hdata : (Resolution.renderList (.entityRes rn tt :: rs')).data
          = '.' :: (rn.data ++ (Resolution.renderList rs').data) := by
        simp [Resolution.renderList, Resolution.str, String.data_append,
          show ("." : String).data = ['.'] from rfl]
      rw [hdata] at hlen ⊢
      have hrnlen := validIdent_length rn hrn
      simp only [List.length_cons, List.length_append] at hlen
      match fuel, hlen with
      | f + 1, _ =>
        have hrec := ih f h.2 (by omega)
        simp only [parseResolutionsAux,
          takeIdent_of_valid rn (Resolution.renderList rs').data hrn
            (renderList_head_not_ident rs'),
          Option.some_bind, hrec, Option.map_some']
        rfl
    | assocRes rn an =>
      have hrn : validIdent rn = true := by
        have := h.1; simp only [Bool.and_eq_true] at this; exact this.1
      have han : validIdent an = true := by
        have := h.1; simp only [Bool.and_eq_true] at this; exact this.2
      have hdata : (Resolution.renderList (.assocRes rn an :: rs')).data
          = '-' :: '>' :: (rn.data ++ '[' ::
            (an.data ++ ']' :: (Resolution.renderList rs').data)) := by
        simp [Resolution.renderList, Resolution.str, String.data_append,
          show ("->" : String).data = ['-', '>'] from rfl,
          show ("[" : String).data = ['['] from rfl,
          show ("]" : String).data = [']'] from rfl]
      rw [hdata] at hlen ⊢
      have hrnlen := validIdent_length rn hrn
      have hanlen := validIdent_length an han
      simp only [List.length_cons, List.length_append] at hlen
      match fuel, hlen with
      | f + 1, _ =>
        have h1 : takeIdent (rn.data ++ '[' :: (an.data ++ ']'
            :: (Resolution.renderList rs').data)) = some (rn, '[' ::
              (an.data ++ ']' :: (Resolution.renderList rs').data)) :=
          takeIdent_of_valid rn _ hrn
            (by intro c hc; simp at hc; subst hc; decide)
        have h2 : takeIdent (an.data ++ ']' :: (Resolution.renderList rs').data)
            = some (an, ']' :: (Resolution.renderList rs').data) :=
          takeIdent_of_valid an _ han
            (by intro c hc; simp at hc; subst hc; decide)
        have hrec := ih f h.2 (by omega)
        simp only [parseResolutionsAux, h1, Option.some_bind, h2, hrec,
          Option.map_some']
        rfl

theorem parseResolutions_renderList (rs : List Resolution)
    (h : ResolutionsWellFormed rs = true) :
    parseResolutions (Resolution.renderList rs).data = some (stripTargets rs) :=
  parseResolutionsAux_renderList rs _ h le_rfl

theorem parseResolutionsAux_render_exact (n : Nat) :
    ∀ (cs : List Char) (rs : List Resolution),
      parseResolutionsAux n cs = some rs → (Resolution.renderList rs).data = cs := by
  induction n with
  | zero =>
    intro cs rs h
    cases cs with
    | nil =>
      simp only [parseResolutionsAux, Option.some.injEq] at h
      subst h; rfl
    | cons c cs' => simp [parseResolutionsAux] at h
  | succ f ih =>
    intro cs rs h
    cases cs with
    | nil =>
      simp only [parseResolutionsAux, Option.some.injEq] at h
      subst h; rfl
    | cons c cs' =>
      unfold parseResolutionsAux at h
      split at h
      · rename_i heql
        exact absurd heql (by simp)
      · simp at h
      · rename_i fuel cs'' heqn heql
        rw [heql]
        match hti : takeIdent cs'' with
        | none => rw [hti] at h; exact absurd h (by simp)
        | some (role, rest1) =>
          rw [hti] at h
          simp only [Option.some_bind] at h
          split at h
          · rename_i rest2
            match hti2 : takeIdent rest2 with
            | none => rw [hti2] at h; exact absurd h (by simp)
            | some (an, rest3) =>
              rw [hti2] at h
              simp only [Option.some_bind] at h
              split at h
              · rename_i rest4
                match hrec : parseResolutionsAux fuel rest4 with
                | none => rw [hrec] at h; exact absurd h (by simp)
                | some rs' =>
                  rw [hrec] at h
                  simp only [Option.map_some', Option.some.injEq] at h
                  subst h
                  have e1 := takeIdent_append cs'' role _ hti
                  have e2 := takeIdent_append rest2 an _ hti2
                  have hf' : fuel = f := by omega
                  have e3 := ih rest4 rs' (hf' ▸ hrec)
                  simp only [Resolution.renderList, Resolution.str,
                    String.data_append, e3,
                    show ("->" : String).data = ['-', '>'] from rfl,
                    show ("[" : String).data = ['['] from rfl,
                    show ("]" : String).data = [']'] from rfl]
                  rw [← e1, ← e2]
                  simp
              · simp at h
          · simp at h
      · rename_i fuel cs'' heqn heql
        rw [heql]
        match hti : takeIdent cs'' with
        | none => rw [hti] at h; exact absurd h (by simp)
        | some (role, rest1) =>
          rw [hti] at h
          simp only [Option.some_bind] at h
          match hrec : parseResolutionsAux fuel rest1 with
          | none => rw [hrec] at h; exact absurd h (by simp)
          | some rs' =>
            rw [hrec] at h
            simp only [Option.map_some', Option.some.injEq] at h
            subst h
            have e1 := takeIdent_append cs'' role _ hti
            have hf' : fuel = f := by omega
            have e3 := ih rest1 rs' (hf' ▸ hrec)
            simp only [Resolution.renderList, Resolution.str,
              String.data_append, e3,
              show ("." : String).data = ['.'] from rfl]
            rw [← e1]
            simp
      · simp at h

theorem parseResolutions_render_exact (cs : List Char) (rs : List Resolution)
    (h : parseResolutions cs = some rs) :
    (Resolution.renderList rs).data = cs :=
  parseResolutionsAux_render_exact cs.length cs rs h

theorem structEq_stripTargets (st : String) (rs : List Resolution) :
    ParticipantPath.structEq ⟨st, stripTargets rs⟩ ⟨st, rs⟩ = true := by
  have hlen : ∀ l : List Resolution, (stripTargets l).length = l.length := by
    intro l
    induction l with
    | nil => rfl
    | cons r l' ih => cases r <;> simp [stripTargets, ih]
  have hall : ∀ l : List Resolution,
      ((stripTargets l).zip l).all (fun rr => rr.1.structEq rr.2) = true := by
    intro l
    induction l with
    | nil => rfl
    | cons r l' ih =>
      cases r with
      | entityRes rn tt =>
        show ((Resolution.entityRes rn none, Resolution.entityRes rn tt) ::
          (stripTargets l').zip l').all (fun rr => rr.1.structEq rr.2) = true
        rw [List.all_cons, ih]
        simp [Resolution.structEq]
      | assocRes rn an =>
        show ((Resolution.assocRes rn an, Resolution.assocRes rn an) ::
          (stripTargets l').zip l').all (fun rr => rr.1.structEq rr.2) = true
        rw [List.all_cons, ih]
        simp [Resolution.structEq]
  unfold ParticipantPath.structEq
  rw [hlen rs, hall rs]
  simp

/-- **C5.** The participant path parser and the path rendering are mutual
inverses: (i) any text the parser accepts is reproduced character for
character by rendering the parsed path, and (ii) any well-formed path
(identifier-shaped start type and hop names) parses back from its rendering
to a structurally equal path (same start type, element-wise structurally
equal hops — the incidental cached target type is not part of structural
equality, per spec §4.1). -/
theorem c5_parse_print_mutual_inverses :
    (∀ text p, ParticipantPath.parse text = some p → p.str = text) ∧
    (∀ p : ParticipantPath, PathWellFormed p = true →
      ∃ p', ParticipantPath.parse p.str = some p' ∧ p'.structEq p = true) := by
  constructor
  · intro text p h
    unfold ParticipantPath.parse at h
    match hto : takeIdent text.data with
    | none => rw [hto] at h; simp at h
    | some (st, rest) =>
      rw [hto] at h
      simp only [Option.some_bind] at h
      match hps : parseResolutions rest with
      | none => rw [hps] at h; simp at h
      | some rs =>
        rw [hps] at h
        simp only [Option.map_some', Option.some.injEq] at h
        subst h
        have e1 := takeIdent_append text.data st rest hto
        have e2 := parseResolutions_render_exact rest rs hps
        show st ++ Resolution.renderList rs = text
        cases text with
        | mk d =>
          have hd : (st ++ Resolution.renderList rs).data = d := by
            rw [String.data_append, e2]
            simpa using e1
          rw [← hd]
  · intro p hwf
    simp only [PathWellFormed, Bool.and_eq_true] at hwf
    refine ⟨⟨p.start_type, stripTargets p.resolutions⟩, ?_, ?_⟩
    · unfold ParticipantPath.parse
      have hdata : p.str.data = p.start_type.data
          ++ (Resolution.renderList p.resolutions).data := by
        simp [ParticipantPath.str, String.data_append]
      rw [hdata, takeIdent_of_valid p.start_type _ hwf.1
        (renderList_head_not_ident p.resolutions)]
      simp only [Option.some_bind,
        parseResolutions_renderList p.resolutions hwf.2, Option.map_some']
    · exact structEq_stripTargets p.start_type p.resolutions

/-- Witness for C5: the backward-navigation scenario path of spec §8
round-trips through rendering and parsing up to structural equality. -/
theorem c5_round_trip_witness :
    ∃ p', ParticipantPath.parse
        (ParticipantPath.str ⟨"AirSystem",
          [.entityRes "navSystem" (some "NavigationSystem"),
           .assocRes "observer" "Observe", .entityRes "pos" none]⟩) = some p' ∧
      ParticipantPath.structEq p' ⟨"AirSystem",
          [.entityRes "navSystem" (some "NavigationSystem"),
           .assocRes "observer" "Observe", .entityRes "pos" none]⟩ = true :=
  c5_parse_print_mutual_inverses.2
    ⟨"AirSystem", [.entityRes "navSystem" (some "NavigationSystem"),
      .assocRes "observer" "Observe", .entityRes "pos" none]⟩ (by decide)

/-- **C2, counterexample.**  Reverse-compiling the backward-navigation path
does not produce *exactly* the claimed query: the emitted statement carries
an explicit alias on every entity (`AirSystem AS AirSystem`, …) and renders
every condition as an explicit identity equivalence
(`AirSystem.navSystem = NavigationSystem` with the right operand an identity
reference), whereas parsing the claimed text gives unqualified entities,
unary conditions, and a bare right operand. -/
theorem c2_not_exactly_claimed_query :
    ∃ produced expected,
      path2query (reconstruct_alias_map gordonModel [c2ScenarioPath] [])
          [c2ScenarioPath] gordonModel = some [produced] ∧
      getAst c2ClaimText = some expected ∧ produced ≠ expected := by
  refine ⟨⟨[.projChar ⟨some "AirFrame", some "pos"⟩ none],
    ⟨[⟨"AirSystem", some "AirSystem"⟩],
     [⟨⟨"NavigationSystem", some "NavigationSystem"⟩,
       [⟨⟨some "AirSystem", some "navSystem"⟩,
         some ⟨some "NavigationSystem", none⟩⟩]⟩,
      ⟨⟨"Observe", some "Observe"⟩,
       [⟨⟨some "Observe", some "observer"⟩,
         some ⟨some "NavigationSystem", none⟩⟩]⟩,
      ⟨⟨"AirFrame", some "AirFrame"⟩,
       [⟨⟨some "Observe", some "observed"⟩,
         some ⟨some "AirFrame", none⟩⟩]⟩]⟩, none⟩,
    ⟨[.projChar ⟨some "AirFrame", some "pos"⟩ none],
    ⟨[⟨"AirSystem", none⟩],
     [⟨⟨"NavigationSystem", none⟩,
       [⟨⟨some "AirSystem", some "navSystem"⟩, none⟩]⟩,
      ⟨⟨"Observe", none⟩,
       [⟨⟨some "Observe", some "observer"⟩,
         some ⟨none, some "NavigationSystem"⟩⟩]⟩,
      ⟨⟨"AirFrame", none⟩,
       [⟨⟨some "Observe", some "observed"⟩, none⟩]⟩]⟩, none⟩, ?_, ?_, ?_⟩
  · rfl
  · rfl
  · decide

/-- **C2, amended.**  Reverse-compiling
`AirSystem.navSystem->observer[Observe].observed.pos` (alias map
reconstructed against the schema) produces exactly one statement:
`SELECT AirFrame.pos FROM AirSystem AS AirSystem` followed by joins in
exactly the order `NavigationSystem`, `Observe`, `AirFrame` — as the claim
demands, not merely the same join set — with each entity explicitly aliased
by its type name and each condition emitted as an explicit identity
equivalence (`AirSystem.navSystem = NavigationSystem`;
`Observe.observer = NavigationSystem`; `Observe.observed = AirFrame`). -/
theorem c2_reverse_compile_exact_output :
    path2query (reconstruct_alias_map gordonModel [c2ScenarioPath] [])
        [c2ScenarioPath] gordonModel
      = some [⟨[.projChar ⟨some "AirFrame", some "pos"⟩ none],
        ⟨[⟨"AirSystem", some "AirSystem"⟩],
         [⟨⟨"NavigationSystem", some "NavigationSystem"⟩,
           [⟨⟨some "AirSystem", some "navSystem"⟩,
             some ⟨some "NavigationSystem", none⟩⟩]⟩,
          ⟨⟨"Observe", some "Observe"⟩,
           [⟨⟨some "Observe", some "observer"⟩,
             some ⟨some "NavigationSystem", none⟩⟩]⟩,
          ⟨⟨"AirFrame", some "AirFrame"⟩,
           [⟨⟨some "Observe", some "observed"⟩,
             some ⟨some "AirFrame", none⟩⟩]⟩]⟩, none⟩] := rfl

/-- **C3, counterexample.**  An alias map in which `D` is seeded with the two
diamond paths `A.b.d` and `A.c.d` does not always yield a `D`-join with two
equivalences: reconstructing with only the `A.b.d` branch materialised as a
terminal path leaves `A.c` without an alias, and the emitted `D`-join then
carries exactly one condition — the `A.c.d`-derived equivalence is silently
dropped — even though `D` still holds both seeded paths. -/
theorem c3_unaliased_branch_drops_condition :
    (amGet (reconstruct_alias_map [] [diamondTermB] diamondSeed) "D").length = 2 ∧
    (path2query (reconstruct_alias_map [] [diamondTermB] diamondSeed)
        [diamondTermB] []).map
      (fun qs => qs.map fun q =>
        (q.from_clause.joins.filter (fun j => j.target.alias_ = some "D")).map
          (fun j => j.onConds.length))
      = some [[1]] := by
  exact ⟨rfl, rfl⟩

/-- **C3, amended.**  When every proper prefix of the seeded diamond paths is
itself the path of some alias in the reconstructed map (as happens when the
terminal paths cover both branches), `path2query` emits exactly one `Join`
whose target alias is `D`, carrying exactly two ANDed equivalences, one
derived from each seeded path — never two separate joins for `D`, never one
merged condition; a seeded path whose immediate prefix has no alias instead
contributes no condition. -/
theorem c3_diamond_one_join_two_conditions :
    (path2query (reconstruct_alias_map [] [diamondTermB, diamondTermC] diamondSeed)
        [diamondTermB, diamondTermC] []).map
      (fun qs => qs.map fun q =>
        q.from_clause.joins.filter (fun j => j.target.alias_ = some "D"))
      = some [[⟨⟨"d", some "D"⟩,
        [⟨⟨some "b", some "d"⟩, some ⟨some "D", none⟩⟩,
         ⟨⟨some "c", some "d"⟩, some ⟨some "D", none⟩⟩]⟩]] := rfl

/-- **C4.**  `JOIN B ON A.b` and `JOIN B ON A.b = B` do *not* forward-compile
identically: the unary form gives alias `B` the single hop
`EntityResolution("b")`, but in the parsed binary form the bare identity
operand `B` becomes `Reference(entity=None, characteristic="B")`, which
`is_identity` rejects (it tests the characteristic slot), so no branch of the
condition classification fires and alias `B` receives no path at all — the
whole condition is silently dropped, contradicting the module's own
documentation of identity resolution (`query_path_conversion.py` lines
19–22) and spec §8. -/
theorem c4_identity_vs_unary_join_divergence :
    (getAst "SELECT B.x FROM A JOIN B ON A.b").map
        (fun q => amGet (query2path q []).1 "B")
      = some [⟨"A", [.entityRes "b" (some "B")]⟩] ∧
    (getAst "SELECT B.x FROM A JOIN B ON A.b = B").map
        (fun q => amGet (query2path q []).1 "B")
      = some [] ∧
    (getAst "SELECT B.x FROM A JOIN B ON A.b").map (fun q => query2path q [])
      ≠ (getAst "SELECT B.x FROM A JOIN B ON A.b = B").map
        (fun q => query2path q []) := by
  refine ⟨rfl, rfl, ?_⟩
  decide

/-- **C9, counterexample.**  A statement with entities but no projections
does *not* compile to an empty alias map: the root alias is seeded
unconditionally, so the alias map contains the root's zero-length path. -/
theorem c9_no_projections_alias_map_nonempty :
    (query2path ⟨[], ⟨[⟨"A", none⟩], []⟩, none⟩ []).1 = [("A", [⟨"A", []⟩])] ∧
    (query2path ⟨[], ⟨[⟨"A", none⟩], []⟩, none⟩ []).1 ≠ [] := by
  exact ⟨rfl, by decide⟩

/-- **C9, amended.**  Forward-compiling a statement whose `FROM` clause has
no entities returns an empty alias map and an empty path list, and
forward-compiling a statement with no projections — provided no join
condition names its own join's target alias as source (`noSelfJoins`) —
returns an empty projected-path list (its alias map still holds the root
and join aliases); neither raises.  The proviso on the second part marks
where the claim is about the program at all: a self-referential condition
(e.g. `FROM A JOIN A ON A.x`) makes Python iterate a path list it appends
to and never return. -/
theorem c9_empty_inputs :
    (∀ (q : QueryStatement) (model : List UddlTuple),
      q.from_clause.entities = [] → query2path q model = ([], [])) ∧
    (∀ (q : QueryStatement) (model : List UddlTuple),
      noSelfJoins q = true →
      q.projections = [] → (query2path q model).2 = []) := by
  constructor
  · intro q model h
    unfold query2path
    rw [h]
  · intro q model _ h
    unfold query2path
    match he : q.from_clause.entities with
    | [] => rfl
    | root_entity :: _ =>
      rw [h]
      rfl

/-- Witness for C9: both amended conclusions at concrete statements. -/
theorem c9_empty_inputs_witness :
    query2path ⟨[.projChar ⟨none, some "a"⟩ none], ⟨[], []⟩, none⟩ [] = ([], []) ∧
    (query2path ⟨[], ⟨[⟨"A", none⟩],
      [⟨⟨"B", none⟩, [⟨⟨some "A", some "b"⟩, none⟩]⟩]⟩, none⟩ []).2 = [] :=
  ⟨c9_empty_inputs.1 ⟨[.projChar ⟨none, some "a"⟩ none], ⟨[], []⟩, none⟩ [] rfl,
   c9_empty_inputs.2 ⟨[], ⟨[⟨"A", none⟩],
     [⟨⟨"B", none⟩, [⟨⟨some "A", some "b"⟩, none⟩]⟩]⟩, none⟩ [] (by decide) rfl⟩

/-- **C7, counterexample.**  An equivalence condition whose operands name no
alias present in the alias map is not always a no-op: the unary condition
`ON x` (with `x` neither an alias nor qualified by one) names nothing in the
map `{A, B}`, yet the forward compiler defaults its missing qualifier to the
root alias and adds the path `A.x` under the join target `B`. -/
theorem c7_unqualified_unary_adds_path :
    condNamesNoKnownAlias [("A", [⟨"A", []⟩]), ("B", [])]
        ⟨⟨none, some "x"⟩, none⟩ = true ∧
    processCond "A" "A" "B" "B" [("A", [⟨"A", []⟩]), ("B", [])]
        ⟨⟨none, some "x"⟩, none⟩
      = [("A", [⟨"A", []⟩]), ("B", [⟨"A", [.entityRes "x" (some "B")]⟩])] ∧
    (getAst "SELECT B.q FROM A JOIN B ON x").map
        (fun q => amGet (query2path q []).1 "B")
      = some [⟨"A", [.entityRes "x" (some "B")]⟩] := by
  refine ⟨by decide, rfl, rfl⟩

/-- **C7, amended.**  An equivalence condition whose left operand carries an
explicit entity qualifier naming no alias in the alias map, and whose right
operand (if present) is unqualified or likewise qualifies an unknown alias,
is a silent no-op in the forward compiler: it leaves the alias map exactly
unchanged (no path is added to any alias, no error is raised) and the
remaining conditions compile as if it were absent.  (An *unqualified* left
operand instead defaults to the root alias, per the counterexample.) -/
theorem c7_unknown_qualified_operands_noop :
    ∀ (m : AliasMap) (start_type root_alias target_alias target_type : String)
      (cond : Equivalence) (lz : String),
      cond.left.entity = some lz → lz ≠ "" → amContains m lz = false →
      (cond.right = none ∨
        ∃ r, cond.right = some r ∧
          (r.entity = none ∨ ∃ rz, r.entity = some rz ∧ amContains m rz = false)) →
      processCond start_type root_alias target_alias target_type m cond = m ∧
      ∀ conds, processJoinConds start_type root_alias target_alias target_type m
          (cond :: conds)
        = processJoinConds start_type root_alias target_alias target_type m conds := by
  intro m start_type root_alias target_alias target_type cond lz hlz hne hcont hright
  have hla : pyOr cond.left.entity root_alias = lz := by simp [pyOr, hlz, hne]
  have hstep : processCond start_type root_alias target_alias target_type m cond
      = m := by
    unfold processCond classifyCond
    rcases hright with h | ⟨r, hr, hre⟩
    · rw [h]
      simp [hla, hcont]
    · rw [hr]
      rcases hre with hre | ⟨rz, hrz, hrzc⟩
      · simp [hla, hcont, hre, optContains]
      · simp [hla, hcont, hrz, hrzc, optContains]
  refine ⟨hstep, fun conds => ?_⟩
  unfold processJoinConds
  rw [List.foldl_cons, hstep]

/-- Witness for C7: a binary condition qualifying two unknown aliases on both
sides is a no-op on a concrete two-alias map. -/
theorem c7_noop_witness :
    processCond "A" "A" "B" "B" [("A", [⟨"A", []⟩]), ("B", [])]
        ⟨⟨some "Z", some "x"⟩, some ⟨some "W", some "y"⟩⟩
      = [("A", [⟨"A", []⟩]), ("B", [])] :=
  (c7_unknown_qualified_operands_noop [("A", [⟨"A", []⟩]), ("B", [])]
    "A" "A" "B" "B" ⟨⟨some "Z", some "x"⟩, some ⟨some "W", some "y"⟩⟩ "Z"
    rfl (by decide) (by decide)
    (Or.inr ⟨⟨some "W", some "y"⟩, rfl, Or.inr ⟨"W", rfl, by decide⟩⟩)).1

/-! ### C8 lemmas: type-resolution failure is non-fatal -/

theorem resolveTargetType_isSome_eq (paths : List ParticipantPath)
    (model model' : List UddlTuple) (st st' : Option String) :
    (resolveTargetType paths model st).isSome
      = (resolveTargetType paths model' st').isSome := by
  unfold resolveTargetType
  cases paths with
  | nil => rfl
  | cons p ps =>
    simp only [List.head?]
    cases hl : p.resolutions.getLast? with
    | none => rfl
    | some res =>
      cases res with
      | assocRes rn an => rfl
      | entityRes rn tt =>
        have hsome : ∀ (mo : List UddlTuple) (s : Option String),
            (if pyTruthy tt then some (tt.getD "")
             else if mo = [] then some rn
             else
               match s with
               | some stv =>
                 if stv ≠ "" then
                   match mo.find? (fun t => t.subject = stv && t.rolename = rn) with
                   | some t =>
                     some (if t.object.data.contains '.' then
                         String.mk (t.object.data.takeWhile (· ≠ '.'))
                       else t.object)
                   | none => some rn
                 else some rn
               | none => some rn).isSome = true := by
          intro mo s
          split
          · rfl
          · split
            · rfl
            · match s with
              | none => rfl
              | some stv =>
                simp only []
                split
                · split <;> rfl
                · rfl
        simp only [hsome]

theorem smSet_keys (m : StrMap) (k v : String) :
    (smSet m k v).map (·.1) = if smContains m k then m.map (·.1)
      else m.map (·.1) ++ [k] := by
  unfold smSet
  split
  · rw [List.map_map]
    congr 1
    funext kv
    simp only [Function.comp]
    split <;> simp_all
  · simp

theorem smContains_of_keys_eq (m m' : StrMap)
    (h : m.map (·.1) = m'.map (·.1)) (k : String) :
    smContains m k = smContains m' k := by
  unfold smContains
  induction m generalizing m' with
  | nil =>
    cases m' with
    | nil => rfl
    | cons y ys => simp at h
  | cons x xs ih =>
    cases m' with
    | nil => simp at h
    | cons y ys =>
      simp only [List.map_cons, List.cons.injEq] at h
      simp [List.any_cons, h.1, ih ys h.2]

theorem findBestPath_keys_eq (m : AliasMap) (tr tr' : StrMap)
    (h : tr.map (·.1) = tr'.map (·.1)) (a : String) :
    findBestPath m tr a = findBestPath m tr' a := by
  unfold findBestPath
  have : ∀ p : ParticipantPath,
      (match pathPrefixOwner m p.resolutions.dropLast with
       | some s => if s ≠ "" && smContains tr s then some (p, some s) else none
       | none => none)
      = (match pathPrefixOwner m p.resolutions.dropLast with
         | some s => if s ≠ "" && smContains tr' s then some (p, some s) else none
         | none => none) := by
    intro p
    cases pathPrefixOwner m p.resolutions.dropLast with
    | none => rfl
    | some s =>
      show (if (s ≠ "" && smContains tr s) = true then some (p, some s) else none)
        = (if (s ≠ "" && smContains tr' s) = true then some (p, some s) else none)
      rw [smContains_of_keys_eq tr tr' h s]
  simp only [this]

theorem buildJoins_isSome_keys_eq (m : AliasMap) (root : String) :
    ∀ (aliases : List String) (model model' : List UddlTuple) (tr tr' : StrMap),
      tr.map (·.1) = tr'.map (·.1) →
      (buildJoins m model root aliases tr).isSome
        = (buildJoins m model' root aliases tr').isSome := by
  intro aliases
  induction aliases with
  | nil => intro model model' tr tr' _; rfl
  | cons a rest ih =>
    intro model model' tr tr' h
    unfold buildJoins
    split
    · exact ih model model' tr tr' h
    · rw [findBestPath_keys_eq m tr tr' h a]
      cases hbp : findBestPath m tr' a with
      | none => rfl
      | some bp =>
        simp only [Option.bind_eq_bind, Option.some_bind]
        have hst : (resolveTargetType [bp.1] model
              (trackerSourceType tr bp.2)).isSome
            = (resolveTargetType [bp.1] model'
              (trackerSourceType tr' bp.2)).isSome :=
          resolveTargetType_isSome_eq ..
        cases htt : resolveTargetType [bp.1] model (trackerSourceType tr bp.2) with
        | none =>
          rw [htt] at hst
          cases htt' : resolveTargetType [bp.1] model'
              (trackerSourceType tr' bp.2) with
          | none => rfl
          | some tt' => rw [htt'] at hst; simp at hst
        | some tt =>
          rw [htt] at hst
          cases htt' : resolveTargetType [bp.1] model'
              (trackerSourceType tr' bp.2) with
          | none => rw [htt'] at hst; simp at hst
          | some tt' =>
            simp only [Option.bind_eq_bind, Option.some_bind]
            cases heq : aliasEquivalences m a with
            | none => rfl
            | some eqs =>
              simp only [Option.bind_eq_bind, Option.some_bind]
              have hkeys : (smSet tr a tt).map (·.1)
                  = (smSet tr' a tt').map (·.1) := by
                rw [smSet_keys, smSet_keys, h,
                  smContains_of_keys_eq tr tr' h a]
              have hrec := ih model model' (smSet tr a tt) (smSet tr' a tt') hkeys
              cases hj : buildJoins m model root rest (smSet tr a tt) with
              | none =>
                rw [hj] at hrec
                cases hj' : buildJoins m model' root rest (smSet tr' a tt') with
                | none => rfl
                | some js => rw [hj'] at hrec; simp at hrec
              | some js =>
                rw [hj] at hrec
                cases hj' : buildJoins m model' root rest (smSet tr' a tt') with
                | none => rw [hj'] at hrec; simp at hrec
                | some js' => rfl

/-- **C8.**  Type-resolution failure in the reverse compiler is non-fatal and
falls back to names from the path itself: (i) for a final entity hop with no
cached target type, when the schema lookup finds no fact matching the source
type and rolename (in particular when no model is supplied),
`_resolve_target_type` returns the hop's rolename as the placeholder type;
(ii) for a final association hop it returns the association name directly;
and (iii) `path2query` completes (returns rather than raises) independently
of the model — its success on any alias map and path list is the same as
with no model at all, so an unresolvable type never aborts the compile. -/
theorem c8_type_resolution_fallback :
    (∀ (p : ParticipantPath) (ps : List ParticipantPath)
        (model : List UddlTuple) (st : Option String) (rn : String),
      p.resolutions.getLast? = some (.entityRes rn none) →
      (∀ stv, st = some stv →
        model.find? (fun t => t.subject = stv && t.rolename = rn) = none) →
      resolveTargetType (p :: ps) model st = some rn) ∧
    (∀ (p : ParticipantPath) (ps : List ParticipantPath)
        (model : List UddlTuple) (st : Option String) (rname an : String),
      p.resolutions.getLast? = some (.assocRes rname an) →
      resolveTargetType (p :: ps) model st = some an) ∧
    (∀ (m : AliasMap) (paths : List ParticipantPath) (model : List UddlTuple),
      (path2query m paths model).isSome = (path2query m paths []).isSome) := by
  refine ⟨?_, ?_, ?_⟩
  · intro p ps model st rn hl hfind
    unfold resolveTargetType
    simp only [List.head?, hl]
    show (if pyTruthy none then _ else _) = some rn
    rw [if_neg (by simp [pyTruthy])]
    split
    · rfl
    · match st, hfind with
      | none, _ => rfl
      | some stv, hfind =>
        simp only []
        split
        · rw [hfind stv rfl]
        · rfl
  · intro p ps model st rname an hl
    unfold resolveTargetType
    simp only [List.head?, hl]
  · intro m paths model
    unfold path2query
    split
    · rfl
    · cases hroot : (m.find? fun kv =>
          kv.2.any fun p => p.resolutions.length = 0).map (·.1) with
      | none => rfl
      | some root =>
        simp only [Option.bind_eq_bind, Option.some_bind]
        cases hst : ((amGet m root).head?).map (·.start_type) with
        | none => rfl
        | some stt =>
          simp only [Option.bind_eq_bind, Option.some_bind]
          cases hsa : sortAliasesLoop m root
              ((m.map (·.1)).filter (· ≠ root)).length
              ((m.map (·.1)).filter (· ≠ root)) [root] [] with
          | none => rfl
          | some sorted =>
            simp only [Option.bind_eq_bind, Option.some_bind]
            have := buildJoins_isSome_keys_eq m root sorted model []
              [(root, stt)] [(root, stt)] rfl
            cases hj : buildJoins m model root sorted [(root, stt)] with
            | none =>
              rw [hj] at this
              cases hj' : buildJoins m [] root sorted [(root, stt)] with
              | none => rfl
              | some js => rw [hj'] at this; simp at this
            | some js =>
              rw [hj] at this
              cases hj' : buildJoins m [] root sorted [(root, stt)] with
              | none => rw [hj'] at this; simp at this
              | some js' =>
                simp only [Option.bind_eq_bind, Option.some_bind]
                cases buildProjections m paths <;> rfl

/-- Witness for C8: the fallback equations at concrete inputs — an entity hop
whose rolename has no matching fact resolves to the rolename itself, an
association hop to its association name, and `path2query` on a concrete map
succeeds with and without the model. -/
theorem c8_fallback_witness :
    resolveTargetType [⟨"A", [.entityRes "r" none]⟩] gordonModel (some "A")
      = some "r" ∧
    resolveTargetType [⟨"A", [.assocRes "observer" "Observe"]⟩] [] none
      = some "Observe" ∧
    (path2query [("A", [⟨"A", []⟩]),
        ("B", [⟨"A", [.entityRes "b" none]⟩])] [] gordonModel).isSome
      = (path2query [("A", [⟨"A", []⟩]),
        ("B", [⟨"A", [.entityRes "b" none]⟩])] [] []).isSome :=
  ⟨c8_type_resolution_fallback.1 ⟨"A", [.entityRes "r" none]⟩ [] gordonModel
      (some "A") "r" rfl (fun stv hstv => by cases hstv; rfl),
   c8_type_resolution_fallback.2.1 ⟨"A", [.assocRes "observer" "Observe"]⟩ []
      [] none "observer" "Observe" rfl,
   c8_type_resolution_fallback.2.2 [("A", [⟨"A", []⟩]),
      ("B", [⟨"A", [.entityRes "b" none]⟩])] [] gordonModel⟩

theorem matchKeywordCI_length (ps : List Char) :
    ∀ cs m rest, matchKeywordCI ps cs = some (m, rest) →
      rest.length + ps.length = cs.length := by
  induction ps with
  | nil =>
    intro cs m rest h
    simp only [matchKeywordCI, Option.some.injEq] at h
    obtain ⟨h1, h2⟩ := Prod.mk.injEq .. ▸ h
    subst h2; simp
  | cons p ps' ih =>
    intro cs m rest h
    cases cs with
    | nil => simp [matchKeywordCI] at h
    | cons c cs' =>
      simp only [matchKeywordCI] at h
      split at h
      · cases hm : matchKeywordCI ps' cs' with
        | none => rw [hm] at h; simp at h
        | some mr =>
          rw [hm] at h
          simp only [Option.map_some', Option.some.injEq] at h
          obtain ⟨h1, h2⟩ := Prod.mk.injEq .. ▸ h
          subst h2
          have := ih cs' mr.1 mr.2 (by rw [hm])
          simp only [List.length_cons]
          omega
      · simp at h

theorem matchKeywordCI_append (ps : List Char) (c : Char)
    (hc : ∀ p ∈ ps, ¬(c.toLower = p.toLower)) :
    ∀ cs, matchKeywordCI ps (cs ++ [c])
      = (matchKeywordCI ps cs).map (fun mr => (mr.1, mr.2 ++ [c])) := by
  induction ps with
  | nil => intro cs; rfl
  | cons p ps' ih =>
    intro cs
    cases cs with
    | nil =>
      show matchKeywordCI (p :: ps') [c] = none
      simp only [matchKeywordCI]
      rw [if_neg (hc p (by simp))]
    | cons c0 cs' =>
      show matchKeywordCI (p :: ps') (c0 :: (cs' ++ [c])) = _
      simp only [matchKeywordCI]
      split
      · rw [ih (fun p hp => hc p (by simp [hp])) cs']
        cases matchKeywordCI ps' cs' <;> rfl
      · rfl

theorem tryKeywordsOn_append (l : List (TokKind × String)) (c : Char)
    (hcw : isWordChar c = false)
    (hl : ∀ kw ∈ l, ∀ p ∈ (kw.2 : String).data, ¬(c.toLower = p.toLower)) :
    ∀ cs, tryKeywordsOn l (cs ++ [c])
      = (tryKeywordsOn l cs).map (fun tr => (tr.1, tr.2 ++ [c])) := by
  induction l with
  | nil => intro cs; rfl
  | cons kw l' ih =>
    intro cs
    simp only [tryKeywordsOn, List.findSome?]
    rw [matchKeywordCI_append kw.2.data c (hl kw (by simp)) cs]
    cases hm : matchKeywordCI kw.2.data cs with
    | none =>
      simp only [Option.map_none']
      exact ih (fun kw2 h2 => hl kw2 (by simp [h2])) cs
    | some mr =>
      simp only [Option.map_some']
      have hb : boundaryAfter (mr.2 ++ [c]) = boundaryAfter mr.2 := by
        cases mr2 : mr.2 with
        | nil => simp [boundaryAfter, hcw]
        | cons x xs => simp [boundaryAfter]
      rw [hb]
      cases boundaryAfter mr.2 with
      | true => rfl
      | false => exact ih (fun kw2 h2 => hl kw2 (by simp [h2])) cs

theorem takeWhile_append_single {p : Char → Bool} (c : Char) (hc : p c = false) :
    ∀ l : List Char, (l ++ [c]).takeWhile p = l.takeWhile p ∧
      (l ++ [c]).dropWhile p = l.dropWhile p ++ [c] := by
  intro l
  induction l with
  | nil => simp [List.takeWhile, List.dropWhile, hc]
  | cons x xs ih =>
    by_cases hx : p x
    · simp [List.takeWhile_cons, List.dropWhile_cons, hx, ih.1, ih.2]
    · simp [List.takeWhile_cons, List.dropWhile_cons, hx]

theorem takeIdent_append_single (c : Char) (hc : isIdentChar c = false) :
    ∀ cs, takeIdent (cs ++ [c])
      = (takeIdent cs).map (fun sr => (sr.1, sr.2 ++ [c])) := by
  intro cs
  cases cs with
  | nil => simp [takeIdent, show isIdentStart c = false by
      unfold isIdentChar at hc
      cases h : isIdentStart c
      · rfl
      · rw [h] at hc; simp at hc]
  | cons c0 cs' =>
    show takeIdent (c0 :: (cs' ++ [c])) = _
    simp only [takeIdent]
    split
    · rw [(takeWhile_append_single c hc cs').1, (takeWhile_append_single c hc cs').2]
      rfl
    · rfl

theorem trySymbol_append (c : Char)
    (hsym : c ∉ (['*', '.', ',', '='] : List Char)) :
    ∀ cs, trySymbol (cs ++ [c])
      = (trySymbol cs).map (fun tr => (tr.1, tr.2 ++ [c])) := by
  have hs : c ≠ '*' ∧ c ≠ '.' ∧ c ≠ ',' ∧ c ≠ '=' := by
    simp only [List.mem_cons, List.not_mem_nil, or_false] at hsym
    tauto
  intro cs
  cases cs with
  | nil =>
    show trySymbol [c] = none
    simp [trySymbol, symbolList, List.findSome?, hs.1, hs.2.1, hs.2.2.1, hs.2.2.2]
  | cons c0 cs' =>
    show trySymbol (c0 :: (cs' ++ [c])) = _
    simp only [trySymbol, symbolList, List.findSome?]
    by_cases h1 : c0 = '*'
    · simp [h1]
    · by_cases h2 : c0 = '.'
      · simp [h1, h2]
      · by_cases h3 : c0 = ','
        · simp [h1, h2, h3]
        · by_cases h4 : c0 = '='
          · simp [h1, h2, h3, h4]
          · simp [h1, h2, h3, h4]

theorem tokStep_append (c : Char) (hc : unmatchedChar c = true) :
    ∀ (pw : Bool) (cs : List Char), tokStep pw (cs ++ [c])
      = (tokStep pw cs).map (fun tr => (tr.1, tr.2.1 ++ [c], tr.2.2)) := by
  have hcparts : isWordChar c = false ∧
      (c ∉ (['*', '.', ',', '=', ' ', '\t', '\n'] : List Char)) ∧
      (keywordLetters.any fun p => c.toLower = p.toLower) = false := by
    unfold unmatchedChar at hc
    simp only [Bool.and_eq_true, Bool.not_eq_true'] at hc
    refine ⟨hc.1.1.2, ?_, hc.2⟩
    simpa using hc.1.2
  have hsym4 : c ∉ (['*', '.', ',', '='] : List Char) := by
    intro hmem
    apply hcparts.2.1
    simp only [List.mem_cons, List.not_mem_nil] at hmem ⊢
    tauto
  have hall : ∀ kw ∈ keywordList, ∀ p ∈ (kw.2 : String).data,
      p ∈ keywordLetters := by decide
  have hkw : ∀ kw ∈ keywordList, ∀ p ∈ (kw.2 : String).data,
      ¬(c.toLower = p.toLower) := by
    intro kw hkwmem p hp heq
    have hsub : p ∈ keywordLetters := hall kw hkwmem p hp
    have h2 := (List.any_eq_false.mp hcparts.2.2) p hsub
    simp only [decide_eq_true_eq] at h2
    exact h2 heq
  intro pw cs
  have hkwapp : tryKeywords pw (cs ++ [c])
      = (tryKeywords pw cs).map (fun tr => (tr.1, tr.2 ++ [c])) := by
    unfold tryKeywords
    cases pw with
    | true => rfl
    | false => exact tryKeywordsOn_append keywordList c hcparts.1 hkw cs
  unfold tokStep
  rw [hkwapp]
  cases tryKeywords pw cs with
  | some tr => rfl
  | none =>
    simp only [Option.map_none']
    unfold tryID
    rw [takeIdent_append_single c
      (by unfold isIdentChar isWordChar at *; exact hcparts.1) cs]
    cases takeIdent cs with
    | some sr => rfl
    | none =>
      simp only [Option.map_none']
      rw [trySymbol_append c hsym4 cs]
      cases trySymbol cs <;> rfl

theorem dropWhile_length_le {p : Char → Bool} (l : List Char) :
    (l.dropWhile p).length ≤ l.length := by
  induction l with
  | nil => simp
  | cons x xs ih =>
    rw [List.dropWhile_cons]
    split
    · exact Nat.le_succ_of_le ih
    · simp

theorem takeIdent_consumes (cs : List Char) :
    ∀ s rest, takeIdent cs = some (s, rest) → rest.length < cs.length := by
  intro s rest h
  cases cs with
  | nil => simp [takeIdent] at h
  | cons c cs' =>
    simp only [takeIdent] at h
    split at h
    · obtain ⟨h1, h2⟩ := Prod.mk.injEq .. ▸ (Option.some.injEq .. ▸ h)
      have hle : (cs'.dropWhile isIdentChar).length ≤ cs'.length :=
        dropWhile_length_le cs'
      rw [← h2]
      simp only [List.length_cons]
      omega
    · simp at h

theorem tryKeywordsOn_consumes (l : List (TokKind × String))
    (hl : ∀ kw ∈ l, (kw.2 : String).data ≠ []) :
    ∀ cs t rest, tryKeywordsOn l cs = some (t, rest) → rest.length < cs.length := by
  induction l with
  | nil => intro cs t rest h; simp [tryKeywordsOn] at h
  | cons kw l' ih =>
    intro cs t rest h
    simp only [tryKeywordsOn, List.findSome?] at h
    cases hm : matchKeywordCI kw.2.data cs with
    | none =>
      rw [hm] at h
      exact ih (fun k hk => hl k (by simp [hk])) cs t rest h
    | some mr =>
      obtain ⟨m1, m2⟩ := mr
      rw [hm] at h
      dsimp only at h
      cases hb : boundaryAfter m2 with
      | false =>
        rw [hb] at h
        simp only [Bool.false_eq_true, if_false] at h
        exact ih (fun k hk => hl k (by simp [hk])) cs t rest h
      | true =>
        rw [hb] at h
        simp only [if_true] at h
        have hlen := matchKeywordCI_length kw.2.data cs m1 m2 (by rw [hm])
        have hne : kw.2.data.length ≥ 1 := by
          have := hl kw (by simp)
          cases hd : kw.2.data
          · exact absurd hd this
          · simp [hd]
        have h2 : m2 = rest := by
          have := Option.some.injEq .. ▸ h
          simp only [Prod.mk.injEq] at this
          exact this.2
        rw [← h2]
        omega

theorem trySymbol_consumes (cs : List Char) :
    ∀ t rest, trySymbol cs = some (t, rest) → rest.length < cs.length := by
  intro t rest h
  cases cs with
  | nil => simp [trySymbol] at h
  | cons c cs' =>
    simp only [trySymbol, symbolList, List.findSome?] at h
    by_cases h1 : c = '*'
    · simp only [h1, if_true, if_pos] at h
      have h2 : cs' = rest := by
        have := Option.some.injEq .. ▸ h
        simp only [Prod.mk.injEq] at this
        exact this.2
      rw [← h2]; simp
    · rw [if_neg h1] at h
      by_cases h2 : c = '.'
      · simp only [h2, if_true, if_pos] at h
        have h3 : cs' = rest := by
          have := Option.some.injEq .. ▸ h
          simp only [Prod.mk.injEq] at this
          exact this.2
        rw [← h3]; simp
      · rw [if_neg h2] at h
        by_cases h3 : c = ','
        · simp only [h3, if_true, if_pos] at h
          have h4 : cs' = rest := by
            have := Option.some.injEq .. ▸ h
            simp only [Prod.mk.injEq] at this
            exact this.2
          rw [← h4]; simp
        · rw [if_neg h3] at h
          by_cases h4 : c = '='
          · simp only [h4, if_true, if_pos] at h
            have h5 : cs' = rest := by
              have := Option.some.injEq .. ▸ h
              simp only [Prod.mk.injEq] at this
              exact this.2
            rw [← h5]; simp
          · rw [if_neg h4] at h
            simp at h

theorem tokStep_consumes (pw : Bool) (cs : List Char) :
    ∀ t rest pw2, tokStep pw cs = some (t, rest, pw2) → rest.length < cs.length := by
  intro t rest pw2 h
  unfold tokStep at h
  cases hkw : tryKeywords pw cs with
  | some tr =>
    rw [hkw] at h
    obtain ⟨k1, k2⟩ := tr
    dsimp only at h
    have heq : k2 = rest := by
      have := Option.some.injEq .. ▸ h
      simp only [Prod.mk.injEq] at this
      exact this.2.1
    subst heq
    unfold tryKeywords at hkw
    cases pw with
    | true => simp at hkw
    | false =>
      simp only [Bool.false_eq_true, if_false] at hkw
      exact tryKeywordsOn_consumes keywordList (by decide) cs k1 k2 hkw
  | none =>
    rw [hkw] at h
    cases hid : tryID cs with
    | some sr =>
      rw [hid] at h
      obtain ⟨i1, i2⟩ := sr
      dsimp only at h
      have heq : i2 = rest := by
        have := Option.some.injEq .. ▸ h
        simp only [Prod.mk.injEq] at this
        exact this.2.1
      subst heq
      unfold tryID at hid
      cases hti : takeIdent cs with
      | none => rw [hti] at hid; simp at hid
      | some sr2 =>
        rw [hti] at hid
        obtain ⟨s1, s2⟩ := sr2
        simp only [Option.map_some', Option.some.injEq, Prod.mk.injEq] at hid
        rw [← hid.2]
        exact takeIdent_consumes cs s1 s2 hti
    | none =>
      rw [hid] at h
      cases hsy : trySymbol cs with
      | none => rw [hsy] at h; simp at h
      | some tr =>
        rw [hsy] at h
        obtain ⟨y1, y2⟩ := tr
        dsimp only at h
        have heq : y2 = rest := by
          have := Option.some.injEq .. ▸ h
          simp only [Prod.mk.injEq] at this
          exact this.2.1
        subst heq
        exact trySymbol_consumes cs y1 y2 hsy

theorem tokenizeAux_fuel_irrel (k : Nat) :
    ∀ (cs : List Char) (n m : Nat) (pw : Bool),
      cs.length ≤ k → cs.length ≤ n → cs.length ≤ m →
      tokenizeAux n pw cs = tokenizeAux m pw cs := by
  induction k with
  | zero =>
    intro cs n m pw h1 _ _
    have : cs = [] := List.length_eq_zero.mp (Nat.le_zero.mp h1)
    subst this
    cases n <;> cases m <;> rfl
  | succ k ih =>
    intro cs n m pw h1 h2 h3
    cases cs with
    | nil => cases n <;> cases m <;> rfl
    | cons c cs' =>
      simp only [List.length_cons] at h1 h2 h3
      match n, m, h2, h3 with
      | n' + 1, m' + 1, _, _ =>
        show tokenizeAux (n' + 1) pw (c :: cs') = tokenizeAux (m' + 1) pw (c :: cs')
        unfold tokenizeAux
        cases hts : tokStep pw (c :: cs') with
        | some tr =>
          have hcons := tokStep_consumes pw (c :: cs') tr.1 tr.2.1 tr.2.2 (by
            rw [hts])
          simp only [List.length_cons] at hcons
          exact congrArg _ (ih tr.2.1 n' m' tr.2.2 (by omega) (by omega) (by omega))
        | none =>
          exact ih cs' n' m' (isWordChar c) (by omega) (by omega) (by omega)

theorem tokStep_single_unmatched (c : Char) (hc : unmatchedChar c = true)
    (pw : Bool) : tokStep pw [c] = none := by
  have h := tokStep_append c hc pw []
  rw [List.nil_append] at h
  rw [h]
  cases pw <;> rfl

theorem tokenizeAux_nil_case (c : Char) (hc : unmatchedChar c = true)
    (n : Nat) (pw : Bool) (hn : 1 ≤ n) :
    tokenizeAux n pw ([] ++ [c]) = tokenizeAux n pw ([] : List Char) := by
  match n, hn with
  | n' + 1, _ =>
    show tokenizeAux (n' + 1) pw [c] = tokenizeAux (n' + 1) pw []
    unfold tokenizeAux
    rw [tokStep_single_unmatched c hc pw]
    show tokenizeAux n' (isWordChar c) [] = []
    cases n' <;> rfl

theorem tokenizeAux_append_unmatched (c : Char) (hc : unmatchedChar c = true)
    (k : Nat) :
    ∀ (cs : List Char) (n : Nat) (pw : Bool),
      cs.length ≤ k → cs.length + 1 ≤ n →
      tokenizeAux n pw (cs ++ [c]) = tokenizeAux n pw cs := by
  induction k with
  | zero =>
    intro cs n pw h1 h2
    have : cs = [] := List.length_eq_zero.mp (Nat.le_zero.mp h1)
    subst this
    exact tokenizeAux_nil_case c hc n pw h2
  | succ k ih =>
    intro cs n pw h1 h2
    cases cs with
    | nil =>
      exact tokenizeAux_nil_case c hc n pw h2
    | cons c0 cs' =>
      simp only [List.length_cons] at h1 h2
      match n, h2 with
      | n' + 1, _ =>
        show tokenizeAux (n' + 1) pw (c0 :: (cs' ++ [c]))
          = tokenizeAux (n' + 1) pw (c0 :: cs')
        unfold tokenizeAux
        have happ := tokStep_append c hc pw (c0 :: cs')
        cases hts : tokStep pw (c0 :: cs') with
        | some tr =>
          obtain ⟨t, rest, pw2⟩ := tr
          rw [hts, Option.map_some'] at happ
          rw [show ((c0 :: cs') ++ [c]) = c0 :: (cs' ++ [c]) from rfl] at happ
          rw [happ]
          have hcons := tokStep_consumes pw (c0 :: cs') t rest pw2 hts
          simp only [List.length_cons] at hcons
          dsimp only
          rw [ih rest n' pw2 (by omega) (by omega)]
        | none =>
          rw [hts, Option.map_none'] at happ
          rw [show ((c0 :: cs') ++ [c]) = c0 :: (cs' ++ [c]) from rfl] at happ
          rw [happ]
          dsimp only
          exact ih cs' n' (isWordChar c0) (by omega) (by omega)

/-- **C10, counterexample.**  A skipped character is not equivalent to an
absent character: `SELECT a;b FROM t` parses successfully, but the skipped
`;` still separates the tokens `a` and `b` (giving projection `a` with
implicit alias `b`), so the result differs from `SELECT ab FROM t`. -/
theorem c10_skipped_char_not_absent :
    getAst "SELECT a;b FROM t"
      = some ⟨[.projChar ⟨none, some "a"⟩ (some "b")],
          ⟨[⟨"t", none⟩], []⟩, none⟩ ∧
    getAst "SELECT ab FROM t"
      = some ⟨[.projChar ⟨none, some "ab"⟩ none],
          ⟨[⟨"t", none⟩], []⟩, none⟩ ∧
    getAst "SELECT a;b FROM t" ≠ getAst "SELECT ab FROM t" := by
  refine ⟨rfl, rfl, by decide⟩

/-- **C10, amended.**  On ASCII text the tokenizer never fails: an ASCII
character matching no token pattern (not a word character, not a symbol,
not whitespace, and — for the case-insensitive keyword patterns — lowering
it gives no keyword letter) is silently skipped and produces no token, so
appending such a character to any ASCII input leaves the token stream
unchanged and stray such characters cannot by themselves abort
tokenization; queries containing them can still parse (e.g. a trailing
`;`).  The ASCII restriction is essential: Python's `\w` and `IGNORECASE`
folding are Unicode-aware, so a non-ASCII character such as `é` is a word
character that extends an identifier rather than being skipped, and `ſ`
case-folds onto `s` inside a keyword.  And even a skipped character still
acts as a token boundary, so text does not in general parse as if the
character were textually absent. -/
theorem c10_unmatched_chars_skipped :
    (∀ (s : String) (c : Char), asciiText s = true → unmatchedChar c = true →
      tokenize (s ++ String.mk [c]) = tokenize s) ∧
    getAst "SELECT a FROM b;" = getAst "SELECT a FROM b" ∧
    (getAst "SELECT a@b FROM c-d (" ).isSome = true := by
  refine ⟨?_, rfl, rfl⟩
  intro s c _ hc
  unfold tokenize
  have hdata : (s ++ String.mk [c]).data = s.data ++ [c] := by
    simp [String.data_append]
  rw [hdata]
  have h1 := tokenizeAux_append_unmatched c hc s.data.length s.data
    (s.data ++ [c]).length false le_rfl (by simp)
  rw [h1]
  exact tokenizeAux_fuel_irrel (s.data ++ [c]).length s.data
    (s.data ++ [c]).length s.data.length false (by simp) (by simp) le_rfl

/-- Witness for C10: appending a semicolon to a concrete query text leaves
its token stream unchanged. -/
theorem c10_semicolon_witness :
    tokenize ("SELECT a FROM b" ++ String.mk [';']) = tokenize "SELECT a FROM b" :=
  c10_unmatched_chars_skipped.1 "SELECT a FROM b" ';' (by decide) (by decide)

theorem ciEq_trans : ∀ (a b v : List Char), ciEq a v = true → ciEq b v = true →
    ciEq a b = true := by
  intro a
  induction a with
  | nil =>
    intro b v ha hb
    cases v with
    | nil =>
      cases b with
      | nil => rfl
      | cons b0 bs => simp [ciEq] at hb
    | cons v0 vs => simp [ciEq] at ha
  | cons a0 l ih =>
    intro b v ha hb
    cases v with
    | nil => simp [ciEq] at ha
    | cons v0 vs =>
      cases b with
      | nil => simp [ciEq] at hb
      | cons b0 bs =>
        simp only [ciEq, Bool.and_eq_true, beq_iff_eq] at ha hb ⊢
        exact ⟨hb.1.symm.trans ha.1, ih bs vs ha.2 hb.2⟩

theorem matchKeywordCI_of_ciEq : ∀ (p v rest : List Char), ciEq p v = true →
    matchKeywordCI p (v ++ rest) = some (v, rest) := by
  intro p
  induction p with
  | nil =>
    intro v rest h
    cases v with
    | nil => rfl
    | cons c cs => simp [ciEq] at h
  | cons p0 ps ih =>
    intro v rest h
    cases v with
    | nil => simp [ciEq] at h
    | cons c cs =>
      simp only [ciEq, Bool.and_eq_true, beq_iff_eq] at h
      simp [matchKeywordCI, h.1, ih cs rest h.2]

theorem matchKeywordCI_fail : ∀ (p v rest : List Char),
    (p.all fun a => isWordChar a.toLower) = true →
    v.all isWordChar = true → lowHead rest = true → ciEq p v = false →
    (match matchKeywordCI p (v ++ rest) with
     | some pr => boundaryAfter pr.2 = false
     | none => True) := by
  intro p
  induction p with
  | nil =>
    intro v rest _ hv _ hci
    cases v with
    | nil => simp [ciEq] at hci
    | cons c cs =>
      simp only [List.all_cons, Bool.and_eq_true] at hv
      simp [matchKeywordCI, boundaryAfter, hv.1]
  | cons p0 ps ih =>
    intro v rest hp hv hr hci
    simp only [List.all_cons, Bool.and_eq_true] at hp
    cases v with
    | nil =>
      cases rest with
      | nil => simp [matchKeywordCI]
      | cons c cs =>
        have hcp : ¬(c.toLower = p0.toLower) := by
          intro he
          simp only [lowHead, Bool.and_eq_true, Bool.not_eq_true'] at hr
          have h2 := hr.2
          rw [he, hp.1] at h2
          exact Bool.noConfusion h2
        simp [matchKeywordCI, hcp]
    | cons c cs =>
      simp only [List.all_cons, Bool.and_eq_true] at hv
      by_cases he : c.toLower = p0.toLower
      · have hci2 : ciEq ps cs = false := by
          simp only [ciEq, he, beq_self_eq_true, Bool.true_and] at hci
          exact hci
        have := ih cs rest hp.2 hv.2 hr hci2
        cases hmc : matchKeywordCI ps (cs ++ rest) with
        | none => simp [matchKeywordCI, he, hmc]
        | some pr =>
          rw [hmc] at this
          simp only at this
          simp [matchKeywordCI, he, hmc, Option.map_some']
          exact this
      · simp [matchKeywordCI, he]

theorem lowHead_boundary (rest : List Char) (h : lowHead rest = true) :
    boundaryAfter rest = true := by
  cases rest with
  | nil => rfl
  | cons c cs =>
    simp only [lowHead, Bool.and_eq_true, Bool.not_eq_true'] at h
    simp [boundaryAfter, h.1]

theorem tryKeywordsOn_eq_attempt (l : List (TokKind × String)) (cs : List Char) :
    tryKeywordsOn l cs = l.findSome? (fun kw => kwAttempt kw cs) := rfl

theorem kwAttempt_hit (k : TokKind) (sp : String) (v rest : List Char)
    (hci : ciEq sp.data v = true) (hb : boundaryAfter rest = true) :
    kwAttempt (k, sp) (v ++ rest) = some (⟨k, String.mk v⟩, rest) := by
  simp [kwAttempt, matchKeywordCI_of_ciEq sp.data v rest hci, hb]

theorem kwAttempt_miss (k : TokKind) (sp : String) (v rest : List Char)
    (hp : (sp.data.all fun a => isWordChar a.toLower) = true)
    (hv : v.all isWordChar = true) (hr : lowHead rest = true)
    (hci : ciEq sp.data v = false) :
    kwAttempt (k, sp) (v ++ rest) = none := by
  have := matchKeywordCI_fail sp.data v rest hp hv hr hci
  unfold kwAttempt
  cases hmc : matchKeywordCI sp.data (v ++ rest) with
  | none => rfl
  | some pr =>
    rw [hmc] at this
    simp only at this
    obtain ⟨m, r⟩ := pr
    simp only at this
    simp [this]

theorem tryKeywordsOn_strikes (k : TokKind) (sp : String) (v rest : List Char)
    (hk : (k, sp) ∈ keywordList) (hci : ciEq sp.data v = true)
    (hv : v.all isWordChar = true) (hr : lowHead rest = true) :
    tryKeywordsOn keywordList (v ++ rest) = some (⟨k, String.mk v⟩, rest) := by
  have hne : ∀ sp2 : List Char, ciEq sp2 sp.data = false → ciEq sp2 v = false := by
    intro sp2 h12
    cases h2 : ciEq sp2 v with
    | false => rfl
    | true => rw [ciEq_trans sp2 sp.data v h2 hci] at h12; exact Bool.noConfusion h12
  have hb : boundaryAfter rest = true := lowHead_boundary rest hr
  have mS := fun h => kwAttempt_miss .SELECT "SELECT" v rest (by decide) hv hr h
  have mF := fun h => kwAttempt_miss .FROM "FROM" v rest (by decide) hv hr h
  have mJ := fun h => kwAttempt_miss .JOIN "JOIN" v rest (by decide) hv hr h
  have mO := fun h => kwAttempt_miss .ON "ON" v rest (by decide) hv hr h
  have mA := fun h => kwAttempt_miss .AND "AND" v rest (by decide) hv hr h
  have mB := fun h => kwAttempt_miss .AS "AS" v rest (by decide) hv hr h
  rw [tryKeywordsOn_eq_attempt]
  fin_cases hk
  · simp only [keywordList, List.findSome?_cons]
    rw [kwAttempt_hit _ _ v rest hci hb]
  · simp only [keywordList, List.findSome?_cons]
    rw [mS (hne _ (by decide)), kwAttempt_hit _ _ v rest hci hb]
  · simp only [keywordList, List.findSome?_cons]
    rw [mS (hne _ (by decide)), mF (hne _ (by decide)),
      kwAttempt_hit _ _ v rest hci hb]
  · simp only [keywordList, List.findSome?_cons]
    rw [mS (hne _ (by decide)), mF (hne _ (by decide)), mJ (hne _ (by decide)),
      kwAttempt_hit _ _ v rest hci hb]
  · simp only [keywordList, List.findSome?_cons]
    rw [mS (hne _ (by decide)), mF (hne _ (by decide)), mJ (hne _ (by decide)),
      mO (hne _ (by decide)), kwAttempt_hit _ _ v rest hci hb]
  · simp only [keywordList, List.findSome?_cons]
    rw [mS (hne _ (by decide)), mF (hne _ (by decide)), mJ (hne _ (by decide)),
      mO (hne _ (by decide)), mA (hne _ (by decide)),
      kwAttempt_hit _ _ v rest hci hb]
  · simp only [keywordList, List.findSome?_cons]
    rw [mS (hne _ (by decide)), mF (hne _ (by decide)), mJ (hne _ (by decide)),
      mO (hne _ (by decide)), mA (hne _ (by decide)), mB (hne _ (by decide)),
      kwAttempt_hit _ _ v rest hci hb]

theorem tryKeywordsOn_fail_ident (v rest : List Char)
    (hv : v.all isWordChar = true) (hnk : idNotKeyword v = true)
    (hr : lowHead rest = true) :
    tryKeywordsOn keywordList (v ++ rest) = none := by
  unfold idNotKeyword at hnk
  have hall : ∀ kw ∈ keywordList, ciEq kw.2.data v = false := by
    intro kw hkw
    have := List.all_eq_true.mp hnk kw hkw
    simpa using this
  rw [tryKeywordsOn_eq_attempt]
  simp only [keywordList, List.findSome?_cons, List.findSome?_nil]
  rw [kwAttempt_miss .SELECT "SELECT" v rest (by decide) hv hr
        (hall (.SELECT, "SELECT") (by decide)),
      kwAttempt_miss .FROM "FROM" v rest (by decide) hv hr
        (hall (.FROM, "FROM") (by decide)),
      kwAttempt_miss .JOIN "JOIN" v rest (by decide) hv hr
        (hall (.JOIN, "JOIN") (by decide)),
      kwAttempt_miss .ON "ON" v rest (by decide) hv hr
        (hall (.ON, "ON") (by decide)),
      kwAttempt_miss .AND "AND" v rest (by decide) hv hr
        (hall (.AND, "AND") (by decide)),
      kwAttempt_miss .AS "AS" v rest (by decide) hv hr
        (hall (.AS, "AS") (by decide)),
      kwAttempt_miss .ALL "ALL" v rest (by decide) hv hr
        (hall (.ALL, "ALL") (by decide))]

theorem takeWhile_all_append (p : Char → Bool) :
    ∀ (xs ys : List Char), xs.all p = true →
      (xs ++ ys).takeWhile p = xs ++ ys.takeWhile p := by
  intro xs
  induction xs with
  | nil => intro ys _; rfl
  | cons c cs ih =>
    intro ys h
    simp only [List.all_cons, Bool.and_eq_true] at h
    simp [List.takeWhile_cons, h.1, ih ys h.2]

theorem dropWhile_all_append (p : Char → Bool) :
    ∀ (xs ys : List Char), xs.all p = true →
      (xs ++ ys).dropWhile p = ys.dropWhile p := by
  intro xs
  induction xs with
  | nil => intro ys _; rfl
  | cons c cs ih =>
    intro ys h
    simp only [List.all_cons, Bool.and_eq_true] at h
    simp [List.dropWhile_cons, h.1, ih ys h.2]

theorem lowHead_ident_scan (ys : List Char) (h : lowHead ys = true) :
    ys.takeWhile isIdentChar = [] ∧ ys.dropWhile isIdentChar = ys := by
  cases ys with
  | nil => exact ⟨rfl, rfl⟩
  | cons c cs =>
    simp only [lowHead, Bool.and_eq_true, Bool.not_eq_true'] at h
    have hc : isIdentChar c = false := h.1
    constructor
    · simp [List.takeWhile_cons, hc]
    · simp [List.dropWhile_cons, hc]

theorem takeIdent_spell (v rest : List Char)
    (hv : validIdentChars v = true) (hr : lowHead rest = true) :
    takeIdent (v ++ rest) = some (String.mk v, rest) := by
  cases v with
  | nil => exact absurd hv (by simp [validIdentChars])
  | cons c cs =>
    simp only [validIdentChars, Bool.and_eq_true] at hv
    obtain ⟨htw, hdw⟩ := lowHead_ident_scan rest hr
    simp [takeIdent, hv.1, takeWhile_all_append _ cs rest hv.2,
      dropWhile_all_append _ cs rest hv.2, htw, hdw]

theorem validIdent_word (v : List Char) (h : validIdentChars v = true) :
    v.all isWordChar = true := by
  cases v with
  | nil => simp [validIdentChars] at h
  | cons c cs =>
    simp only [validIdentChars, Bool.and_eq_true] at h
    have h1 : isWordChar c = true := by
      unfold isWordChar isIdentChar
      simp [h.1]
    simp only [List.all_cons, Bool.and_eq_true]
    exact ⟨h1, h.2⟩

theorem ciEq_length (p : List Char) :
    ∀ v, ciEq p v = true → v.length = p.length := by
  induction p with
  | nil =>
    intro v h
    cases v with
    | nil => rfl
    | cons c cs => simp [ciEq] at h
  | cons p0 ps ih =>
    intro v h
    cases v with
    | nil => simp [ciEq] at h
    | cons c cs =>
      simp only [ciEq, Bool.and_eq_true] at h
      simp [ih cs h.2]

theorem tokStep_kw (pw : Bool) (k : TokKind) (sp s : String) (rest : List Char)
    (hmem : (k, sp) ∈ keywordList)
    (hpw : pw = false) (hci : ciEq sp.data s.data = true)
    (hword : s.data.all isWordChar = true) (hr : lowHead rest = true) :
    tokStep pw (s.data ++ rest) = some (⟨k, s⟩, rest, true) := by
  subst hpw
  unfold tokStep
  rw [show tryKeywords false (s.data ++ rest)
      = tryKeywordsOn keywordList (s.data ++ rest) from rfl,
    tryKeywordsOn_strikes k sp s.data rest hmem hci hword hr]

theorem tokStep_head_nonword_aux (pw : Bool) (c : Char) (rest : List Char)
    (hc : isWordChar c = false) (hlc : isWordChar c.toLower = false) :
    tryKeywords pw (c :: rest) = none ∧ tryID (c :: rest) = none := by
  constructor
  · cases pw with
    | true => rfl
    | false =>
      have := tryKeywordsOn_fail_ident [] (c :: rest) rfl (by decide)
        (by simp [lowHead, hc, hlc])
      simpa using this
  · have hs : isIdentStart c = false := by
      have h2 : isIdentChar c = false := hc
      unfold isIdentChar at h2
      cases h3 : isIdentStart c with
      | false => rfl
      | true => rw [h3] at h2; simp at h2
    simp [tryID, takeIdent, hs]

theorem tokStep_id (pw : Bool) (s : String) (rest : List Char)
    (hvi : validIdentChars s.data = true) (hnk : idNotKeyword s.data = true)
    (hr : lowHead rest = true) :
    tokStep pw (s.data ++ rest) = some (⟨.ID, s⟩, rest, true) := by
  unfold tokStep
  have hkwn : tryKeywords pw (s.data ++ rest) = none := by
    cases pw with
    | true => rfl
    | false =>
      show tryKeywordsOn keywordList (s.data ++ rest) = none
      exact tryKeywordsOn_fail_ident s.data rest (validIdent_word _ hvi) hnk hr
  rw [hkwn,
    show tryID (s.data ++ rest) = some (⟨.ID, String.mk s.data⟩, rest) from by
      simp [tryID, takeIdent_spell s.data rest hvi hr]]

theorem tokStep_sep (pw : Bool) (c : Char) (rest : List Char)
    (hs : sepOK c = true) : tokStep pw (c :: rest) = none := by
  simp only [sepOK, Bool.or_eq_true, beq_iff_eq] at hs
  cases hs with
  | inl h =>
    subst h
    obtain ⟨h1, h2⟩ := tokStep_head_nonword_aux pw ' ' rest (by decide) (by decide)
    unfold tokStep
    rw [h1, h2]
    rfl
  | inr h =>
    subst h
    obtain ⟨h1, h2⟩ :=
      tokStep_head_nonword_aux pw '\n' rest (by decide) (by decide)
    unfold tokStep
    rw [h1, h2]
    rfl

theorem tokStep_sym (pw : Bool) (t : Token) (rest : List Char)
    (hk : isSymbolKind t.kind = true) (hok : tokOK pw t = true) :
    tokStep pw (t.value.data ++ rest) = some (t, rest, false) := by
  obtain ⟨k, s⟩ := t
  cases k <;> try simp [isSymbolKind] at hk
  · simp only [tokOK, beq_iff_eq] at hok
    subst hok
    show tokStep pw ('*' :: rest) = some (⟨.ASTERISK, "*"⟩, rest, false)
    obtain ⟨h1, h2⟩ := tokStep_head_nonword_aux pw '*' rest (by decide) (by decide)
    unfold tokStep
    rw [h1, h2]
    rfl
  · simp only [tokOK, beq_iff_eq] at hok
    subst hok
    show tokStep pw ('.' :: rest) = some (⟨.PERIOD, "."⟩, rest, false)
    obtain ⟨h1, h2⟩ := tokStep_head_nonword_aux pw '.' rest (by decide) (by decide)
    unfold tokStep
    rw [h1, h2]
    rfl
  · simp only [tokOK, beq_iff_eq] at hok
    subst hok
    show tokStep pw (',' :: rest) = some (⟨.COMMA, ","⟩, rest, false)
    obtain ⟨h1, h2⟩ := tokStep_head_nonword_aux pw ',' rest (by decide) (by decide)
    unfold tokStep
    rw [h1, h2]
    rfl
  · simp only [tokOK, beq_iff_eq] at hok
    subst hok
    show tokStep pw ('=' :: rest) = some (⟨.EQUALS, "="⟩, rest, false)
    obtain ⟨h1, h2⟩ := tokStep_head_nonword_aux pw '=' rest (by decide) (by decide)
    unfold tokStep
    rw [h1, h2]
    rfl

theorem renderPieces_lowHead (pw : Bool) (ps : List Piece)
    (hok : piecesOKA pw ps true = true) (hb : headBoundaryA ps true = true) :
    lowHead (renderPieces ps) = true := by
  cases ps with
  | nil => rfl
  | cons p ps2 =>
    cases p with
    | sep c =>
      simp only [piecesOKA, Bool.and_eq_true] at hok
      have hs := hok.1
      simp only [sepOK, Bool.or_eq_true, beq_iff_eq] at hs
      cases hs with
      | inl h => subst h; rfl
      | inr h => subst h; rfl
    | tok t =>
      obtain ⟨k, s⟩ := t
      simp only [headBoundaryA] at hb
      simp only [piecesOKA, Bool.and_eq_true] at hok
      have h1 := hok.1.1
      cases k <;> first
        | exact Bool.noConfusion hb
        | (simp only [tokOK, beq_iff_eq] at h1
           subst h1
           rfl)

theorem tokOK_value_ne (pw : Bool) (k : TokKind) (s : String)
    (h : tokOK pw ⟨k, s⟩ = true) : s.data ≠ [] := by
  intro hnil
  cases k <;>
    simp only [tokOK, Bool.and_eq_true, beq_iff_eq, Bool.not_eq_true'] at h
  all_goals first
    | (have h2 := h.1
       rw [hnil] at h2
       exact absurd h2 (by decide))
    | (have h2 := h.1.1
       rw [hnil] at h2
       exact absurd h2 (by decide))
    | (subst h
       exact absurd hnil (by decide))
    | (have h2 := ciEq_length _ _ h.1.2
       rw [hnil] at h2
       exact absurd h2 (by decide))
    | (have h2 := ciEq_length _ _ h.2.1
       rw [hnil] at h2
       exact absurd h2 (by decide))

theorem tokenizeAux_step (n : Nat) (pw : Bool) (cs : List Char)
    (t : Token) (rest : List Char) (pw2 : Bool)
    (hts : tokStep pw cs = some (t, rest, pw2)) (hne : cs ≠ []) :
    tokenizeAux (n + 1) pw cs = t :: tokenizeAux n pw2 rest := by
  cases cs with
  | nil => exact absurd rfl hne
  | cons c cs2 =>
    conv_lhs => rw [tokenizeAux]
    rw [hts]

theorem tokenizeAux_skip (n : Nat) (pw : Bool) (c : Char) (cs : List Char)
    (hts : tokStep pw (c :: cs) = none) :
    tokenizeAux (n + 1) pw (c :: cs) = tokenizeAux n (isWordChar c) cs := by
  conv_lhs => rw [tokenizeAux]
  rw [hts]

theorem tokOK_kw_elim (pw : Bool) (k : TokKind) (s : String)
    (hid : k ≠ .ID) (hsym : isSymbolKind k = false)
    (h : tokOK pw ⟨k, s⟩ = true) :
    pw = false ∧ ciEq (kwSpell k).data s.data = true ∧
      s.data.all isWordChar = true ∧ (k, kwSpell k) ∈ keywordList := by
  cases k <;> first
    | exact absurd rfl hid
    | exact Bool.noConfusion hsym
    | (simp only [tokOK, Bool.and_eq_true, Bool.not_eq_true'] at h
       exact ⟨h.1.1, h.1.2, h.2, by decide⟩)

theorem tokenizeAux_pieces : ∀ (ps : List Piece) (pw : Bool) (n : Nat),
    piecesOKA pw ps true = true → (renderPieces ps).length ≤ n →
    tokenizeAux n pw (renderPieces ps) = toksOfPieces ps := by
  intro ps
  induction ps with
  | nil =>
    intro pw n _ _
    cases n <;> rfl
  | cons p ps ih =>
    intro pw n hok hn
    cases p with
    | sep c =>
      simp only [piecesOKA, Bool.and_eq_true] at hok
      simp only [renderPieces, List.length_cons] at hn
      match n, hn with
      | n2 + 1, _ =>
        rw [show renderPieces (Piece.sep c :: ps) = c :: renderPieces ps from rfl,
          tokenizeAux_skip n2 pw c (renderPieces ps) (tokStep_sep pw c _ hok.1),
          show toksOfPieces (Piece.sep c :: ps) = toksOfPieces ps from rfl]
        have hcw : isWordChar c = false := by
          have hs := hok.1
          simp only [sepOK, Bool.or_eq_true, beq_iff_eq] at hs
          cases hs with
          | inl h => subst h; decide
          | inr h => subst h; decide
        rw [hcw]
        exact ih false n2 hok.2 (by omega)
    | tok t =>
      obtain ⟨k, s⟩ := t
      simp only [piecesOKA, Bool.and_eq_true] at hok
      obtain ⟨⟨hok1, hok2⟩, hok3⟩ := hok
      have hvne := tokOK_value_ne pw k s hok1
      have hlen1 : 1 ≤ s.data.length := by
        cases hd : s.data with
        | nil => exact absurd hd hvne
        | cons a l => simp
      have hane : s.data ++ renderPieces ps ≠ [] := by
        intro h
        simp only [List.append_eq_nil] at h
        exact hvne h.1
      rw [show renderPieces (Piece.tok ⟨k, s⟩ :: ps)
          = s.data ++ renderPieces ps from rfl] at hn ⊢
      simp only [List.length_append] at hn
      cases n with
      | zero => exact absurd hn (by omega)
      | succ n2 =>
        rw [show toksOfPieces (Piece.tok ⟨k, s⟩ :: ps)
            = ⟨k, s⟩ :: toksOfPieces ps from rfl]
        by_cases hid : k = TokKind.ID
        · subst hid
          simp only [tokOK, Bool.and_eq_true] at hok1
          have hb : headBoundaryA ps true = true := by
            simpa [endsWord, isSymbolKind] using hok2
          have hlow := renderPieces_lowHead true ps hok3 hb
          rw [tokenizeAux_step n2 pw (s.data ++ renderPieces ps) ⟨.ID, s⟩
            (renderPieces ps) true
            (tokStep_id pw s (renderPieces ps) hok1.1 hok1.2 hlow) hane]
          exact congrArg _ (ih true n2 hok3 (by omega))
        · by_cases hsym : isSymbolKind k = true
          · rw [tokenizeAux_step n2 pw (s.data ++ renderPieces ps) ⟨k, s⟩
              (renderPieces ps) false
              (tokStep_sym pw ⟨k, s⟩ (renderPieces ps) hsym hok1) hane]
            have hok3f : piecesOKA false ps true = true := by
              have he : endsWord ⟨k, s⟩ = false := by
                simp [endsWord, hsym]
              rw [he] at hok3
              exact hok3
            exact congrArg _ (ih false n2 hok3f (by omega))
          · have hsymf : isSymbolKind k = false := by
              cases h2 : isSymbolKind k with
              | false => rfl
              | true => exact absurd h2 hsym
            obtain ⟨hpw, hci, hword, hmem⟩ := tokOK_kw_elim pw k s hid hsymf hok1
            have hb : headBoundaryA ps true = true := by
              simpa [endsWord, hsymf] using hok2
            have hok3t : piecesOKA true ps true = true := by
              have he : endsWord ⟨k, s⟩ = true := by
                simp [endsWord, hsymf]
              rw [he] at hok3
              exact hok3
            have hlow := renderPieces_lowHead true ps hok3t hb
            rw [tokenizeAux_step n2 pw (s.data ++ renderPieces ps) ⟨k, s⟩
              (renderPieces ps) true
              (tokStep_kw pw k (kwSpell k) s (renderPieces ps) hmem hpw hci
                hword hlow) hane]
            exact congrArg _ (ih true n2 hok3t (by omega))

theorem tokenize_pieces (q : QueryStatement)
    (h : piecesOKA false (piecesOfQuery q) true = true) :
    tokenize (pretty_print q) = toksOfPieces (piecesOfQuery q) := by
  unfold tokenize pretty_print
  exact tokenizeAux_pieces (piecesOfQuery q) false _ h le_rfl

theorem headBoundaryA_append : ∀ (xs ys : List Piece) (nb : Bool),
    headBoundaryA (xs ++ ys) nb = headBoundaryA xs (headBoundaryA ys nb) := by
  intro xs ys nb
  cases xs with
  | nil => rfl
  | cons p xs => cases p <;> rfl

theorem pwOut_append : ∀ (xs ys : List Piece) (pw : Bool),
    pwOut pw (xs ++ ys) = pwOut (pwOut pw xs) ys := by
  intro xs
  induction xs with
  | nil => intro ys pw; rfl
  | cons p xs ih =>
    intro ys pw
    cases p with
    | sep c =>
      simp only [List.cons_append, pwOut]
      exact ih ys false
    | tok t =>
      simp only [List.cons_append, pwOut]
      exact ih ys (endsWord t)

theorem piecesOKA_append : ∀ (xs : List Piece) (pw nb : Bool) (ys : List Piece),
    piecesOKA pw (xs ++ ys) nb
      = (piecesOKA pw xs (headBoundaryA ys nb)
          && piecesOKA (pwOut pw xs) ys nb) := by
  intro xs
  induction xs with
  | nil => intro pw nb ys; simp [piecesOKA, pwOut]
  | cons p xs ih =>
    intro pw nb ys
    cases p with
    | sep c =>
      simp only [List.cons_append, piecesOKA, pwOut]
      show (sepOK c && piecesOKA false (xs ++ ys) nb) = _
      rw [ih false nb ys]
      simp [Bool.and_assoc]
    | tok t =>
      simp only [List.cons_append, piecesOKA, pwOut]
      show ((tokOK pw t && (!endsWord t || headBoundaryA (xs ++ ys) nb))
          && piecesOKA (endsWord t) (xs ++ ys) nb) = _
      rw [headBoundaryA_append, ih (endsWord t) nb ys]
      simp [Bool.and_assoc]

theorem joinPieces_ok (s : List Piece)
    (hsOK : ∀ pw nb, piecesOKA pw s nb = true)
    (hsHead : ∀ nb, headBoundaryA s nb = true)
    (hsPw : ∀ pw, pwOut pw s = false) :
    ∀ (xss : List (List Piece)),
      (∀ xs ∈ xss, piecesOKA false xs true = true) →
      piecesOKA false (joinPieces s xss) true = true := by
  intro xss
  induction xss with
  | nil => intro _; rfl
  | cons x yss ih =>
    intro hx
    cases yss with
    | nil => exact hx x (by simp)
    | cons y zss =>
      rw [show joinPieces s (x :: y :: zss)
          = x ++ (s ++ joinPieces s (y :: zss)) from by
        simp [joinPieces, List.append_assoc]]
      rw [piecesOKA_append, piecesOKA_append, headBoundaryA_append, hsHead,
        hsPw]
      simp only [Bool.and_eq_true]
      exact ⟨hx x (by simp), hsOK _ _, ih fun xs hxs => hx xs (by simp [hxs])⟩

theorem tokOK_id_of (s : String) (h : identOK s = true) (pw : Bool) :
    tokOK pw ⟨.ID, s⟩ = true := by
  simp only [identOK, Bool.and_eq_true] at h
  simp [tokOK, h.1, h.2]

theorem ref_pieces_ok (r : Reference) (h : refWF r = true) (pw : Bool) :
    piecesOKA pw (piecesOfRef r) true = true := by
  obtain ⟨en, ch⟩ := r
  cases ch with
  | none => simp [refWF] at h
  | some c =>
    cases en with
    | none =>
      simp only [refWF, Bool.and_eq_true] at h
      have h2 := tokOK_id_of c h.2
      simp [piecesOfRef, piecesOKA, headBoundaryA, endsWord, isSymbolKind,
        idTok, h2]
    | some e =>
      simp only [refWF, Bool.and_eq_true] at h
      have h1 := tokOK_id_of e h.1
      have h2 := tokOK_id_of c h.2
      have hP : ∀ pw2 : Bool, tokOK pw2 (⟨.PERIOD, "."⟩ : Token) = true := by
        decide
      simp [piecesOfRef, piecesOKA, headBoundaryA, endsWord, isSymbolKind,
        idTok, h1, h2, hP]

theorem ref_pieces_pwOut (r : Reference) (h : refWF r = true) (pw : Bool) :
    pwOut pw (piecesOfRef r) = true := by
  obtain ⟨en, ch⟩ := r
  cases ch with
  | none => simp [refWF] at h
  | some c =>
    cases en <;> simp [piecesOfRef, pwOut, endsWord, isSymbolKind, idTok]

theorem alias_pieces_ok (al : Option String) (h : aliasWF al = true)
    (pw : Bool) : piecesOKA pw (piecesOfAlias al) true = true := by
  cases al with
  | none => rfl
  | some a =>
    simp only [aliasWF] at h
    have h1 := tokOK_id_of a h
    have hAS : tokOK false (⟨.AS, "AS"⟩ : Token) = true := by decide
    simp [piecesOfAlias, piecesOKA, sepOK, headBoundaryA, endsWord,
      isSymbolKind, idTok, kwTok, kwSpell, h1, hAS]

theorem entity_pieces_ok (e : Entity) (h : entityWF e = true) (pw : Bool) :
    piecesOKA pw (piecesOfEntity e) true = true := by
  obtain ⟨nm, al⟩ := e
  simp only [entityWF, Bool.and_eq_true] at h
  have h1 := tokOK_id_of nm h.1
  cases al with
  | none =>
    simp [piecesOfEntity, piecesOfAlias, piecesOKA, headBoundaryA, endsWord,
      isSymbolKind, idTok, h1]
  | some a =>
    have h2 := tokOK_id_of a h.2
    have hAS : tokOK false (⟨.AS, "AS"⟩ : Token) = true := by decide
    simp [piecesOfEntity, piecesOfAlias, piecesOKA, sepOK, headBoundaryA,
      endsWord, isSymbolKind, idTok, kwTok, kwSpell, h1, h2, hAS]

theorem equiv_pieces_ok (qv : Equivalence) (h : equivWF qv = true) :
    piecesOKA false (piecesOfEquiv qv) true = true := by
  obtain ⟨l, rr⟩ := qv
  simp only [equivWF, Bool.and_eq_true] at h
  cases rr with
  | none =>
    simp only [piecesOfEquiv, List.append_nil]
    exact ref_pieces_ok l h.1 false
  | some r2 =>
    simp only [piecesOfEquiv]
    rw [piecesOKA_append, Bool.and_eq_true]
    constructor
    · rw [show headBoundaryA
          ([Piece.sep ' ', Piece.tok ⟨.EQUALS, "="⟩, Piece.sep ' ']
            ++ piecesOfRef r2) true = true from by
        rw [headBoundaryA_append]; rfl]
      exact ref_pieces_ok l h.1 false
    · rw [piecesOKA_append]
      have hEQ : ∀ pw2 : Bool, tokOK pw2 (⟨.EQUALS, "="⟩ : Token) = true := by
        decide
      simp only [Bool.and_eq_true]
      constructor
      · simp [piecesOKA, sepOK, headBoundaryA, endsWord, isSymbolKind, hEQ]
      · exact ref_pieces_ok r2 h.2 _

theorem join_pieces_ok (j : Join) (h : joinWF j = true) (pw : Bool) :
    piecesOKA pw (piecesOfJoin j) true = true := by
  obtain ⟨tgt, conds⟩ := j
  simp only [joinWF, Bool.and_eq_true] at h
  have hJOIN : tokOK false (⟨.JOIN, "JOIN"⟩ : Token) = true := by decide
  have hON : tokOK false (⟨.ON, "ON"⟩ : Token) = true := by decide
  have hent := entity_pieces_ok tgt h.1.1
  have hcrit : piecesOKA false
      (joinPieces [Piece.sep '\n', Piece.tok ⟨.AND, "AND"⟩, Piece.sep ' ']
        (conds.map piecesOfEquiv)) true = true := by
    apply joinPieces_ok
    · decide
    · decide
    · decide
    · intro xs hxs
      simp only [List.mem_map] at hxs
      obtain ⟨cond, hcmem, hceq⟩ := hxs
      subst hceq
      refine equiv_pieces_ok cond ?_
      have := List.all_eq_true.mp h.2 cond hcmem
      simpa using this
  simp only [piecesOfJoin, kwTok, kwSpell]
  generalize hE : piecesOfEntity tgt = entp
  rw [hE] at hent
  generalize hC : joinPieces
      [Piece.sep '\n', Piece.tok ⟨.AND, "AND"⟩, Piece.sep ' ']
      (conds.map piecesOfEquiv) = jpp
  rw [hC] at hcrit
  simp [piecesOKA_append, piecesOKA, sepOK, headBoundaryA, headBoundaryA_append,
    pwOut_append, pwOut, hJOIN, hON, hent, hcrit, endsWord, isSymbolKind]

theorem joins_pieces_ok (joins : List Join) (h : joins.all joinWF = true) :
    ∀ pw2 : Bool, piecesOKA pw2 ((joins.map piecesOfJoin).join) true = true := by
  induction joins with
  | nil => intro pw2; rfl
  | cons j js ih =>
    intro pw2
    simp only [List.all_cons, Bool.and_eq_true] at h
    have hbF : headBoundaryA ((js.map piecesOfJoin).join) true = true := by
      cases js <;> rfl
    rw [show ((j :: js).map piecesOfJoin).join
        = piecesOfJoin j ++ (js.map piecesOfJoin).join from rfl]
    rw [piecesOKA_append, hbF]
    simp only [Bool.and_eq_true]
    exact ⟨join_pieces_ok j h.1 pw2, ih h.2 _⟩

theorem proj_pieces_ok (p : Projection) (h : projWF p = true) :
    piecesOKA false (piecesOfProj p) true = true := by
  cases p with
  | projChar r al =>
    simp only [projWF, Bool.and_eq_true] at h
    rw [show piecesOfProj (.projChar r al)
        = piecesOfRef r ++ piecesOfAlias al from rfl]
    rw [piecesOKA_append]
    have hb : headBoundaryA (piecesOfAlias al) true = true := by
      cases al <;> rfl
    rw [hb]
    simp only [Bool.and_eq_true]
    exact ⟨ref_pieces_ok r h.1 false, alias_pieces_ok al h.2 _⟩
  | allChars => simp [projWF] at h
  | entityWildcard e =>
    simp only [projWF] at h
    have h1 := tokOK_id_of e h
    have hP : ∀ pw2 : Bool, tokOK pw2 (⟨.PERIOD, "."⟩ : Token) = true := by
      decide
    have hA : ∀ pw2 : Bool, tokOK pw2 (⟨.ASTERISK, "*"⟩ : Token) = true := by
      decide
    simp [piecesOfProj, piecesOKA, headBoundaryA, endsWord, isSymbolKind,
      idTok, h1, hP, hA]

theorem tokOK_all_of (s : String) (h1 : ciEq "ALL".data s.data = true)
    (h2 : s.data.all isWordChar = true) : tokOK false ⟨.ALL, s⟩ = true := by
  simp [tokOK, kwSpell, h1, h2]

theorem query_pieces_ok (q : QueryStatement) (h : astWF q = true) :
    piecesOKA false (piecesOfQuery q) true = true := by
  obtain ⟨projs, ⟨ents, joins⟩, qual⟩ := q
  simp only [astWF, Bool.and_eq_true] at h
  obtain ⟨⟨⟨hprojs, hents⟩, hjoins⟩, hqual⟩ := h
  match ents, hents with
  | [e], he =>
  have hC : piecesOKA false
      (joinPieces [Piece.tok ⟨.COMMA, ","⟩, Piece.sep '\n']
        (projs.map piecesOfProj)) true = true := by
    simp only [projsWF, Bool.or_eq_true, Bool.and_eq_true, beq_iff_eq] at hprojs
    cases hprojs with
    | inl hall =>
      subst hall
      decide
    | inr hgen =>
      apply joinPieces_ok
      · decide
      · decide
      · decide
      · intro xs hxs
        simp only [List.mem_map] at hxs
        obtain ⟨p, hpmem, hpeq⟩ := hxs
        subst hpeq
        refine proj_pieces_ok p ?_
        have := List.all_eq_true.mp hgen.2 p hpmem
        simpa using this
  have hE := entity_pieces_ok e he
  have hF := joins_pieces_ok joins hjoins
  have hbF : headBoundaryA ((joins.map piecesOfJoin).join) true = true := by
    cases joins <;> rfl
  simp only [piecesOfQuery, kwTok, kwSpell, List.map_cons, List.map_nil]
  rw [show joinPieces [Piece.tok ⟨.COMMA, ","⟩, Piece.sep ' ']
      [piecesOfEntity e] = piecesOfEntity e from rfl]
  generalize hgC : joinPieces [Piece.tok ⟨.COMMA, ","⟩, Piece.sep '\n']
      (projs.map piecesOfProj) = cp
  rw [hgC] at hC
  generalize hgE : piecesOfEntity e = ep
  rw [hgE] at hE
  generalize hgF : (joins.map piecesOfJoin).join = fp
  rw [hgF] at hF hbF
  have hSEL : tokOK false (⟨.SELECT, "SELECT"⟩ : Token) = true := by decide
  have hFROM : tokOK false (⟨.FROM, "FROM"⟩ : Token) = true := by decide
  have hbS : ∀ (c : Char) (ps2 : List Piece) (nb : Bool),
      headBoundaryA (Piece.sep c :: ps2) nb = true := fun _ _ _ => rfl
  cases qual with
  | none =>
    simp [piecesOKA_append, piecesOKA, sepOK, hbS,
      headBoundaryA_append, pwOut_append, pwOut, hSEL, hFROM, hC, hE, hF, hbF,
      endsWord, isSymbolKind]
  | some s =>
    simp only at hqual
    simp only [Bool.and_eq_true] at hqual
    have hALL := tokOK_all_of s hqual.1 hqual.2
    simp [piecesOKA_append, piecesOKA, sepOK, hbS,
      headBoundaryA_append, pwOut_append, pwOut, hSEL, hFROM, hALL, hC, hE,
      hF, hbF, endsWord, isSymbolKind]

theorem toksOfPieces_append : ∀ (xs ys : List Piece),
    toksOfPieces (xs ++ ys) = toksOfPieces xs ++ toksOfPieces ys := by
  intro xs
  induction xs with
  | nil => intro ys; rfl
  | cons p xs ih =>
    intro ys
    cases p with
    | sep c =>
      simp only [List.cons_append, toksOfPieces]
      exact ih ys
    | tok t =>
      simp only [List.cons_append, toksOfPieces]
      exact congrArg (List.cons t) (ih ys)

theorem toks_ref (r : Reference) :
    toksOfPieces (piecesOfRef r) = toksOfRef r := by
  obtain ⟨en, ch⟩ := r
  cases en <;> cases ch <;> rfl

theorem toks_alias (al : Option String) :
    toksOfPieces (piecesOfAlias al) = toksOfAlias al := by
  cases al <;> rfl

theorem toks_proj (p : Projection) :
    toksOfPieces (piecesOfProj p) = toksOfProj p := by
  cases p with
  | projChar r al =>
    rw [show piecesOfProj (.projChar r al)
        = piecesOfRef r ++ piecesOfAlias al from rfl,
      toksOfPieces_append, toks_ref, toks_alias]
    rfl
  | allChars => rfl
  | entityWildcard e => rfl

theorem toks_entity (e : Entity) :
    toksOfPieces (piecesOfEntity e) = toksOfEntity e := by
  obtain ⟨nm, al⟩ := e
  cases al <;> rfl

theorem toks_equiv (qv : Equivalence) :
    toksOfPieces (piecesOfEquiv qv) = toksOfEquiv qv := by
  obtain ⟨l, rr⟩ := qv
  cases rr with
  | none =>
    simp only [piecesOfEquiv, List.append_nil, toks_ref]
    simp [toksOfEquiv]
  | some r2 =>
    rw [show piecesOfEquiv ⟨l, some r2⟩
        = piecesOfRef l ++ ([Piece.sep ' ', Piece.tok ⟨.EQUALS, "="⟩,
            Piece.sep ' '] ++ piecesOfRef r2) from by
      simp [piecesOfEquiv]]
    rw [toksOfPieces_append, toksOfPieces_append, toks_ref, toks_ref]
    rfl

theorem toks_joinPieces (s : List Piece) (st : Token)
    (hs : toksOfPieces s = [st]) :
    ∀ (xss : List (List Piece)),
      toksOfPieces (joinPieces s xss) = joinToksSep st (xss.map toksOfPieces) := by
  intro xss
  induction xss with
  | nil => rfl
  | cons x yss ih =>
    cases yss with
    | nil => rfl
    | cons y zss =>
      rw [show joinPieces s (x :: y :: zss)
          = x ++ (s ++ joinPieces s (y :: zss)) from by
        simp [joinPieces, List.append_assoc]]
      rw [toksOfPieces_append, toksOfPieces_append, hs, ih]
      rfl

theorem toks_join (j : Join) :
    toksOfPieces (piecesOfJoin j) = toksOfJoin j := by
  obtain ⟨tgt, conds⟩ := j
  rw [show piecesOfJoin ⟨tgt, conds⟩
      = [Piece.sep '\n', Piece.tok (kwTok .JOIN), Piece.sep ' ']
        ++ (piecesOfEntity tgt
          ++ ([Piece.sep ' ', Piece.tok (kwTok .ON), Piece.sep ' ']
            ++ joinPieces
                [Piece.sep '\n', Piece.tok (kwTok .AND), Piece.sep ' ']
                (conds.map piecesOfEquiv))) from by
    simp [piecesOfJoin, List.append_assoc]]
  rw [toksOfPieces_append, toksOfPieces_append, toksOfPieces_append,
    toks_entity,
    toks_joinPieces [Piece.sep '\n', Piece.tok (kwTok .AND), Piece.sep ' ']
      ⟨.AND, "AND"⟩ rfl]
  simp only [toksOfJoin, List.map_map]
  rw [show (conds.map (toksOfPieces ∘ piecesOfEquiv)) = conds.map toksOfEquiv
      from by
    apply List.map_congr_left
    intro cond _
    exact toks_equiv cond]
  rfl

theorem toks_query (q : QueryStatement) :
    toksOfPieces (piecesOfQuery q) = toksOfQuery q := by
  obtain ⟨projs, ⟨ents, joins⟩, qual⟩ := q
  rw [show piecesOfQuery ⟨projs, ⟨ents, joins⟩, qual⟩
      = [Piece.tok (kwTok .SELECT), Piece.sep ' ']
        ++ ((match qual with
             | some s => [Piece.tok ⟨.ALL, s⟩, Piece.sep ' ']
             | none => [])
          ++ (joinPieces [Piece.tok ⟨.COMMA, ","⟩, Piece.sep '\n']
                (projs.map piecesOfProj)
            ++ ([Piece.sep '\n', Piece.tok (kwTok .FROM), Piece.sep ' ']
              ++ (joinPieces [Piece.tok ⟨.COMMA, ","⟩, Piece.sep ' ']
                    (ents.map piecesOfEntity)
                ++ (joins.map piecesOfJoin).join)))) from by
    simp [piecesOfQuery, List.append_assoc]]
  rw [toksOfPieces_append, toksOfPieces_append, toksOfPieces_append,
    toksOfPieces_append, toksOfPieces_append,
    toks_joinPieces [Piece.tok ⟨.COMMA, ","⟩, Piece.sep '\n'] ⟨.COMMA, ","⟩ rfl,
    toks_joinPieces [Piece.tok ⟨.COMMA, ","⟩, Piece.sep ' '] ⟨.COMMA, ","⟩ rfl]
  have hjoins : toksOfPieces ((joins.map piecesOfJoin).join)
      = (joins.map toksOfJoin).join := by
    induction joins with
    | nil => rfl
    | cons j js ihj =>
      rw [show ((j :: js).map piecesOfJoin).join
          = piecesOfJoin j ++ (js.map piecesOfJoin).join from rfl,
        toksOfPieces_append, toks_join, ihj]
      rfl
  rw [hjoins]
  have hprojs : projs.map (toksOfPieces ∘ piecesOfProj)
      = projs.map toksOfProj := by
    apply List.map_congr_left
    intro p _
    exact toks_proj p
  have hents : ents.map (toksOfPieces ∘ piecesOfEntity)
      = ents.map toksOfEntity := by
    apply List.map_congr_left
    intro e _
    exact toks_entity e
  simp only [List.map_map, hprojs, hents]
  cases qual <;> rfl

/-! ## Completeness of the parser on printed token streams -/

theorem refWF_char (r : Reference) (h : refWF r = true) :
    r.characteristic.isSome = true := by
  obtain ⟨en, ch⟩ := r
  cases ch with
  | none => simp [refWF] at h
  | some c => rfl

theorem parse_char_ref_complete (r : Reference) (rest : List Token)
    (hch : r.characteristic.isSome = true)
    (hrest : r.entity = none → peekKind rest ≠ some .PERIOD) :
    parse_char_ref (toksOfRef r ++ rest) = some (r, rest) := by
  obtain ⟨en, ch⟩ := r
  cases ch with
  | none => simp at hch
  | some c =>
    cases en with
    | some e =>
      simp [toksOfRef, parse_char_ref, consume?, peekKind,
        Option.bind_eq_bind, Option.some_bind]
    | none =>
      have hp := hrest rfl
      rw [show toksOfRef ⟨none, some c⟩ ++ rest = ⟨.ID, c⟩ :: rest from rfl]
      simp only [parse_char_ref, consume?, Option.bind_eq_bind, if_true,
        Option.some_bind]
      rw [if_neg hp]

theorem parse_equiv_complete (qv : Equivalence) (rest : List Token)
    (hl : qv.left.characteristic.isSome = true)
    (hr : ∀ r2, qv.right = some r2 → r2.characteristic.isSome = true)
    (hrest1 : peekKind rest ≠ some .PERIOD)
    (hrest2 : peekKind rest ≠ some .EQUALS) :
    parse_equivalence_expression (toksOfEquiv qv ++ rest) = some (qv, rest) := by
  obtain ⟨l, rr⟩ := qv
  cases rr with
  | none =>
    rw [show toksOfEquiv ⟨l, none⟩ = toksOfRef l from by simp [toksOfEquiv]]
    simp only [parse_equivalence_expression, Option.bind_eq_bind]
    rw [parse_char_ref_complete l rest hl (fun _ => hrest1)]
    simp [hrest2]
  | some r2 =>
    rw [show toksOfEquiv ⟨l, some r2⟩ ++ rest
        = toksOfRef l ++ (⟨.EQUALS, "="⟩ :: (toksOfRef r2 ++ rest)) from by
      simp [toksOfEquiv]]
    simp only [parse_equivalence_expression, Option.bind_eq_bind]
    rw [parse_char_ref_complete l _ hl (fun _ => by simp [peekKind])]
    simp only [Option.some_bind]
    rw [if_pos (show peekKind (⟨.EQUALS, "="⟩ :: (toksOfRef r2 ++ rest))
        = some TokKind.EQUALS from rfl)]
    simp only [consume?, Option.bind_eq_bind, if_true, Option.some_bind]
    rw [parse_char_ref_complete r2 rest (hr r2 rfl) (fun _ => hrest1)]
    rfl

theorem equivWF_isSome (qv : Equivalence) (h : equivWF qv = true) :
    qv.left.characteristic.isSome = true ∧
      ∀ r2, qv.right = some r2 → r2.characteristic.isSome = true := by
  obtain ⟨l, rr⟩ := qv
  simp only [equivWF, Bool.and_eq_true] at h
  refine ⟨refWF_char l h.1, ?_⟩
  intro r2 hr2
  cases rr with
  | none => exact Option.noConfusion hr2
  | some r3 =>
    have : r3 = r2 := Option.some.injEq _ _ ▸ hr2
    subst this
    exact refWF_char r3 h.2

theorem parse_join_criteria_complete :
    ∀ (conds : List Equivalence) (fuel : Nat) (rest : List Token),
      conds ≠ [] → conds.all equivWF = true → conds.length ≤ fuel →
      peekKind rest ≠ some .PERIOD → peekKind rest ≠ some .EQUALS →
      peekKind rest ≠ some .AND →
      parse_join_criteria fuel
        (joinToksSep ⟨.AND, "AND"⟩ (conds.map toksOfEquiv) ++ rest)
        = some (conds, rest) := by
  intro conds
  induction conds with
  | nil => intro fuel rest hne _ _ _ _ _; exact absurd rfl hne
  | cons c cs ih =>
    intro fuel rest _ hwf hfuel h1 h2 h3
    simp only [List.all_cons, Bool.and_eq_true] at hwf
    obtain ⟨hcl, hcr⟩ := equivWF_isSome c hwf.1
    match fuel, hfuel with
    | f + 1, hf2 =>
    cases cs with
    | nil =>
      rw [show joinToksSep ⟨.AND, "AND"⟩ ([c].map toksOfEquiv)
          = toksOfEquiv c from rfl]
      simp only [parse_join_criteria, Option.bind_eq_bind]
      rw [parse_equiv_complete c rest hcl hcr h1 h2]
      simp [h3]
    | cons c2 cs2 =>
      rw [show joinToksSep ⟨.AND, "AND"⟩ ((c :: c2 :: cs2).map toksOfEquiv)
            ++ rest
          = toksOfEquiv c ++ (⟨.AND, "AND"⟩ ::
              (joinToksSep ⟨.AND, "AND"⟩ ((c2 :: cs2).map toksOfEquiv)
                ++ rest)) from by
        simp [joinToksSep, List.append_assoc]]
      simp only [parse_join_criteria, Option.bind_eq_bind]
      rw [parse_equiv_complete c _ hcl hcr (by simp [peekKind])
        (by simp [peekKind])]
      simp only [Option.some_bind]
      rw [if_pos (show peekKind (⟨.AND, "AND"⟩ ::
          (joinToksSep ⟨.AND, "AND"⟩ ((c2 :: cs2).map toksOfEquiv) ++ rest))
          = some TokKind.AND from rfl)]
      simp only [consume?, Option.bind_eq_bind, if_true, Option.some_bind]
      rw [ih f rest (by simp) hwf.2 (by simp at hf2 ⊢; omega) h1 h2 h3]
      rfl

theorem parse_selected_entity_complete (e : Entity) (rest : List Token)
    (hrest : e.alias_ = none →
      peekKind rest ≠ some .AS ∧ peekKind rest ≠ some .ID) :
    parse_selected_entity (toksOfEntity e ++ rest) = some (e, rest) := by
  obtain ⟨nm, al⟩ := e
  cases al with
  | some a =>
    simp [toksOfEntity, toksOfAlias, parse_selected_entity, consume?,
      peekKind, Option.bind_eq_bind, Option.some_bind]
  | none =>
    obtain ⟨h1, h2⟩ := hrest rfl
    rw [show toksOfEntity ⟨nm, none⟩ ++ rest = ⟨.ID, nm⟩ :: rest from rfl]
    simp only [parse_selected_entity, consume?, Option.bind_eq_bind, if_true,
      Option.some_bind]

theorem toksOfRef_length (r : Reference) (h : r.characteristic.isSome = true) :
    1 ≤ (toksOfRef r).length := by
  obtain ⟨en, ch⟩ := r
  cases ch with
  | none => simp at h
  | some c => cases en <;> simp [toksOfRef]

theorem toksOfEquiv_length (qv : Equivalence) (h : equivWF qv = true) :
    1 ≤ (toksOfEquiv qv).length := by
  obtain ⟨l, rr⟩ := qv
  simp only [equivWF, Bool.and_eq_true] at h
  have hl := toksOfRef_length l (refWF_char l h.1)
  cases rr <;> simp [toksOfEquiv] <;> omega

theorem joinToksSep_length (st : Token) :
    ∀ (xss : List (List Token)), (∀ x ∈ xss, 1 ≤ x.length) →
      xss.length ≤ (joinToksSep st xss).length := by
  intro xss
  induction xss with
  | nil => intro _; simp [joinToksSep]
  | cons x yss ih =>
    intro hx
    cases yss with
    | nil => simpa [joinToksSep] using hx x (by simp)
    | cons y zss =>
      have hx1 := hx x (by simp)
      have h2 := ih fun z hz => hx z (by simp [hz])
      rw [show joinToksSep st (x :: y :: zss)
          = x ++ st :: joinToksSep st (y :: zss) from rfl]
      simp only [List.length_append, List.length_cons] at h2 ⊢
      omega

theorem toksOfJoin_length (j : Join) (h : joinWF j = true) :
    j.onConds.length + 3 ≤ (toksOfJoin j).length := by
  obtain ⟨tgt, conds⟩ := j
  simp only [joinWF, Bool.and_eq_true] at h
  have hsep := joinToksSep_length ⟨.AND, "AND"⟩ (conds.map toksOfEquiv) (by
    intro x hx
    simp only [List.mem_map] at hx
    obtain ⟨cond, hcmem, hceq⟩ := hx
    subst hceq
    refine toksOfEquiv_length cond ?_
    have := List.all_eq_true.mp h.2 cond hcmem
    simpa using this)
  simp only [List.length_map] at hsep
  simp only [toksOfJoin, toksOfEntity, List.length_cons, List.length_append]
  omega

theorem parse_join_expression_complete (j : Join) (fuel : Nat)
    (rest : List Token) (hwf : joinWF j = true)
    (hfuel : j.onConds.length ≤ fuel)
    (h2 : peekKind rest ≠ some .PERIOD) (h3 : peekKind rest ≠ some .EQUALS)
    (h4 : peekKind rest ≠ some .AND) :
    parse_join_expression fuel (toksOfJoin j ++ rest) = some (j, rest) := by
  obtain ⟨tgt, conds⟩ := j
  simp only [joinWF, Bool.and_eq_true] at hwf
  have hne : conds ≠ [] := by
    intro he
    subst he
    simp at hwf
  rw [show toksOfJoin ⟨tgt, conds⟩ ++ rest
      = ⟨.JOIN, "JOIN"⟩ :: (toksOfEntity tgt ++ (⟨.ON, "ON"⟩ ::
          (joinToksSep ⟨.AND, "AND"⟩ (conds.map toksOfEquiv) ++ rest)))
      from by simp [toksOfJoin]]
  simp only [parse_join_expression, consume?, Option.bind_eq_bind, if_true,
    Option.some_bind]
  rw [parse_selected_entity_complete tgt _ (fun _ => by
    constructor <;> simp [peekKind])]
  simp only [Option.some_bind, consume?, if_true]
  rw [parse_join_criteria_complete conds fuel rest hne hwf.2
    (by simpa using hfuel) h2 h3 h4]
  rfl

theorem parse_joins_complete :
    ∀ (joins : List Join) (fuel : Nat) (rest : List Token),
      joins.all joinWF = true →
      ((joins.map toksOfJoin).join).length + 1 ≤ fuel →
      peekKind rest ≠ some .JOIN → peekKind rest ≠ some .PERIOD →
      peekKind rest ≠ some .EQUALS → peekKind rest ≠ some .AND →
      parse_joins fuel ((joins.map toksOfJoin).join ++ rest)
        = some (joins, rest) := by
  intro joins
  induction joins with
  | nil =>
    intro fuel rest _ hf h1 _ _ _
    match fuel, hf with
    | f + 1, _ =>
      rw [show ((([] : List Join).map toksOfJoin).join ++ rest) = rest from by
        simp]
      simp only [parse_joins]
      rw [if_neg h1]
  | cons j js ih =>
    intro fuel rest hwf hf h1 h2 h3 h4
    simp only [List.all_cons, Bool.and_eq_true] at hwf
    have hjlen := toksOfJoin_length j hwf.1
    match fuel, hf with
    | f + 1, hf2 =>
      rw [show (((j :: js).map toksOfJoin).join ++ rest)
          = toksOfJoin j ++ ((js.map toksOfJoin).join ++ rest) from by
        simp [List.append_assoc]]
      have hlen2 : (((j :: js).map toksOfJoin).join).length + 1 ≤ f + 1 := hf2
      rw [show (((j :: js).map toksOfJoin).join)
          = toksOfJoin j ++ (js.map toksOfJoin).join from rfl] at hlen2
      simp only [List.length_append] at hlen2
      have hpk : peekKind (toksOfJoin j ++ ((js.map toksOfJoin).join ++ rest))
          = some .JOIN := rfl
      simp only [parse_joins]
      rw [if_pos hpk]
      simp only [Option.bind_eq_bind]
      have hpks : peekKind ((js.map toksOfJoin).join ++ rest)
            ≠ some .PERIOD ∧
          peekKind ((js.map toksOfJoin).join ++ rest) ≠ some .EQUALS ∧
          peekKind ((js.map toksOfJoin).join ++ rest) ≠ some .AND := by
        cases js with
        | nil => simpa using ⟨h2, h3, h4⟩
        | cons j2 js2 =>
          refine ⟨?_, ?_, ?_⟩ <;>
            (rw [show peekKind (((j2 :: js2).map toksOfJoin).join ++ rest)
                = some TokKind.JOIN from rfl]
             simp)
      rw [parse_join_expression_complete j (f + 1) _ hwf.1 (by omega)
        hpks.1 hpks.2.1 hpks.2.2]
      simp only [Option.some_bind]
      rw [ih f rest hwf.2 (by omega) h1 h2 h3 h4]
      rfl

theorem finishProj_default (ref : Reference) (rest : List Token)
    (h2 : peekKind rest ≠ some .AS) (h3 : peekKind rest ≠ some .ID) :
    finishProj ref rest = some (.projChar ref none, rest) := by
  simp only [finishProj, consume?, Option.bind_eq_bind, if_true,
    Option.some_bind]

theorem finishProj_as (ref : Reference) (a : String) (rest : List Token) :
    finishProj ref (⟨.AS, "AS"⟩ :: ⟨.ID, a⟩ :: rest)
      = some (.projChar ref (some a), rest) := rfl

theorem parse_projected_expression_complete (p : Projection)
    (rest : List Token) (hwf : projWF p = true)
    (h1 : peekKind rest ≠ some .PERIOD) (h2 : peekKind rest ≠ some .AS)
    (h3 : peekKind rest ≠ some .ID) :
    parse_projected_expression (toksOfProj p ++ rest) = some (p, rest) := by
  cases p with
  | allChars => simp [projWF] at hwf
  | entityWildcard e =>
    rw [show toksOfProj (.entityWildcard e) ++ rest
        = ⟨.ID, e⟩ :: ⟨.PERIOD, "."⟩ :: ⟨.ASTERISK, "*"⟩ :: rest from rfl]
    rfl
  | projChar r al =>
    simp only [projWF, Bool.and_eq_true] at hwf
    obtain ⟨en, ch⟩ := r
    cases ch with
    | none => simp [refWF] at hwf
    | some c =>
      cases en with
      | some e =>
        cases al with
        | none =>
          rw [show toksOfProj (.projChar ⟨some e, some c⟩ none) ++ rest
              = ⟨.ID, e⟩ :: ⟨.PERIOD, "."⟩ :: ⟨.ID, c⟩ :: rest from rfl]
          simp only [parse_projected_expression, consume?, peekKind,
            Option.bind_eq_bind, if_true, Option.some_bind, List.head?_cons,
            Option.map_some']
          rw [if_neg (by simp)]
          rw [finishProj_default ⟨some e, some c⟩ rest h2 h3]
        | some a =>
          rw [show toksOfProj (.projChar ⟨some e, some c⟩ (some a)) ++ rest
              = ⟨.ID, e⟩ :: ⟨.PERIOD, "."⟩ :: ⟨.ID, c⟩ :: ⟨.AS, "AS"⟩ ::
                  ⟨.ID, a⟩ :: rest from rfl]
          rfl
      | none =>
        cases al with
        | none =>
          rw [show toksOfProj (.projChar ⟨none, some c⟩ none) ++ rest
              = ⟨.ID, c⟩ :: rest from by
            simp [toksOfProj, toksOfRef, toksOfAlias]]
          simp only [parse_projected_expression, consume?, Option.bind_eq_bind,
            if_true, Option.some_bind]
          rw [if_neg h1]
          rw [finishProj_default ⟨none, some c⟩ rest h2 h3]
        | some a =>
          rw [show toksOfProj (.projChar ⟨none, some c⟩ (some a)) ++ rest
              = ⟨.ID, c⟩ :: ⟨.AS, "AS"⟩ :: ⟨.ID, a⟩ :: rest from by
            simp [toksOfProj, toksOfRef, toksOfAlias]]
          rfl

theorem parse_projected_list_loop_complete :
    ∀ (ps : List Projection) (fuel : Nat) (rest : List Token),
      ps ≠ [] → ps.all projWF = true → ps.length ≤ fuel →
      peekKind rest ≠ some .COMMA → peekKind rest ≠ some .PERIOD →
      peekKind rest ≠ some .AS → peekKind rest ≠ some .ID →
      parse_projected_list_loop fuel
        (joinToksSep ⟨.COMMA, ","⟩ (ps.map toksOfProj) ++ rest)
        = some (ps, rest) := by
  intro ps
  induction ps with
  | nil => intro fuel rest hne _ _ _ _ _ _; exact absurd rfl hne
  | cons p ps2 ih =>
    intro fuel rest _ hwf hfuel h1 h2 h3 h4
    simp only [List.all_cons, Bool.and_eq_true] at hwf
    match fuel, hfuel with
    | f + 1, hf2 =>
    cases ps2 with
    | nil =>
      rw [show joinToksSep ⟨.COMMA, ","⟩ ([p].map toksOfProj)
          = toksOfProj p from rfl]
      simp only [parse_projected_list_loop, Option.bind_eq_bind]
      rw [parse_projected_expression_complete p rest hwf.1 h2 h3 h4]
      simp [h1]
    | cons p2 ps3 =>
      rw [show joinToksSep ⟨.COMMA, ","⟩ ((p :: p2 :: ps3).map toksOfProj)
            ++ rest
          = toksOfProj p ++ (⟨.COMMA, ","⟩ ::
              (joinToksSep ⟨.COMMA, ","⟩ ((p2 :: ps3).map toksOfProj)
                ++ rest)) from by
        simp [joinToksSep, List.append_assoc]]
      simp only [parse_projected_list_loop, Option.bind_eq_bind]
      rw [parse_projected_expression_complete p _ hwf.1 (by simp [peekKind])
        (by simp [peekKind]) (by simp [peekKind])]
      simp only [Option.some_bind]
      rw [if_pos (show peekKind (⟨.COMMA, ","⟩ ::
          (joinToksSep ⟨.COMMA, ","⟩ ((p2 :: ps3).map toksOfProj) ++ rest))
          = some TokKind.COMMA from rfl)]
      simp only [consume?, Option.bind_eq_bind, if_true, Option.some_bind]
      rw [ih f rest (by simp) hwf.2 (by simp at hf2 ⊢; omega) h1 h2 h3 h4]
      rfl

theorem toksOfProj_head (p : Projection) (h : projWF p = true) :
    ∃ v tl, toksOfProj p = ⟨.ID, v⟩ :: tl := by
  cases p with
  | allChars => simp [projWF] at h
  | entityWildcard e => exact ⟨e, _, rfl⟩
  | projChar r al =>
    obtain ⟨en, ch⟩ := r
    cases ch with
    | none => simp [projWF, refWF] at h
    | some c =>
      cases en with
      | some e =>
        exact ⟨e, ⟨.PERIOD, "."⟩ :: ⟨.ID, c⟩ :: toksOfAlias al,
          by simp [toksOfProj, toksOfRef]⟩
      | none => exact ⟨c, toksOfAlias al, by simp [toksOfProj, toksOfRef]⟩

theorem joinToksSep_cons_head (st a : Token) (tl : List Token)
    (xss : List (List Token)) :
    ∃ tl2, joinToksSep st ((a :: tl) :: xss) = a :: tl2 := by
  cases xss with
  | nil => exact ⟨tl, rfl⟩
  | cons y ys => exact ⟨tl ++ st :: joinToksSep st (y :: ys), rfl⟩

theorem parse_projected_list_complete (ps : List Projection) (fuel : Nat)
    (rest : List Token) (hwf : projsWF ps = true) (hfuel : ps.length ≤ fuel)
    (h1 : peekKind rest ≠ some .COMMA) (h2 : peekKind rest ≠ some .PERIOD)
    (h3 : peekKind rest ≠ some .AS) (h4 : peekKind rest ≠ some .ID) :
    parse_projected_list fuel
      (joinToksSep ⟨.COMMA, ","⟩ (ps.map toksOfProj) ++ rest)
      = some (ps, rest) := by
  simp only [projsWF, Bool.or_eq_true, Bool.and_eq_true, beq_iff_eq] at hwf
  cases hwf with
  | inl hall =>
    subst hall
    rw [show joinToksSep ⟨.COMMA, ","⟩
          ([Projection.allChars].map toksOfProj) ++ rest
        = ⟨.ASTERISK, "*"⟩ :: rest from rfl]
    rfl
  | inr hgen =>
    cases hps : ps with
    | nil => rw [hps] at hgen; simp at hgen
    | cons p ps2 =>
      subst hps
      obtain ⟨v, tl, hhd⟩ := toksOfProj_head p (by
        have := List.all_eq_true.mp hgen.2 p (by simp)
        simpa using this)
      have hup : peekKind (joinToksSep ⟨.COMMA, ","⟩
          ((p :: ps2).map toksOfProj) ++ rest) = some .ID := by
        rw [show (p :: ps2).map toksOfProj
            = toksOfProj p :: ps2.map toksOfProj from rfl, hhd]
        obtain ⟨tl2, hjs⟩ := joinToksSep_cons_head ⟨.COMMA, ","⟩ ⟨.ID, v⟩ tl
          (ps2.map toksOfProj)
        rw [hjs]
        rfl
      simp only [parse_projected_list]
      rw [if_neg (by rw [hup]; simp)]
      exact parse_projected_list_loop_complete (p :: ps2) fuel rest (by simp)
        hgen.2 hfuel h1 h2 h3 h4

theorem parse_from_clause_complete (e : Entity) (joins : List Join)
    (fuel : Nat) (rest : List Token)
    (hjwf : joins.all joinWF = true)
    (hfuel : ((joins.map toksOfJoin).join).length + 1 ≤ fuel)
    (h1 : peekKind rest ≠ some .JOIN) (h2 : peekKind rest ≠ some .PERIOD)
    (h3 : peekKind rest ≠ some .EQUALS) (h4 : peekKind rest ≠ some .AND)
    (h5 : peekKind rest ≠ some .AS) (h6 : peekKind rest ≠ some .ID) :
    parse_from_clause fuel
      ((⟨.FROM, "FROM"⟩ ::
        (toksOfEntity e ++ (joins.map toksOfJoin).join)) ++ rest)
      = some (⟨[e], joins⟩, rest) := by
  rw [show (⟨.FROM, "FROM"⟩ ::
        (toksOfEntity e ++ (joins.map toksOfJoin).join) : List Token) ++ rest
      = ⟨.FROM, "FROM"⟩ ::
        (toksOfEntity e ++ ((joins.map toksOfJoin).join ++ rest)) from by
    simp [List.append_assoc]]
  simp only [parse_from_clause, consume?, Option.bind_eq_bind, if_true,
    Option.some_bind]
  have hpks : peekKind ((joins.map toksOfJoin).join ++ rest) ≠ some .AS ∧
      peekKind ((joins.map toksOfJoin).join ++ rest) ≠ some .ID := by
    cases joins with
    | nil => simpa using ⟨h5, h6⟩
    | cons j2 js2 =>
      constructor <;>
        (rw [show peekKind (((j2 :: js2).map toksOfJoin).join ++ rest)
            = some TokKind.JOIN from rfl]
         simp)
  rw [parse_selected_entity_complete e _ (fun _ => hpks)]
  simp only [Option.some_bind]
  rw [parse_joins_complete joins fuel rest hjwf hfuel h1 h2 h3 h4]
  rfl

theorem parse_query_statement_complete (q : QueryStatement) (fuel : Nat)
    (hwf : astWF q = true)
    (hf1 : q.projections.length ≤ fuel)
    (hf2 : ((q.from_clause.joins.map toksOfJoin).join).length + 1 ≤ fuel) :
    parse_query_statement fuel (toksOfQuery q) = some (q, []) := by
  obtain ⟨projs, ⟨ents, joins⟩, qual⟩ := q
  simp only [astWF, Bool.and_eq_true] at hwf
  obtain ⟨⟨⟨hprojs, hents⟩, hjoins⟩, hqual⟩ := hwf
  simp only at hf1 hf2
  match ents, hents with
  | [e], he =>
  have hpkF : ∀ rest2 : List Token, peekKind ((⟨.FROM, "FROM"⟩ :: rest2))
      ≠ some .COMMA ∧
      peekKind ((⟨.FROM, "FROM"⟩ :: rest2)) ≠ some .PERIOD ∧
      peekKind ((⟨.FROM, "FROM"⟩ :: rest2)) ≠ some .AS ∧
      peekKind ((⟨.FROM, "FROM"⟩ :: rest2)) ≠ some .ID := by
    intro rest2
    refine ⟨?_, ?_, ?_, ?_⟩ <;> simp [peekKind]
  have hplist := fun rest2 =>
    parse_projected_list_complete projs fuel (⟨.FROM, "FROM"⟩ :: rest2)
      hprojs hf1 (hpkF rest2).1 (hpkF rest2).2.1 (hpkF rest2).2.2.1
      (hpkF rest2).2.2.2
  have hfrom := parse_from_clause_complete e joins fuel [] hjoins
    (by simpa using hf2) (by simp [peekKind]) (by simp [peekKind])
    (by simp [peekKind]) (by simp [peekKind]) (by simp [peekKind])
    (by simp [peekKind])
  rw [show parse_from_clause fuel
      ((⟨.FROM, "FROM"⟩ ::
        (toksOfEntity e ++ (joins.map toksOfJoin).join)) ++ [])
      = parse_from_clause fuel
        (⟨.FROM, "FROM"⟩ ::
          (toksOfEntity e ++ (joins.map toksOfJoin).join)) from by
    rw [List.append_nil]] at hfrom
  cases qual with
  | none =>
    rw [show toksOfQuery ⟨projs, ⟨[e], joins⟩, none⟩
        = ⟨.SELECT, "SELECT"⟩ ::
          (joinToksSep ⟨.COMMA, ","⟩ (projs.map toksOfProj) ++
            (⟨.FROM, "FROM"⟩ ::
              (toksOfEntity e ++ (joins.map toksOfJoin).join))) from by
      simp [toksOfQuery, toksOfEntity, joinToksSep, List.append_assoc]]
    have hne : ∀ (t : Token) (l : List Token),
        joinToksSep ⟨.COMMA, ","⟩ (projs.map toksOfProj) ++
          (⟨.FROM, "FROM"⟩ ::
            (toksOfEntity e ++ (joins.map toksOfJoin).join)) = t :: l →
        ¬(t.kind = .ALL) := by
      intro t l heq
      simp only [projsWF, Bool.or_eq_true, Bool.and_eq_true, beq_iff_eq]
        at hprojs
      cases hprojs with
      | inl hall =>
        rw [hall] at heq
        rw [show (joinToksSep ⟨.COMMA, ","⟩
              ([Projection.allChars].map toksOfProj))
            = [⟨.ASTERISK, "*"⟩] from rfl] at heq
        have := (List.cons.injEq _ _ _ _).mp heq
        rw [← this.1]
        simp
      | inr hgen =>
        cases hps : projs with
        | nil => rw [hps] at hgen; simp at hgen
        | cons p ps2 =>
          rw [hps] at heq hgen
          obtain ⟨v, tl, hhd⟩ := toksOfProj_head p (by
            have := List.all_eq_true.mp hgen.2 p (by simp)
            simpa using this)
          rw [show (p :: ps2).map toksOfProj
              = toksOfProj p :: ps2.map toksOfProj from rfl, hhd] at heq
          obtain ⟨tl2, hjs⟩ := joinToksSep_cons_head ⟨.COMMA, ","⟩ ⟨.ID, v⟩ tl
            (ps2.map toksOfProj)
          rw [hjs] at heq
          have := (List.cons.injEq _ _ _ _).mp heq
          rw [← this.1]
          simp
    have hcons : ∃ t l, joinToksSep ⟨.COMMA, ","⟩ (projs.map toksOfProj) ++
        (⟨.FROM, "FROM"⟩ ::
          (toksOfEntity e ++ (joins.map toksOfJoin).join)) = t :: l := by
      cases hTS : joinToksSep ⟨.COMMA, ","⟩ (projs.map toksOfProj) ++
          (⟨.FROM, "FROM"⟩ ::
            (toksOfEntity e ++ (joins.map toksOfJoin).join)) with
      | nil =>
        exact absurd (congrArg List.length hTS) (by
          simp [List.length_append])
      | cons t l => exact ⟨t, l, rfl⟩
    obtain ⟨t, l, hts⟩ := hcons
    · have hq : parse_query_statement fuel
          (⟨.SELECT, "SELECT"⟩ ::
            (joinToksSep ⟨.COMMA, ","⟩ (projs.map toksOfProj) ++
              (⟨.FROM, "FROM"⟩ ::
                (toksOfEntity e ++ (joins.map toksOfJoin).join))))
          = ((parse_projected_list fuel
              (joinToksSep ⟨.COMMA, ","⟩ (projs.map toksOfProj) ++
                (⟨.FROM, "FROM"⟩ ::
                  (toksOfEntity e ++ (joins.map toksOfJoin).join)))).bind
            fun a => (parse_from_clause fuel a.2).bind fun b =>
              some (⟨a.1, b.1, none⟩, b.2)) := by
        simp only [parse_query_statement, consume?, Option.bind_eq_bind,
          if_true, Option.some_bind]
        rw [hts]
        dsimp only
        rw [if_neg (hne t l hts)]
      rw [hq, hplist _]
      simp only [Option.some_bind]
      rw [hfrom]
      rfl
  | some s =>
    rw [show toksOfQuery ⟨projs, ⟨[e], joins⟩, some s⟩
        = ⟨.SELECT, "SELECT"⟩ :: ⟨.ALL, s⟩ ::
          (joinToksSep ⟨.COMMA, ","⟩ (projs.map toksOfProj) ++
            (⟨.FROM, "FROM"⟩ ::
              (toksOfEntity e ++ (joins.map toksOfJoin).join))) from by
      simp [toksOfQuery, toksOfEntity, joinToksSep, List.append_assoc]]
    simp only [parse_query_statement, consume?, Option.bind_eq_bind, if_true,
      Option.some_bind]
    rw [hplist _]
    simp only [Option.some_bind]
    rw [hfrom]
    rfl

theorem toksOfProj_length (p : Projection) (h : projWF p = true) :
    1 ≤ (toksOfProj p).length := by
  obtain ⟨v, tl, hhd⟩ := toksOfProj_head p h
  simp [hhd]

theorem toksOfQuery_bounds (q : QueryStatement) (h : astWF q = true) :
    q.projections.length ≤ (toksOfQuery q).length + 1 ∧
    ((q.from_clause.joins.map toksOfJoin).join).length + 1
      ≤ (toksOfQuery q).length + 1 := by
  obtain ⟨projs, ⟨ents, joins⟩, qual⟩ := q
  simp only [astWF, Bool.and_eq_true] at h
  obtain ⟨⟨⟨hprojs, _⟩, _⟩, _⟩ := h
  have hlen : (toksOfQuery ⟨projs, ⟨ents, joins⟩, qual⟩).length
      = 1 + (match qual with | some _ => 1 | none => 0)
        + (joinToksSep ⟨.COMMA, ","⟩ (projs.map toksOfProj)).length
        + 1 + (joinToksSep ⟨.COMMA, ","⟩ (ents.map toksOfEntity)).length
        + ((joins.map toksOfJoin).join).length := by
    cases qual <;>
      simp [toksOfQuery, List.length_append, List.length_cons] <;> omega
  constructor
  · simp only [projsWF, Bool.or_eq_true, Bool.and_eq_true, beq_iff_eq]
      at hprojs
    cases hprojs with
    | inl hall =>
      subst hall
      simp
    | inr hgen =>
      have hsep := joinToksSep_length ⟨.COMMA, ","⟩ (projs.map toksOfProj) (by
        intro x hx
        simp only [List.mem_map] at hx
        obtain ⟨p, hpmem, hpeq⟩ := hx
        subst hpeq
        refine toksOfProj_length p ?_
        have := List.all_eq_true.mp hgen.2 p hpmem
        simpa using this)
      simp only [List.length_map] at hsep
      simp only [hlen]
      omega
  · simp only [hlen]
    omega

theorem getAst_pretty_print (q : QueryStatement) (h : astWF q = true) :
    getAst (pretty_print q) = some q := by
  show (parse_query_statement ((tokenize (pretty_print q)).length + 1)
      (tokenize (pretty_print q))).map (·.1) = some q
  rw [tokenize_pieces q (query_pieces_ok q h), toks_query q]
  obtain ⟨hb1, hb2⟩ := toksOfQuery_bounds q h
  rw [parse_query_statement_complete q ((toksOfQuery q).length + 1) h hb1 hb2]
  rfl

/-- **C6, counterexample.**  A syntactically valid query whose parse holds an
identifier spelled like a keyword (reachable because a silently skipped
character such as the digit in `5FROM` blocks the keyword's `\b` guard while
the letter-first `ID` pattern then matches `FROM` alone) cannot be
pretty-printed back: any grammar-conforming rendering of the projection
`FROM` re-tokenizes as the keyword, and the re-parse fails, so
`parse(pretty_print(parse(q)))` is not `parse(q)`. -/
theorem c6_keyword_identifier_breaks_roundtrip :
    getAst "SELECT 5FROM FROM t"
      = some ⟨[.projChar ⟨none, some "FROM"⟩ none],
          ⟨[⟨"t", none⟩], []⟩, none⟩ ∧
    getAst (pretty_print ⟨[.projChar ⟨none, some "FROM"⟩ none],
        ⟨[⟨"t", none⟩], []⟩, none⟩) = none ∧
    astWF ⟨[.projChar ⟨none, some "FROM"⟩ none],
        ⟨[⟨"t", none⟩], []⟩, none⟩ = false := by
  refine ⟨rfl, rfl, by decide⟩

/-- **C6.**  Parser round trip through the printer: for every query text
whose parse succeeds and yields a statement that is printable (every
identifier in it is a valid non-keyword identifier, every condition operand
has a characteristic, `*` appears only as the sole projection, every join
has a condition, and the qualifier is a case-variant of `ALL` — all of which
hold of every statement the grammar itself can spell), re-parsing the
pretty-printed statement yields a structurally equal statement tree;
`pretty_print` is a deterministic function of the AST by construction. -/
theorem c6_parse_pretty_parse (q : String) (ast : QueryStatement)
    (h : getAst q = some ast) (hwf : astWF ast = true) :
    getAst (pretty_print ast) = getAst q := by
  rw [h]
  exact getAst_pretty_print ast hwf

/-- Witness for C6: a concrete query with qualifier, dotted and aliased
projections, a join with a binary and a unary condition, round-trips through
the printer. -/
theorem c6_roundtrip_witness :
    getAst (pretty_print ⟨[.projChar ⟨none, some "x"⟩ none,
        .projChar ⟨some "A", some "y"⟩ (some "z")],
        ⟨[⟨"T", some "tt"⟩], [⟨⟨"B", none⟩, [⟨⟨some "T", some "b"⟩,
          some ⟨some "B", some "t"⟩⟩, ⟨⟨none, some "c"⟩, none⟩]⟩]⟩,
        some "all"⟩)
      = getAst "select all x, A.y z from T tt JOIN B ON T.b = B.t AND c" :=
  c6_parse_pretty_parse
    "select all x, A.y z from T tt JOIN B ON T.b = B.t AND c"
    ⟨[.projChar ⟨none, some "x"⟩ none,
      .projChar ⟨some "A", some "y"⟩ (some "z")],
      ⟨[⟨"T", some "tt"⟩], [⟨⟨"B", none⟩, [⟨⟨some "T", some "b"⟩,
        some ⟨some "B", some "t"⟩⟩, ⟨⟨none, some "c"⟩, none⟩]⟩]⟩,
      some "all"⟩
    (by decide) (by decide)

/-! ### C1 helper lemmas -/

/-- Two single-hop paths of the same start type render equally iff their
rolenames agree (the cached target type does not print). -/
theorem pathStr_inj (start c c' : String) (T T' : Option String) :
    (ParticipantPath.str ⟨start, [.entityRes c T]⟩
      = ParticipantPath.str ⟨start, [.entityRes c' T']⟩) ↔ c = c' := by
  constructor
  · intro h
    have hd := congrArg String.data h
    simp only [ParticipantPath.str, Resolution.renderList, Resolution.str,
      String.data_append, List.append_nil] at hd
    have h2 := List.append_cancel_left hd
    have h3 := List.append_cancel_left h2
    exact String.ext h3
  · intro h
    subst h
    simp [ParticipantPath.str, Resolution.renderList, Resolution.str]

theorem amGet_cons_hit (k : String) (v : List ParticipantPath) (m : AliasMap) :
    amGet ((k, v) :: m) k = v := by
  unfold amGet
  rw [List.find?_cons_of_pos _ (by simp)]
  rfl

theorem amGet_cons_miss (k a : String) (v : List ParticipantPath)
    (m : AliasMap) (h : a ≠ k) : amGet ((k, v) :: m) a = amGet m a := by
  unfold amGet
  rw [List.find?_cons_of_neg _ (by simpa using Ne.symm h)]

theorem amGet_append_fresh (m : AliasMap) (t : String)
    (v : List ParticipantPath) (h : ∀ kv ∈ m, kv.1 ≠ t) :
    amGet (m ++ [(t, v)]) t = v := by
  induction m with
  | nil => exact amGet_cons_hit t v []
  | cons kv m ih =>
    rw [List.cons_append,
      show amGet ((kv.1, kv.2) :: (m ++ [(t, v)])) t = amGet (m ++ [(t, v)]) t
        from amGet_cons_miss _ _ _ _ (Ne.symm (h kv (List.mem_cons_self kv m)))]
    exact ih fun kv' hkv' => h kv' (List.mem_cons_of_mem kv hkv')

theorem amAppend_append_fresh (m : AliasMap) (t : String)
    (v : List ParticipantPath) (p : ParticipantPath)
    (h : ∀ kv ∈ m, kv.1 ≠ t) :
    amAppend (m ++ [(t, v)]) t p = m ++ [(t, v ++ [p])] := by
  unfold amAppend
  rw [List.map_append]
  congr 1
  · rw [show m.map (fun kv => if kv.1 = t then (kv.1, kv.2 ++ [p]) else kv)
        = m.map id from List.map_congr_left fun kv hkv => if_neg (h kv hkv)]
    exact List.map_id m
  · simp

theorem amContains_append (m m' : AliasMap) (k : String) :
    amContains (m ++ m') k = (amContains m k || amContains m' k) := by
  unfold amContains
  exact List.any_append

theorem amContains_c1Head (root : String) (v : List ParticipantPath)
    (m : AliasMap) : amContains ((root, v) :: m) root = true := by
  simp [amContains]

/-- Every key of `c1Map start root pre` differs from a fresh target alias. -/
theorem c1Map_keys_ne (start root t : String) (pre : List Join)
    (htr : t ≠ root) (htp : ∀ j ∈ pre, effAlias j.target ≠ t) :
    ∀ kv ∈ c1Map start root pre, kv.1 ≠ t := by
  intro kv hkv
  rcases List.mem_cons.mp hkv with rfl | hkv'
  · exact Ne.symm htr
  · obtain ⟨j, hj, rfl⟩ := List.mem_map.mp hkv'
    exact htp j hj

theorem distinctStrs_cons (x : String) (l : List String)
    (h : distinctStrs (x :: l) = true) :
    l.contains x = false ∧ distinctStrs l = true := by
  simp only [distinctStrs, Bool.and_eq_true, Bool.not_eq_true'] at h
  exact h

theorem distinctStrs_append_ne (l1 : List String) (x : String)
    (l2 : List String) (h : distinctStrs (l1 ++ x :: l2) = true) :
    ∀ a ∈ l1, a ≠ x := by
  induction l1 with
  | nil => intro a ha; cases ha
  | cons b bs ih =>
    intro a ha
    obtain ⟨hb, hrest⟩ := distinctStrs_cons b (bs ++ x :: l2) h
    rcases List.mem_cons.mp ha with rfl | ha'
    · intro hax
      subst hax
      have : (bs ++ a :: l2).contains a = true := by
        simp
      rw [hb] at this
      cases this
    · exact ih hrest a ha'

theorem distinctStrs_append_left (l1 l2 : List String)
    (h : distinctStrs (l1 ++ l2) = true) : distinctStrs l2 = true := by
  induction l1 with
  | nil => exact h
  | cons b bs ih => exact ih (distinctStrs_cons b (bs ++ l2) h).2

/-- Membership in `firstOccAux`: in the remainder and not yet seen. -/
theorem mem_firstOccAux (x : String) :
    ∀ (l seen : List String), x ∈ firstOccAux seen l ↔ x ∈ l ∧ x ∉ seen := by
  intro l
  induction l with
  | nil => intro seen; simp [firstOccAux]
  | cons y ys ih =>
    intro seen
    by_cases hy : y ∈ seen
    · rw [firstOccAux, if_pos hy, ih seen]
      constructor
      · rintro ⟨h1, h2⟩
        exact ⟨List.mem_cons_of_mem y h1, h2⟩
      · rintro ⟨h1, h2⟩
        rcases List.mem_cons.mp h1 with rfl | h1'
        · exact absurd hy h2
        · exact ⟨h1', h2⟩
    · rw [firstOccAux, if_neg hy]
      constructor
      · intro h1
        rcases List.mem_cons.mp h1 with rfl | h1'
        · exact ⟨List.mem_cons_self x ys, hy⟩
        · obtain ⟨ha, hb⟩ := (ih (y :: seen)).mp h1'
          exact ⟨List.mem_cons_of_mem y ha,
            fun hx => hb (List.mem_cons_of_mem y hx)⟩
      · rintro ⟨h1, h2⟩
        rcases List.mem_cons.mp h1 with rfl | h1'
        · exact List.mem_cons_self x _
        · by_cases hxy : x = y
          · subst hxy; exact List.mem_cons_self x _
          · exact List.mem_cons_of_mem y ((ih (y :: seen)).mpr
              ⟨h1', by simp [hxy, h2]⟩)

theorem mem_firstOcc (x : String) (l : List String) :
    x ∈ firstOcc l ↔ x ∈ l := by
  rw [firstOcc, mem_firstOccAux]
  simp

/-- `firstOccAux` depends on the seen set only through membership. -/
theorem firstOccAux_congr :
    ∀ (l s s' : List String), (∀ x, x ∈ s ↔ x ∈ s') →
    firstOccAux s l = firstOccAux s' l := by
  intro l
  induction l with
  | nil => intro s s' _; rfl
  | cons y ys ih =>
    intro s s' hss
    by_cases hy : y ∈ s
    · rw [firstOccAux, if_pos hy, firstOccAux, if_pos ((hss y).mp hy), ih s s' hss]
    · rw [firstOccAux, if_neg hy, firstOccAux, if_neg (fun h => hy ((hss y).mpr h)),
        ih (y :: s) (y :: s') (fun x => by
          simp only [List.mem_cons]
          exact or_congr Iff.rfl (hss x))]

theorem firstOcc_ne_nil (l : List String) (h : l ≠ []) : firstOcc l ≠ [] := by
  match l with
  | [] => exact absurd rfl h
  | x :: xs =>
    rw [firstOcc, firstOccAux, if_neg (List.not_mem_nil x)]
    exact List.cons_ne_nil _ _

/-- One round-trippable condition adds its characteristic's single-hop path
under the target alias unless an equally-rendered path is already there. -/
theorem processCond_c1 (start root t T : String) (pre : List Join)
    (htr : t ≠ root) (htp : ∀ j ∈ pre, effAlias j.target ≠ t)
    (cond : Equivalence) (done : List String)
    (hc : c1CondOK root cond = true) :
    processCond start root t T
        (c1Map start root pre ++ [(t, done.map fun c =>
          (⟨start, [.entityRes c (some T)]⟩ : ParticipantPath))]) cond
      = c1Map start root pre ++ [(t,
          (if charOf cond ∈ done then done else done ++ [charOf cond]).map
            fun c => (⟨start, [.entityRes c (some T)]⟩ : ParticipantPath))] := by
  simp only [c1CondOK, Bool.and_eq_true] at hc
  have hrn : cond.right = none := Option.isNone_iff_eq_none.mp hc.1.1
  have hla : pyOr cond.left.entity root = root := by
    rcases he : cond.left.entity with _ | s
    · rfl
    · rw [he] at hc
      have hs : s = root := by simpa using hc.1.2
      subst hs
      simp [pyOr]
  have hfresh := c1Map_keys_ne start root t pre htr htp
  have hclass : classifyCond
      (c1Map start root pre ++ [(t, done.map fun c =>
        (⟨start, [.entityRes c (some T)]⟩ : ParticipantPath))]) root t T cond
      = some (root, .entityRes (charOf cond) (some T)) := by
    simp only [classifyCond, hrn]
    rw [hla]
    rfl
  have hpc : processCond start root t T
      (c1Map start root pre ++ [(t, done.map fun c =>
        (⟨start, [.entityRes c (some T)]⟩ : ParticipantPath))]) cond
    = if amContains (c1Map start root pre ++ [(t, done.map fun c =>
          (⟨start, [.entityRes c (some T)]⟩ : ParticipantPath))]) root then
        addCondPaths start root t (.entityRes (charOf cond) (some T))
          (c1Map start root pre ++ [(t, done.map fun c =>
            (⟨start, [.entityRes c (some T)]⟩ : ParticipantPath))])
      else c1Map start root pre ++ [(t, done.map fun c =>
        (⟨start, [.entityRes c (some T)]⟩ : ParticipantPath))] := by
    unfold processCond
    rw [hclass]
  rw [hpc]
  have hcont : amContains (c1Map start root pre ++ [(t, done.map fun c =>
      (⟨start, [.entityRes c (some T)]⟩ : ParticipantPath))]) root = true := by
    simp [amContains, c1Map]
  rw [if_pos hcont]
  unfold addCondPaths
  have hgr : amGet (c1Map start root pre ++ [(t, done.map fun c =>
      (⟨start, [.entityRes c (some T)]⟩ : ParticipantPath))]) root
      = [⟨start, []⟩] :=
    amGet_cons_hit root [⟨start, []⟩] _
  rw [hgr]
  simp only [List.foldl_cons, List.foldl_nil, List.nil_append]
  have hgt : amGet (c1Map start root pre ++ [(t, done.map fun c =>
      (⟨start, [.entityRes c (some T)]⟩ : ParticipantPath))]) t
      = done.map fun c => (⟨start, [.entityRes c (some T)]⟩ : ParticipantPath) :=
    amGet_append_fresh _ _ _ hfresh
  rw [hgt]
  by_cases hmem : charOf cond ∈ done
  · rw [if_pos (List.any_eq_true.mpr
      ⟨⟨start, [.entityRes (charOf cond) (some T)]⟩,
        List.mem_map_of_mem _ hmem, by simp⟩)]
    rw [if_pos hmem]
  · have hany : ¬ ((done.map fun c =>
        (⟨start, [.entityRes c (some T)]⟩ : ParticipantPath)).any
          (fun p => p.str = ParticipantPath.str
            ⟨start, [.entityRes (charOf cond) (some T)]⟩) = true) := by
      rw [List.any_eq_true]
      rintro ⟨p, hp, hps⟩
      obtain ⟨c', hc', rfl⟩ := List.mem_map.mp hp
      have hstr := of_decide_eq_true hps
      have hcc := (pathStr_inj start c' (charOf cond) (some T) (some T)).mp hstr
      rw [hcc] at hc'
      exact hmem hc'
    rw [if_neg hany]
    rw [amAppend_append_fresh _ _ _ _ hfresh]
    rw [if_neg hmem]
    simp [List.map_append]

/-- The condition loop of one join extends the target's path list with the
first occurrence of each remaining characteristic. -/
theorem processJoinConds_c1 (start root t T : String) (pre : List Join)
    (htr : t ≠ root) (htp : ∀ j ∈ pre, effAlias j.target ≠ t) :
    ∀ (conds : List Equivalence) (done : List String),
    conds.all (c1CondOK root) = true →
    processJoinConds start root t T
        (c1Map start root pre
          ++ [(t, done.map fun c =>
                (⟨start, [.entityRes c (some T)]⟩ : ParticipantPath))])
        conds
      = c1Map start root pre
          ++ [(t, (done ++ firstOccAux done (conds.map charOf)).map fun c =>
                (⟨start, [.entityRes c (some T)]⟩ : ParticipantPath))] := by
  intro conds
  induction conds with
  | nil => intro done _; simp [processJoinConds, firstOccAux]
  | cons cond cs ih =>
    intro done hall
    obtain ⟨hc, hcs⟩ : c1CondOK root cond = true ∧ cs.all (c1CondOK root) = true := by
      simpa [List.all_cons, Bool.and_eq_true] using hall
    rw [show processJoinConds start root t T
        (c1Map start root pre ++ [(t, done.map fun c =>
          (⟨start, [.entityRes c (some T)]⟩ : ParticipantPath))]) (cond :: cs)
      = processJoinConds start root t T
          (processCond start root t T
            (c1Map start root pre ++ [(t, done.map fun c =>
              (⟨start, [.entityRes c (some T)]⟩ : ParticipantPath))]) cond)
          cs from rfl]
    rw [processCond_c1 start root t T pre htr htp cond done hc]
    by_cases hmem : charOf cond ∈ done
    · rw [if_pos hmem, ih done hcs]
      rw [show (cond :: cs).map charOf = charOf cond :: cs.map charOf from rfl,
        firstOccAux, if_pos hmem]
    · rw [if_neg hmem, ih (done ++ [charOf cond]) hcs]
      rw [show (cond :: cs).map charOf = charOf cond :: cs.map charOf from rfl,
        firstOccAux, if_neg hmem]
      rw [firstOccAux_congr (cs.map charOf) (done ++ [charOf cond])
        (charOf cond :: done) (fun x => by simp; tauto)]
      rw [List.append_assoc]
      rfl

/-- The join loop of `query2path` on a star query builds exactly `c1Map` and
`c1Types`. -/
theorem processJoins_c1 (start root : String) :
    ∀ (suf pre : List Join),
    (pre ++ suf).all (c1JoinOK root) = true →
    distinctStrs ((pre ++ suf).map fun j => effAlias j.target) = true →
    processJoins start root (c1Map start root pre, c1Types start root pre) suf
      = (c1Map start root (pre ++ suf), c1Types start root (pre ++ suf)) := by
  intro suf
  induction suf with
  | nil => intro pre _ _; simp [processJoins]
  | cons j js ih =>
    intro pre hall hdist
    have hj : c1JoinOK root j = true := by
      have := List.all_eq_true.mp hall j (by simp)
      exact this
    simp only [c1JoinOK, Bool.and_eq_true] at hj
    have htr : effAlias j.target ≠ root := by
      have := hj.1.1.2
      simpa using this
    have hdist' : distinctStrs ((pre.map fun k => effAlias k.target)
        ++ effAlias j.target :: (js.map fun k => effAlias k.target)) = true := by
      simpa using hdist
    have htp : ∀ k ∈ pre, effAlias k.target ≠ effAlias j.target := by
      intro k hk
      exact distinctStrs_append_ne _ _ _ hdist' _ (List.mem_map_of_mem _ hk)
    have hfreshT : ∀ kv ∈ c1Types start root pre, kv.1 ≠ effAlias j.target := by
      intro kv hkv
      rcases List.mem_cons.mp hkv with rfl | hkv'
      · exact Ne.symm htr
      · obtain ⟨k, hk, rfl⟩ := List.mem_map.mp hkv'
        exact htp k hk
    have hfreshM := c1Map_keys_ne start root (effAlias j.target) pre htr htp
    rw [show processJoins start root
        (c1Map start root pre, c1Types start root pre) (j :: js)
      = processJoins start root
          (processJoinConds start root (effAlias j.target) j.target.name
            (amSeed (c1Map start root pre) (effAlias j.target)) j.onConds,
           smSet (c1Types start root pre) (effAlias j.target) j.target.name)
          js from rfl]
    have hseed : amSeed (c1Map start root pre) (effAlias j.target)
        = c1Map start root pre ++ [(effAlias j.target, [])] := by
      unfold amSeed
      rw [if_neg ?hnc]
      case hnc =>
        unfold amContains
        rw [List.any_eq_true]
        rintro ⟨kv, hkv, hkvt⟩
        exact hfreshM kv hkv (of_decide_eq_true hkvt)
    have hsm : smSet (c1Types start root pre) (effAlias j.target) j.target.name
        = c1Types start root pre ++ [(effAlias j.target, j.target.name)] := by
      unfold smSet
      rw [if_neg ?hns]
      case hns =>
        unfold smContains
        rw [List.any_eq_true]
        rintro ⟨kv, hkv, hkvt⟩
        exact hfreshT kv hkv (of_decide_eq_true hkvt)
    rw [hseed, hsm]
    have hconds := processJoinConds_c1 start root (effAlias j.target)
      j.target.name pre htr htp j.onConds [] hj.2
    simp only [List.map_nil, List.nil_append] at hconds
    rw [hconds]
    have hm1 : c1Map start root pre
        ++ [(effAlias j.target,
              (firstOccAux [] (j.onConds.map charOf)).map fun c =>
                (⟨start, [.entityRes c (some j.target.name)]⟩ :
                  ParticipantPath))]
        = c1Map start root (pre ++ [j]) := by
      simp [c1Map, List.map_append, c1JoinPaths, firstOcc]
    have hm2 : c1Types start root pre
        ++ [(effAlias j.target, j.target.name)]
        = c1Types start root (pre ++ [j]) := by
      simp [c1Types, List.map_append]
    rw [hm1, hm2]
    have := ih (pre ++ [j])
      (by rw [List.append_assoc]; simpa using hall)
      (by rw [List.append_assoc]; simpa using hdist)
    rw [this, List.append_assoc]
    rfl

theorem amContains_c1Map (start root : String) (joins : List Join) (s : String)
    (hs : s ∈ root :: (joins.map fun j => effAlias j.target)) :
    amContains (c1Map start root joins) s = true := by
  unfold amContains c1Map
  rw [List.any_eq_true]
  rcases List.mem_cons.mp hs with rfl | hs'
  · exact ⟨(s, [⟨start, []⟩]), List.mem_cons_self _ _, by simp⟩
  · obtain ⟨j, hj, rfl⟩ := List.mem_map.mp hs'
    exact ⟨(effAlias j.target, c1JoinPaths start j.target.name j.onConds),
      List.mem_cons_of_mem _ (List.mem_map_of_mem _ hj), by simp⟩

/-- Looking a join's target alias up in `c1Map` returns that join's path
list, provided the target aliases are pairwise distinct. -/
theorem c1Map_amGet_target (start root : String) :
    ∀ (joins : List Join) (j : Join), j ∈ joins →
    effAlias j.target ≠ root →
    distinctStrs (joins.map fun k => effAlias k.target) = true →
    amGet (c1Map start root joins) (effAlias j.target)
      = c1JoinPaths start j.target.name j.onConds := by
  intro joins
  induction joins with
  | nil => intro j hj _ _; cases hj
  | cons k ks ih =>
    intro j hj hne hd
    obtain ⟨hk1, hk2⟩ := distinctStrs_cons (effAlias k.target)
      (ks.map fun k => effAlias k.target) (by simpa using hd)
    rw [show c1Map start root (k :: ks)
      = (root, [⟨start, []⟩]) ::
        ((effAlias k.target, c1JoinPaths start k.target.name k.onConds) ::
          (ks.map fun j => (effAlias j.target,
            c1JoinPaths start j.target.name j.onConds))) from rfl]
    rw [amGet_cons_miss _ _ _ _ hne]
    rcases List.mem_cons.mp hj with rfl | hj'
    · exact amGet_cons_hit _ _ _
    · have hnm : effAlias k.target ∉ ks.map fun k => effAlias k.target := by
        intro hmem
        have : (ks.map fun k => effAlias k.target).contains
            (effAlias k.target) = true := by simpa using hmem
        rw [hk1] at this
        cases this
      have hjk : effAlias j.target ≠ effAlias k.target := by
        intro hEq
        exact hnm (hEq ▸ List.mem_map_of_mem _ hj')
      rw [amGet_cons_miss _ _ _ _ hjk]
      have hih := ih j hj' hne hk2
      rw [show c1Map start root ks
        = (root, [⟨start, []⟩]) :: (ks.map fun j => (effAlias j.target,
            c1JoinPaths start j.target.name j.onConds)) from rfl,
        amGet_cons_miss _ _ _ _ hne] at hih
      exact hih

/-- The projection loop of `query2path` over well-formed star projections
computes the `c1TermPaths` fold. -/
theorem projFold_c1 (start root : String) (joins : List Join)
    (model : List UddlTuple) :
    ∀ (ps : List Projection) (acc : List ParticipantPath),
    ps.all (c1ProjOK root (joins.map fun j => effAlias j.target)) = true →
    ps.foldl (fun acc proj => acc ++ projectionPaths start root
        (c1Map start root joins) (c1Types start root joins) model proj) acc
      = ps.foldl
          (fun acc p => acc ++
            match p with
            | .projChar r _ =>
              (amGet (c1Map start root joins) (pyOr r.entity root)).map fun base =>
                ⟨start, base.resolutions ++
                  [.entityRes (pyStr r.characteristic) none]⟩
            | _ => []) acc := by
  intro ps
  induction ps with
  | nil => intro acc _; rfl
  | cons p ps ih =>
    intro acc hall
    obtain ⟨hp, hps⟩ : c1ProjOK root (joins.map fun j => effAlias j.target) p
        = true ∧ ps.all (c1ProjOK root (joins.map fun j => effAlias j.target))
        = true := by
      simpa [List.all_cons, Bool.and_eq_true] using hall
    rw [List.foldl_cons, List.foldl_cons, ih _ hps]
    congr 2
    match p with
    | .projChar r a =>
      simp only [c1ProjOK, Bool.and_eq_true] at hp
      have hx : pyTruthy r.characteristic = true := by
        rcases hch : r.characteristic with _ | x
        · rw [hch] at hp; cases hp.1
        · rw [hch] at hp
          simpa [pyTruthy] using hp.1
      have hmem : pyOr r.entity root
          ∈ root :: (joins.map fun j => effAlias j.target) := by
        have := hp.2
        simpa using this
      have hcont := amContains_c1Map start root joins _ hmem
      show projectionPaths start root (c1Map start root joins)
          (c1Types start root joins) model (.projChar r a) = _
      rw [show projectionPaths start root (c1Map start root joins)
          (c1Types start root joins) model (.projChar r a)
        = if (pyTruthy r.characteristic
              && amContains (c1Map start root joins) (pyOr r.entity root)) = true
          then (amGet (c1Map start root joins) (pyOr r.entity root)).map
            fun base => ⟨start, base.resolutions
              ++ [.entityRes (pyStr r.characteristic) none]⟩
          else [] from rfl]
      rw [hx, hcont]
      rfl
    | .allChars => exact Bool.noConfusion hp
    | .entityWildcard e => exact Bool.noConfusion hp

/-- `query2path` on a round-trippable star query returns exactly the closed
alias map and terminal-path list. -/
theorem query2path_c1 (re : Entity) (joins : List Join) (ps : List Projection)
    (qual : Option String) (model : List UddlTuple)
    (h : c1QueryOK ⟨ps, ⟨[re], joins⟩, qual⟩ = true) :
    query2path ⟨ps, ⟨[re], joins⟩, qual⟩ model
      = (c1Map re.name (pyOr re.alias_ re.name) joins,
         c1TermPaths re.name (pyOr re.alias_ re.name) joins ps) := by
  simp only [c1QueryOK, Bool.and_eq_true] at h
  obtain ⟨⟨⟨⟨hroot, hall⟩, hdA⟩, hdT⟩, hprojs⟩ := h
  have hpj := processJoins_c1 re.name (pyOr re.alias_ re.name) joins []
    (by simpa using hall) (by simpa using hdA)
  simp only [List.nil_append] at hpj
  unfold query2path
  simp only
  rw [show ([(pyOr re.alias_ re.name, [(⟨re.name, []⟩ : ParticipantPath)])]
        : AliasMap)
      = c1Map re.name (pyOr re.alias_ re.name) [] from rfl,
    show ([(pyOr re.alias_ re.name, re.name)] : StrMap)
      = c1Types re.name (pyOr re.alias_ re.name) [] from rfl,
    hpj]
  rw [show c1TermPaths re.name (pyOr re.alias_ re.name) joins ps
    = ps.foldl (fun acc p => acc ++
        match p with
        | .projChar r _ =>
          (amGet (c1Map re.name (pyOr re.alias_ re.name) joins)
            (pyOr r.entity (pyOr re.alias_ re.name))).map fun base =>
              ⟨re.name, base.resolutions ++
                [.entityRes (pyStr r.characteristic) none]⟩
        | _ => []) [] from rfl]
  rw [projFold_c1 re.name (pyOr re.alias_ re.name) joins model ps []
    (by simpa using hprojs)]

/-- The empty resolution prefix is owned by the root alias. -/
theorem pathPrefixOwner_c1_nil (start root : String) (joins : List Join) :
    pathPrefixOwner (c1Map start root joins) [] = some root := by
  unfold pathPrefixOwner c1Map
  rw [List.find?_cons_of_pos _ (by simp)]
  rfl

/-- A single-hop prefix carrying a join's target type is owned by that
join's alias, provided target type names are pairwise distinct. -/
theorem pathPrefixOwner_c1_target (start root : String) :
    ∀ (joins : List Join) (j : Join) (c : String), j ∈ joins →
    distinctStrs (joins.map (·.target.name)) = true →
    c ∈ firstOcc (j.onConds.map charOf) →
    pathPrefixOwner (c1Map start root joins)
        [.entityRes c (some j.target.name)] = some (effAlias j.target) := by
  intro joins
  induction joins with
  | nil => intro j c hj _ _; cases hj
  | cons k ks ih =>
    intro j c hj hd hc
    obtain ⟨hk1, hk2⟩ := distinctStrs_cons k.target.name
      (ks.map (·.target.name)) (by simpa using hd)
    unfold pathPrefixOwner
    rw [show c1Map start root (k :: ks)
      = (root, [⟨start, []⟩]) ::
        ((effAlias k.target, c1JoinPaths start k.target.name k.onConds) ::
          (ks.map fun j => (effAlias j.target,
            c1JoinPaths start j.target.name j.onConds))) from rfl]
    rw [List.find?_cons_of_neg _ (by simp)]
    rcases List.mem_cons.mp hj with rfl | hj'
    · rw [List.find?_cons_of_pos _ (by
        simp only [c1JoinPaths, List.any_eq_true]
        exact ⟨⟨start, [.entityRes c (some j.target.name)]⟩,
          List.mem_map_of_mem _ hc, by simp⟩)]
      rfl
    · have hTne : j.target.name ≠ k.target.name := by
        have hnm : k.target.name ∉ ks.map (·.target.name) := by
          intro hmem
          have : (ks.map (·.target.name)).contains k.target.name = true := by
            simpa using hmem
          rw [hk1] at this
          cases this
        intro hEq
        exact hnm (hEq ▸ List.mem_map_of_mem _ hj')
      rw [List.find?_cons_of_neg _ (by
        simp only [c1JoinPaths, List.any_eq_true]
        rintro ⟨p, hp, hps⟩
        obtain ⟨c', _, rfl⟩ := List.mem_map.mp hp
        have := of_decide_eq_true hps
        simp only [List.cons.injEq, Resolution.entityRes.injEq,
          Option.some.injEq, and_true] at this
        exact hTne this.2.symm)]
      have hih := ih j c hj' hk2 hc
      unfold pathPrefixOwner at hih
      rw [show c1Map start root ks
        = (root, [⟨start, []⟩]) :: (ks.map fun j => (effAlias j.target,
            c1JoinPaths start j.target.name j.onConds)) from rfl,
        List.find?_cons_of_neg _ (by simp)] at hih
      exact hih

theorem foldl_min_one : ∀ (l : List Nat), (∀ x ∈ l, x = 1) →
    l.foldl min 1 = 1 := by
  intro l
  induction l with
  | nil => intro _; rfl
  | cons x xs ih =>
    intro h
    rw [List.foldl_cons, h x (List.mem_cons_self x xs), Nat.min_self]
    exact ih fun y hy => h y (List.mem_cons_of_mem x hy)

/-- Every stored path of a join target is one hop deep, so the minimum
depth is 1. -/
theorem minResLen_c1JoinPaths (start T : String) (conds : List Equivalence)
    (h : conds ≠ []) : minResLen (c1JoinPaths start T conds) = some 1 := by
  have hne : firstOcc (conds.map charOf) ≠ [] :=
    firstOcc_ne_nil _ (by simpa using h)
  obtain ⟨c, cs, hcc⟩ := List.exists_cons_of_ne_nil hne
  unfold minResLen c1JoinPaths
  rw [hcc, List.map_cons, List.map_cons]
  rw [show ((⟨start, [.entityRes c (some T)]⟩ :
      ParticipantPath).resolutions.length) = 1 from rfl]
  rw [show ((1 : Nat) :: ((cs.map fun c =>
      (⟨start, [.entityRes c (some T)]⟩ : ParticipantPath)).map
        (·.resolutions.length))).min?
    = some (((cs.map fun c =>
        (⟨start, [.entityRes c (some T)]⟩ : ParticipantPath)).map
          (·.resolutions.length)).foldl min 1) from rfl]
  rw [foldl_min_one _ (by
    intro x hx
    obtain ⟨p, hp, rfl⟩ := List.mem_map.mp hx
    obtain ⟨c', _, rfl⟩ := List.mem_map.mp hp
    rfl)]

/-- A one-hop path has no intermediate prefix owners, hence no
dependencies. -/
theorem pathDeps_c1_single (start root : String) (joins : List Join)
    (a : String) (p : ParticipantPath) (hp : p.resolutions.length = 1) :
    pathDeps (c1Map start root joins) root a p = [] := by
  unfold pathDeps
  rw [hp, show List.range 1 = [0] from rfl]
  have hg : pathPrefixOwner (c1Map start root joins) [] = some root :=
    pathPrefixOwner_c1_nil start root joins
  simp [hg]

/-- Join-target paths in a star query have no intermediate dependencies. -/
theorem depsOf_c1_target (start root : String) (joins : List Join)
    (a : String)
    (hsingle : ∀ b ∈ amGet (c1Map start root joins) a,
      b.resolutions.length = 1) :
    depsOf (c1Map start root joins) root a = [] := by
  have key : ∀ (l : List ParticipantPath) (acc : List String),
      (∀ b ∈ l, b.resolutions.length = 1) →
      l.foldl (fun acc p =>
        acc ++ pathDeps (c1Map start root joins) root a p) acc = acc := by
    intro l
    induction l with
    | nil => intro acc _; rfl
    | cons p l ih =>
      intro acc h
      rw [List.foldl_cons,
        pathDeps_c1_single start root joins a p (h p (List.mem_cons_self p l)),
        List.append_nil]
      exact ih acc fun b hb => h b (List.mem_cons_of_mem p hb)
  unfold depsOf
  rw [key _ [] hsingle]
  rfl

theorem amGet_c1_lengths (start root : String) (joins : List Join) (j : Join)
    (hj : j ∈ joins) (hne : effAlias j.target ≠ root)
    (hdA : distinctStrs (joins.map fun k => effAlias k.target) = true) :
    ∀ b ∈ amGet (c1Map start root joins) (effAlias j.target),
      b.resolutions.length = 1 := by
  rw [c1Map_amGet_target start root joins j hj hne hdA]
  intro b hb
  obtain ⟨c, _, rfl⟩ := List.mem_map.mp hb
  rfl

/-- A stable sort by equal keys is the identity. -/
theorem stableSort_all_one (l : List (String × Nat))
    (h : ∀ x ∈ l, x.2 = 1) :
    stableSort (fun x y => x.2 ≤ y.2) l = l := by
  induction l with
  | nil => rfl
  | cons x xs ih =>
    rw [show stableSort (fun x y => x.2 ≤ y.2) (x :: xs)
      = insertStable (fun x y => x.2 ≤ y.2) x
          (stableSort (fun x y => x.2 ≤ y.2) xs) from rfl]
    rw [ih (fun y hy => h y (List.mem_cons_of_mem x hy))]
    cases xs with
    | nil => rfl
    | cons y ys =>
      have hx := h x (List.mem_cons_self _ _)
      have hy := h y (by simp)
      simp [insertStable, hx, hy]

theorem keyedByMinLen_c1 (m : AliasMap) :
    ∀ (l : List String), (∀ a ∈ l, minResLen (amGet m a) = some 1) →
    keyedByMinLen m l = some (l.map ((·, 1))) := by
  intro l
  induction l with
  | nil => intro _; rfl
  | cons a as ih =>
    intro h
    unfold keyedByMinLen
    simp only [List.mapM_cons]
    rw [show (minResLen (amGet m a)).map ((a, ·)) = some ((a, 1)) from by
      rw [h a (by simp)]; rfl]
    unfold keyedByMinLen at ih
    rw [ih (fun b hb => h b (List.mem_cons_of_mem a hb))]
    rfl

theorem sortByMinLen_c1 (m : AliasMap) (l : List String)
    (h : ∀ a ∈ l, minResLen (amGet m a) = some 1) :
    sortByMinLen m l = some l := by
  unfold sortByMinLen
  rw [keyedByMinLen_c1 m l h]
  rw [show Option.map (fun keyed => (stableSort (fun x y => x.2 ≤ y.2)
        keyed).map (·.1)) (some (l.map ((·, 1))))
    = some ((stableSort (fun x y => x.2 ≤ y.2) (l.map ((·, 1)))).map (·.1))
    from rfl]
  rw [stableSort_all_one (l.map ((·, 1))) (by
    intro x hx
    obtain ⟨a, _, rfl⟩ := List.mem_map.mp hx
    rfl)]
  simp only [List.map_map, Option.some.injEq]
  exact (List.map_congr_left fun a _ => rfl).trans (List.map_id l)

theorem readyRound_c1 (m : AliasMap) (root : String) (targets : List String)
    (hne : targets ≠ [])
    (hdeps : ∀ a ∈ targets, depsOf m root a = [])
    (hmin : ∀ a ∈ targets, minResLen (amGet m a) = some 1) :
    readyRound m root targets [root] = some targets := by
  unfold readyRound
  have hf : targets.filter
      (fun a => (depsOf m root a).all (· ∈ [root])) = targets :=
    List.filter_eq_self.mpr (fun a ha => by rw [hdeps a ha]; rfl)
  rw [hf, if_pos hne]
  simp only [Option.bind_eq_bind, Option.some_bind]
  exact sortByMinLen_c1 m targets hmin

theorem sortAliasesLoop_nil_rem (m : AliasMap) (root : String) :
    ∀ (fuel : Nat) (processed acc : List String),
    sortAliasesLoop m root fuel [] processed acc = some acc := by
  intro fuel
  cases fuel <;> intro processed acc <;> simp [sortAliasesLoop]

/-- With dependency-free single-hop targets, the topological sort returns
the aliases in alias-map (join) order. -/
theorem sortAliasesLoop_c1 (m : AliasMap) (root : String)
    (targets : List String)
    (hdeps : ∀ a ∈ targets, depsOf m root a = [])
    (hmin : ∀ a ∈ targets, minResLen (amGet m a) = some 1) :
    sortAliasesLoop m root targets.length targets [root] [] = some targets := by
  cases targets with
  | nil => simp [sortAliasesLoop]
  | cons t ts =>
    rw [show (t :: ts).length = ts.length + 1 from rfl]
    unfold sortAliasesLoop
    rw [if_neg (List.cons_ne_nil t ts)]
    rw [readyRound_c1 m root (t :: ts) (List.cons_ne_nil t ts) hdeps hmin]
    simp only [Option.bind_eq_bind, Option.some_bind]
    rw [show (t :: ts).filter (· ∉ (t :: ts)) = [] from
      List.filter_eq_nil_iff.mpr (fun a ha => by simp [ha])]
    rw [sortAliasesLoop_nil_rem]
    rw [List.nil_append]

theorem smContains_smSet_mono (tr : StrMap) (k v r : String)
    (h : smContains tr r = true) : smContains (smSet tr k v) r = true := by
  unfold smSet
  split
  · unfold smContains at h ⊢
    rw [List.any_eq_true] at h ⊢
    obtain ⟨kv, hkv, hr⟩ := h
    by_cases hk : kv.1 = k
    · refine ⟨(k, v), List.mem_map.mpr ⟨kv, hkv, by simp [hk]⟩, ?_⟩
      have : r = kv.1 := (of_decide_eq_true hr).symm
      simp [this, hk]
    · exact ⟨kv, List.mem_map.mpr ⟨kv, hkv, by simp [hk]⟩, hr⟩
  · unfold smContains at h ⊢
    rw [List.any_eq_true] at h ⊢
    obtain ⟨kv, hkv, hr⟩ := h
    exact ⟨kv, List.mem_append_left _ hkv, hr⟩

/-- The best path of a star join target is its first stored path, owned by
the root. -/
theorem findBestPath_c1 (start root : String) (joins : List Join) (j : Join)
    (tracker : StrMap) (c : String) (cs : List String)
    (hj : j ∈ joins) (hne : effAlias j.target ≠ root)
    (hdA : distinctStrs (joins.map fun k => effAlias k.target) = true)
    (hroot : root ≠ "") (htrk : smContains tracker root = true)
    (hcc : firstOcc (j.onConds.map charOf) = c :: cs) :
    findBestPath (c1Map start root joins) tracker (effAlias j.target)
      = some (⟨start, [.entityRes c (some j.target.name)]⟩, some root) := by
  unfold findBestPath
  rw [c1Map_amGet_target start root joins j hj hne hdA]
  unfold c1JoinPaths
  rw [hcc, List.map_cons]
  simp [List.findSome?_cons, pathPrefixOwner_c1_nil, htrk, hroot]

/-- The equivalences emitted for a star join target: one identity-form
condition per stored characteristic, rooted at the root alias. -/
theorem aliasEquivalences_c1 (start root : String) (joins : List Join)
    (j : Join) (hj : j ∈ joins) (hne : effAlias j.target ≠ root)
    (hdA : distinctStrs (joins.map fun k => effAlias k.target) = true) :
    aliasEquivalences (c1Map start root joins) (effAlias j.target)
      = some ((firstOcc (j.onConds.map charOf)).map fun c =>
          ⟨⟨some root, some c⟩, some ⟨some (effAlias j.target), none⟩⟩) := by
  unfold aliasEquivalences
  rw [c1Map_amGet_target start root joins j hj hne hdA]
  unfold c1JoinPaths
  have key : ∀ (chars : List String) (acc : List Equivalence),
      (chars.map fun c => (⟨start, [.entityRes c (some j.target.name)]⟩ :
          ParticipantPath)).foldlM
        (fun acc p =>
          match pathPrefixOwner (c1Map start root joins)
              p.resolutions.dropLast with
          | none => some acc
          | some src =>
            match p.resolutions.getLast? with
            | none => none
            | some res =>
              match res with
              | .entityRes rn _ => some (acc ++ [⟨⟨some src, some rn⟩,
                  some ⟨some (effAlias j.target), none⟩⟩])
              | .assocRes rn _ => some (acc ++ [⟨⟨some (effAlias j.target),
                  some rn⟩, some ⟨some src, none⟩⟩])) acc
      = some (acc ++ chars.map fun c =>
          ⟨⟨some root, some c⟩, some ⟨some (effAlias j.target), none⟩⟩) := by
    intro chars
    induction chars with
    | nil => intro acc; simp
    | cons c cs ih =>
      intro acc
      simp only [List.map_cons, List.foldlM_cons, List.dropLast_single,
        pathPrefixOwner_c1_nil, List.getLast?_singleton,
        Option.bind_eq_bind, Option.some_bind]
      refine (ih _).trans ?_
      simp
  exact (key (firstOcc (j.onConds.map charOf)) []).trans
    (by rw [List.nil_append])

/-- Resolving the target type of a single-hop path with a cached type is
model-independent. -/
theorem resolveTargetType_c1 (start c T : String)
    (model : List UddlTuple) (src : Option String) (hT : T ≠ "") :
    resolveTargetType [⟨start, [.entityRes c (some T)]⟩] model src
      = some T := by
  unfold resolveTargetType
  simp [pyTruthy, hT]

/-- The join-emission loop over star targets returns one join per original
join, in order, with the expected target and identity-form conditions. -/
theorem buildJoins_c1 (start root : String) (joins : List Join)
    (model : List UddlTuple) (hroot : root ≠ "")
    (hdA : distinctStrs (joins.map fun k => effAlias k.target) = true) :
    ∀ (suf : List Join) (tracker : StrMap),
    (∀ j ∈ suf, j ∈ joins) →
    suf.all (c1JoinOK root) = true →
    smContains tracker root = true →
    buildJoins (c1Map start root joins) model root
        (suf.map fun j => effAlias j.target) tracker
      = some (c1ExpectedJoins root suf) := by
  intro suf
  induction suf with
  | nil => intro tracker _ _ _; rfl
  | cons j js ih =>
    intro tracker hsub hsall htrk
    simp only [List.all_cons, Bool.and_eq_true] at hsall
    obtain ⟨hjok, hjsall⟩ := hsall
    simp only [c1JoinOK, Bool.and_eq_true] at hjok
    have hT : j.target.name ≠ "" := by simpa using hjok.1.1.1.1
    have hane : effAlias j.target ≠ root := by simpa using hjok.1.1.2
    have hcne : j.onConds ≠ [] := by
      have h4 := hjok.1.2
      intro hnil
      rw [hnil] at h4
      exact Bool.noConfusion h4
    have hjmem : j ∈ joins := hsub j (by simp)
    obtain ⟨c, cs, hcc⟩ := List.exists_cons_of_ne_nil
      (firstOcc_ne_nil (j.onConds.map charOf) (by simpa using hcne))
    rw [List.map_cons]
    rw [show buildJoins (c1Map start root joins) model root
        (effAlias j.target :: (js.map fun k => effAlias k.target)) tracker
      = if effAlias j.target = root then
          buildJoins (c1Map start root joins) model root
            (js.map fun k => effAlias k.target) tracker
        else do
          let bp ← findBestPath (c1Map start root joins) tracker
            (effAlias j.target)
          let target_type ← resolveTargetType [bp.1] model
            (trackerSourceType tracker bp.2)
          let equivalences ← aliasEquivalences (c1Map start root joins)
            (effAlias j.target)
          let js2 ← buildJoins (c1Map start root joins) model root
            (js.map fun k => effAlias k.target)
            (smSet tracker (effAlias j.target) target_type)
          some (⟨⟨target_type, some (effAlias j.target)⟩, equivalences⟩ :: js2)
      from rfl]
    rw [if_neg hane]
    rw [findBestPath_c1 start root joins j tracker c cs hjmem hane hdA hroot
      htrk hcc]
    simp only [Option.bind_eq_bind, Option.some_bind]
    rw [resolveTargetType_c1 start c j.target.name model
      (trackerSourceType tracker (some root)) hT]
    simp only [Option.some_bind]
    rw [aliasEquivalences_c1 start root joins j hjmem hane hdA]
    simp only [Option.some_bind]
    rw [ih (smSet tracker (effAlias j.target) j.target.name)
      (fun k hk => hsub k (List.mem_cons_of_mem j hk)) hjsall
      (smContains_smSet_mono tracker _ _ root htrk)]
    simp only [Option.some_bind]
    rfl

/-- Every stored base path of a known alias has that alias as its prefix
owner. -/
theorem amGet_owner_c1 (start root : String) (joins : List Join) (s : String)
    (hall : joins.all (c1JoinOK root) = true)
    (hdA : distinctStrs (joins.map fun k => effAlias k.target) = true)
    (hdT : distinctStrs (joins.map (·.target.name)) = true)
    (hs : s ∈ root :: (joins.map fun j => effAlias j.target)) :
    ∀ b ∈ amGet (c1Map start root joins) s,
      pathPrefixOwner (c1Map start root joins) b.resolutions = some s := by
  rcases List.mem_cons.mp hs with heq | hs'
  · intro b hb
    rw [heq] at hb ⊢
    have hget : amGet (c1Map start root joins) root = [⟨start, []⟩] := by
      rw [show c1Map start root joins
        = (root, [(⟨start, []⟩ : ParticipantPath)]) ::
          (joins.map fun j => (effAlias j.target,
            c1JoinPaths start j.target.name j.onConds)) from rfl]
      exact amGet_cons_hit _ _ _
    rw [hget] at hb
    rw [List.mem_singleton.mp hb]
    exact pathPrefixOwner_c1_nil start root joins
  · obtain ⟨j, hj, rfl⟩ := List.mem_map.mp hs'
    have hjok := List.all_eq_true.mp hall j hj
    simp only [c1JoinOK, Bool.and_eq_true] at hjok
    have hane : effAlias j.target ≠ root := by simpa using hjok.1.1.2
    intro b hb
    rw [c1Map_amGet_target start root joins j hj hane hdA] at hb
    obtain ⟨c, hcmem, rfl⟩ := List.mem_map.mp hb
    exact pathPrefixOwner_c1_target start root joins j c hj hdT hcmem

/-- Folding the projection-emission step over one alias's uniformly-owned
block emits one explicit projection per base path. -/
theorem buildProjections_block (start root : String) (joins : List Join)
    (s x : String) :
    ∀ (bases : List ParticipantPath) (acc : List Projection),
    (∀ b ∈ bases, pathPrefixOwner (c1Map start root joins) b.resolutions
      = some s) →
    (bases.map fun b => (⟨start, b.resolutions ++ [.entityRes x none]⟩ :
        ParticipantPath)).foldlM
      (fun acc p =>
        match pathPrefixOwner (c1Map start root joins)
            p.resolutions.dropLast with
        | none => some acc
        | some src =>
          match p.resolutions.getLast? with
          | none => none
          | some res =>
            some (acc ++ [.projChar ⟨some src, some res.rolename⟩ none]))
      acc
      = some (acc ++ bases.map fun _ =>
          (.projChar ⟨some s, some x⟩ none : Projection)) := by
  intro bases
  induction bases with
  | nil => intro acc _; simp
  | cons b bs ih =>
    intro acc h
    simp only [List.map_cons, List.foldlM_cons,
      show (⟨start, b.resolutions ++ [.entityRes x none]⟩ :
        ParticipantPath).resolutions = b.resolutions ++ [.entityRes x none]
        from rfl,
      List.dropLast_concat, List.getLast?_concat,
      h b (List.mem_cons_self b bs), Resolution.rolename,
      Option.bind_eq_bind, Option.some_bind]
    refine (ih _ (fun b2 hb2 => h b2 (List.mem_cons_of_mem b hb2))).trans ?_
    simp

/-- Splitting off the head projection's block of terminal paths. -/
theorem c1TermPaths_acc (start root : String) (joins : List Join) :
    ∀ (ps : List Projection) (acc : List ParticipantPath),
    ps.foldl
      (fun acc p => acc ++
        match p with
        | .projChar r _ =>
          (amGet (c1Map start root joins) (pyOr r.entity root)).map fun base =>
            ⟨start, base.resolutions ++
              [.entityRes (pyStr r.characteristic) none]⟩
        | _ => []) acc
      = acc ++ c1TermPaths start root joins ps := by
  intro ps
  induction ps with
  | nil => intro acc; simp [c1TermPaths]
  | cons p ps ih =>
    intro acc
    rw [List.foldl_cons, ih _]
    conv_rhs => rw [show c1TermPaths start root joins (p :: ps)
      = (match p with
        | .projChar r _ =>
          (amGet (c1Map start root joins) (pyOr r.entity root)).map fun base =>
            (⟨start, base.resolutions ++
              [.entityRes (pyStr r.characteristic) none]⟩ : ParticipantPath)
        | _ => []) ++ c1TermPaths start root joins ps from by
      conv_lhs => rw [c1TermPaths, List.foldl_cons]
      rw [ih _, List.nil_append]]
    rw [List.append_assoc]

/-- Splitting off the head projection's block of emitted projections. -/
theorem c1ExpectedProjections_acc (start root : String) (joins : List Join) :
    ∀ (ps : List Projection) (acc : List Projection),
    ps.foldl
      (fun acc p => acc ++
        match p with
        | .projChar r _ =>
          (amGet (c1Map start root joins) (pyOr r.entity root)).map fun _ =>
            (.projChar ⟨some (pyOr r.entity root),
              some (pyStr r.characteristic)⟩ none : Projection)
        | _ => []) acc
      = acc ++ c1ExpectedProjections start root joins ps := by
  intro ps
  induction ps with
  | nil => intro acc; simp [c1ExpectedProjections]
  | cons p ps ih =>
    intro acc
    rw [List.foldl_cons, ih _]
    conv_rhs => rw [show c1ExpectedProjections start root joins (p :: ps)
      = (match p with
        | .projChar r _ =>
          (amGet (c1Map start root joins) (pyOr r.entity root)).map fun _ =>
            (.projChar ⟨some (pyOr r.entity root),
              some (pyStr r.characteristic)⟩ none : Projection)
        | _ => []) ++ c1ExpectedProjections start root joins ps from by
      conv_lhs => rw [c1ExpectedProjections, List.foldl_cons]
      rw [ih _, List.nil_append]]
    rw [List.append_assoc]

theorem c1TermPaths_cons (start root : String) (joins : List Join)
    (p : Projection) (ps : List Projection) :
    c1TermPaths start root joins (p :: ps)
      = (match p with
        | .projChar r _ =>
          (amGet (c1Map start root joins) (pyOr r.entity root)).map
            fun base => (⟨start, base.resolutions ++
              [.entityRes (pyStr r.characteristic) none]⟩ : ParticipantPath)
        | _ => []) ++ c1TermPaths start root joins ps := by
  conv_lhs => rw [c1TermPaths, List.foldl_cons]
  rw [c1TermPaths_acc start root joins ps _, List.nil_append]

theorem c1ExpectedProjections_cons (start root : String) (joins : List Join)
    (p : Projection) (ps : List Projection) :
    c1ExpectedProjections start root joins (p :: ps)
      = (match p with
        | .projChar r _ =>
          (amGet (c1Map start root joins) (pyOr r.entity root)).map fun _ =>
            (.projChar ⟨some (pyOr r.entity root),
              some (pyStr r.characteristic)⟩ none : Projection)
        | _ => []) ++ c1ExpectedProjections start root joins ps := by
  conv_lhs => rw [c1ExpectedProjections, List.foldl_cons]
  rw [c1ExpectedProjections_acc start root joins ps _, List.nil_append]

/-- The projection-emission fold over all terminal paths of a star query. -/
theorem bpFold_c1 (start root : String) (joins : List Join)
    (hall : joins.all (c1JoinOK root) = true)
    (hdA : distinctStrs (joins.map fun k => effAlias k.target) = true)
    (hdT : distinctStrs (joins.map (·.target.name)) = true) :
    ∀ (ps : List Projection) (accJ : List Projection),
    ps.all (c1ProjOK root (joins.map fun j => effAlias j.target)) = true →
    (c1TermPaths start root joins ps).foldlM
      (fun acc p =>
        match pathPrefixOwner (c1Map start root joins)
            p.resolutions.dropLast with
        | none => some acc
        | some src =>
          match p.resolutions.getLast? with
          | none => none
          | some res =>
            some (acc ++ [.projChar ⟨some src, some res.rolename⟩ none]))
      accJ
      = some (accJ ++ c1ExpectedProjections start root joins ps) := by
  intro ps
  induction ps with
  | nil => intro accJ _; simp [c1TermPaths, c1ExpectedProjections]
  | cons p ps ih =>
    intro accJ hall2
    obtain ⟨hp, hps⟩ : c1ProjOK root (joins.map fun j => effAlias j.target) p
        = true ∧ ps.all (c1ProjOK root (joins.map fun j => effAlias j.target))
        = true := by
      simpa [List.all_cons, Bool.and_eq_true] using hall2
    rw [c1TermPaths_cons start root joins p ps,
      c1ExpectedProjections_cons start root joins p ps, List.foldlM_append]
    match p with
    | .projChar r a =>
      simp only [c1ProjOK, Bool.and_eq_true] at hp
      have hs : pyOr r.entity root
          ∈ root :: (joins.map fun j => effAlias j.target) := by
        have := hp.2
        simpa using this
      rw [buildProjections_block start root joins (pyOr r.entity root)
        (pyStr r.characteristic) (amGet (c1Map start root joins)
          (pyOr r.entity root)) accJ
        (amGet_owner_c1 start root joins (pyOr r.entity root) hall hdA hdT hs)]
      simp only [Option.bind_eq_bind, Option.some_bind]
      refine (ih _ hps).trans ?_
      simp
    | .allChars => exact Bool.noConfusion hp
    | .entityWildcard e => exact Bool.noConfusion hp

/-- `path2query`'s projection emission on a star query's terminal paths. -/
theorem buildProjections_c1 (start root : String) (joins : List Join)
    (ps : List Projection)
    (hall : joins.all (c1JoinOK root) = true)
    (hdA : distinctStrs (joins.map fun k => effAlias k.target) = true)
    (hdT : distinctStrs (joins.map (·.target.name)) = true)
    (hps : ps.all (c1ProjOK root (joins.map fun j => effAlias j.target))
      = true) :
    buildProjections (c1Map start root joins)
        (c1TermPaths start root joins ps)
      = some (c1ExpectedProjections start root joins ps) := by
  unfold buildProjections
  exact (bpFold_c1 start root joins hall hdA hdT ps [] hps).trans
    (by rw [List.nil_append])

/-- `path2query` on the alias map and terminal paths of a round-trippable
star query returns exactly the expected statement, for every model. -/
theorem path2query_c1 (re : Entity) (joins : List Join) (ps : List Projection)
    (qual : Option String) (model : List UddlTuple)
    (h : c1QueryOK ⟨ps, ⟨[re], joins⟩, qual⟩ = true) :
    path2query (c1Map re.name (pyOr re.alias_ re.name) joins)
        (c1TermPaths re.name (pyOr re.alias_ re.name) joins ps) model
      = some [c1Expected ⟨ps, ⟨[re], joins⟩, qual⟩] := by
  simp only [c1QueryOK, Bool.and_eq_true] at h
  obtain ⟨⟨⟨⟨hroot', hall⟩, hdA⟩, hdT⟩, hprojs⟩ := h
  have hroot : pyOr re.alias_ re.name ≠ "" := by simpa using hroot'
  have hane : ∀ j ∈ joins, effAlias j.target ≠ pyOr re.alias_ re.name := by
    intro j hj
    have hjok := List.all_eq_true.mp hall j hj
    simp only [c1JoinOK, Bool.and_eq_true] at hjok
    simpa using hjok.1.1.2
  have hcne : ∀ j ∈ joins, j.onConds ≠ [] := by
    intro j hj
    have hjok := List.all_eq_true.mp hall j hj
    simp only [c1JoinOK, Bool.and_eq_true] at hjok
    have h4 := hjok.1.2
    intro hnil
    rw [hnil] at h4
    exact Bool.noConfusion h4
  unfold path2query
  rw [if_neg (by
    rw [show c1Map re.name (pyOr re.alias_ re.name) joins
      = (pyOr re.alias_ re.name, [(⟨re.name, []⟩ : ParticipantPath)]) ::
        (joins.map fun j => (effAlias j.target,
          c1JoinPaths re.name j.target.name j.onConds)) from rfl]
    simp)]
  have hfind : (((c1Map re.name (pyOr re.alias_ re.name) joins).find?
      fun kv => kv.2.any fun p => p.resolutions.length = 0).map (·.1))
      = some (pyOr re.alias_ re.name) := by
    rw [show c1Map re.name (pyOr re.alias_ re.name) joins
      = (pyOr re.alias_ re.name, [(⟨re.name, []⟩ : ParticipantPath)]) ::
        (joins.map fun j => (effAlias j.target,
          c1JoinPaths re.name j.target.name j.onConds)) from rfl]
    rw [List.find?_cons_of_pos _ (by simp)]
    rfl
  rw [hfind]
  simp only [Option.bind_eq_bind, Option.some_bind]
  have hget : amGet (c1Map re.name (pyOr re.alias_ re.name) joins)
      (pyOr re.alias_ re.name) = [⟨re.name, []⟩] := by
    rw [show c1Map re.name (pyOr re.alias_ re.name) joins
      = (pyOr re.alias_ re.name, [(⟨re.name, []⟩ : ParticipantPath)]) ::
        (joins.map fun j => (effAlias j.target,
          c1JoinPaths re.name j.target.name j.onConds)) from rfl]
    exact amGet_cons_hit _ _ _
  rw [hget]
  simp only [List.head?_cons, Option.map_some', Option.some_bind]
  have hkeys : (c1Map re.name (pyOr re.alias_ re.name) joins).map (·.1)
      = pyOr re.alias_ re.name :: (joins.map fun j => effAlias j.target) := by
    rw [show c1Map re.name (pyOr re.alias_ re.name) joins
      = (pyOr re.alias_ re.name, [(⟨re.name, []⟩ : ParticipantPath)]) ::
        (joins.map fun j => (effAlias j.target,
          c1JoinPaths re.name j.target.name j.onConds)) from rfl]
    rw [List.map_cons, List.map_map]
    rfl
  rw [hkeys]
  rw [List.filter_cons_of_neg (by simp)]
  rw [List.filter_eq_self.mpr (fun a ha => by
    obtain ⟨j, hj, rfl⟩ := List.mem_map.mp ha
    simpa using hane j hj)]
  rw [sortAliasesLoop_c1 (c1Map re.name (pyOr re.alias_ re.name) joins)
    (pyOr re.alias_ re.name) (joins.map fun j => effAlias j.target)
    (by
      intro a ha
      obtain ⟨j, hj, rfl⟩ := List.mem_map.mp ha
      exact depsOf_c1_target re.name (pyOr re.alias_ re.name) joins _
        (amGet_c1_lengths re.name (pyOr re.alias_ re.name) joins j hj
          (hane j hj) hdA))
    (by
      intro a ha
      obtain ⟨j, hj, rfl⟩ := List.mem_map.mp ha
      rw [c1Map_amGet_target re.name (pyOr re.alias_ re.name) joins j hj
        (hane j hj) hdA]
      exact minResLen_c1JoinPaths re.name j.target.name j.onConds (hcne j hj))]
  simp only [Option.some_bind]
  rw [buildJoins_c1 re.name (pyOr re.alias_ re.name) joins model hroot hdA
    joins [(pyOr re.alias_ re.name, re.name)] (fun j hj => hj) hall
    (by simp [smContains])]
  simp only [Option.some_bind]
  rw [buildProjections_c1 re.name (pyOr re.alias_ re.name) joins ps hall hdA
    hdT hprojs]
  simp only [Option.some_bind]
  rfl

theorem mapM_option_eq_map {α γ : Type} (f : α → Option γ) (g : α → γ) :
    ∀ (l : List α), (∀ a ∈ l, f a = some (g a)) →
    l.mapM f = some (l.map g) := by
  intro l
  induction l with
  | nil => intro _; rfl
  | cons a as ih =>
    intro h
    simp only [List.mapM_cons]
    rw [h a (by simp), ih (fun b hb => h b (List.mem_cons_of_mem a hb))]
    rfl

theorem sameSetB_of_mem_iff (A B : List (String × String))
    (h : ∀ x, x ∈ A ↔ x ∈ B) : sameSetB A B = true := by
  unfold sameSetB
  rw [Bool.and_eq_true]
  constructor <;> rw [List.all_eq_true] <;> intro x hx
  · simpa using (h x).mp hx
  · simpa using (h x).mpr hx

/-- The emitted identity-form conditions of one join agree, as a key set,
with the original unary conditions. -/
theorem condSetEquiv_c1 (root t : String) (ht : t ≠ "")
    (conds : List Equivalence) (hconds : conds.all (c1CondOK root) = true) :
    condSetEquiv root t
      ((firstOcc (conds.map charOf)).map fun c =>
        ⟨⟨some root, some c⟩, some ⟨some t, none⟩⟩)
      conds = true := by
  unfold condSetEquiv
  rw [mapM_option_eq_map (condKeySpec root t)
    (fun e => (root, pyStr e.left.characteristic)) _ (by
      intro e he
      obtain ⟨c, _, rfl⟩ := List.mem_map.mp he
      unfold condKeySpec
      simp [pyOr, ht, pyStr])]
  rw [mapM_option_eq_map (condKeySpec root t)
    (fun cond => (root, charOf cond)) conds (by
      intro cond hcond
      have hc := List.all_eq_true.mp hconds cond hcond
      simp only [c1CondOK, Bool.and_eq_true] at hc
      have hrn : cond.right = none := Option.isNone_iff_eq_none.mp hc.1.1
      have hla : pyOr cond.left.entity root = root := by
        rcases he : cond.left.entity with _ | s
        · rfl
        · rw [he] at hc
          have hs : s = root := by simpa using hc.1.2
          subst hs
          simp [pyOr]
      rcases hch : cond.left.characteristic with _ | c0
      · rw [hch] at hc; cases hc.2
      · unfold condKeySpec
        rw [hrn, hch]
        simp [hla, charOf, hch, pyStr])]
  apply sameSetB_of_mem_iff
  intro x
  simp only [List.map_map, List.mem_map, Function.comp]
  constructor
  · rintro ⟨c, hc, rfl⟩
    rw [mem_firstOcc] at hc
    obtain ⟨cond, hcond, rfl⟩ := List.mem_map.mp hc
    exact ⟨cond, hcond, rfl⟩
  · rintro ⟨cond, hcond, rfl⟩
    refine ⟨charOf cond, ?_, rfl⟩
    rw [mem_firstOcc]
    exact List.mem_map_of_mem _ hcond

theorem projKeys_cons_projChar (rootX : String) (r : Reference)
    (a : Option String) (ps : List Projection) :
    projKeys rootX (.projChar r a :: ps)
      = (pyOr r.entity rootX, pyStr r.characteristic) :: projKeys rootX ps :=
  rfl

theorem projKeys_block (rootX s x : String) (hs : s ≠ "") :
    ∀ (paths : List ParticipantPath),
    projKeys rootX (paths.map fun _ =>
        (.projChar ⟨some s, some x⟩ none : Projection))
      = paths.map fun _ => (s, x) := by
  intro paths
  induction paths with
  | nil => rfl
  | cons p l ih =>
    rw [List.map_cons, projKeys_cons_projChar, ih, List.map_cons]
    congr 1
    simp [pyOr, hs, pyStr]

/-- Nonempty path list for every known alias of a star query. -/
theorem amGet_c1_ne_nil (start root : String) (joins : List Join) (s : String)
    (hanr : ∀ j ∈ joins, effAlias j.target ≠ root)
    (hcne : ∀ j ∈ joins, j.onConds ≠ [])
    (hdA : distinctStrs (joins.map fun k => effAlias k.target) = true)
    (hs : s ∈ root :: (joins.map fun j => effAlias j.target)) :
    amGet (c1Map start root joins) s ≠ [] := by
  rcases List.mem_cons.mp hs with heq | hs'
  · rw [heq]
    rw [show c1Map start root joins
      = (root, [(⟨start, []⟩ : ParticipantPath)]) ::
        (joins.map fun j => (effAlias j.target,
          c1JoinPaths start j.target.name j.onConds)) from rfl]
    rw [amGet_cons_hit]
    exact List.cons_ne_nil _ _
  · obtain ⟨j, hj, rfl⟩ := List.mem_map.mp hs'
    rw [c1Map_amGet_target start root joins j hj (hanr j hj) hdA]
    unfold c1JoinPaths
    intro hnil
    exact firstOcc_ne_nil (j.onConds.map charOf)
      (by simpa using hcne j hj) (List.map_eq_nil_iff.mp hnil)

/-- A projected key appears among the emitted projections' keys iff it
appears among the original projections' keys. -/
theorem projKeys_EP_mem (start root : String) (joins : List Join)
    (hroot : root ≠ "")
    (hnn : ∀ j ∈ joins, effAlias j.target ≠ "")
    (hanr : ∀ j ∈ joins, effAlias j.target ≠ root)
    (hcne : ∀ j ∈ joins, j.onConds ≠ [])
    (hdA : distinctStrs (joins.map fun k => effAlias k.target) = true) :
    ∀ (ps : List Projection),
    ps.all (c1ProjOK root (joins.map fun j => effAlias j.target)) = true →
    ∀ k, (k ∈ projKeys root (c1ExpectedProjections start root joins ps)
      ↔ k ∈ projKeys root ps) := by
  intro ps
  induction ps with
  | nil => intro _ k; simp [c1ExpectedProjections, projKeys]
  | cons p ps ih =>
    intro hall2 k
    obtain ⟨hp, hps⟩ : c1ProjOK root (joins.map fun j => effAlias j.target) p
        = true ∧ ps.all (c1ProjOK root (joins.map fun j => effAlias j.target))
        = true := by
      simpa [List.all_cons, Bool.and_eq_true] using hall2
    rw [c1ExpectedProjections_cons start root joins p ps]
    unfold projKeys
    rw [List.filterMap_append]
    match p with
    | .projChar r a =>
      simp only [c1ProjOK, Bool.and_eq_true] at hp
      have hsmem : pyOr r.entity root
          ∈ root :: (joins.map fun j => effAlias j.target) := by
        have := hp.2
        simpa using this
      have hs_ne : pyOr r.entity root ≠ "" := by
        rcases List.mem_cons.mp hsmem with heq | hs'
        · rw [heq]; exact hroot
        · obtain ⟨j, hj, heq⟩ := List.mem_map.mp hs'
          rw [← heq]
          exact hnn j hj
      have hblock := projKeys_block root (pyOr r.entity root)
        (pyStr r.characteristic) hs_ne
        (amGet (c1Map start root joins) (pyOr r.entity root))
      unfold projKeys at hblock
      rw [hblock]
      rw [show List.filterMap (fun p => match p with
          | Projection.projChar r _ =>
            some (pyOr r.entity root, pyStr r.characteristic)
          | _ => none) (Projection.projChar r a :: ps)
        = (pyOr r.entity root, pyStr r.characteristic) ::
            List.filterMap (fun p => match p with
              | Projection.projChar r _ =>
                some (pyOr r.entity root, pyStr r.characteristic)
              | _ => none) ps from rfl]
      have hIH := ih hps k
      unfold projKeys at hIH
      rw [List.mem_append, hIH, List.mem_cons]
      constructor
      · rintro (hk | hk)
        · obtain ⟨_, _, rfl⟩ := List.mem_map.mp hk
          exact Or.inl rfl
        · exact Or.inr hk
      · rintro (rfl | hk)
        · obtain ⟨b, bs, hbs⟩ := List.exists_cons_of_ne_nil
            (amGet_c1_ne_nil start root joins (pyOr r.entity root) hanr hcne
              hdA hsmem)
          left
          rw [hbs, List.map_cons]
          exact List.mem_cons_self _ _
        · exact Or.inr hk
    | .allChars => exact Bool.noConfusion hp
    | .entityWildcard e => exact Bool.noConfusion hp

/-- The emitted joins carry the same target keys as the original joins. -/
theorem targKeys_EJ (root : String) (joins : List Join)
    (hnn : ∀ j ∈ joins, effAlias j.target ≠ "") :
    targKeys (c1ExpectedJoins root joins) = targKeys joins := by
  unfold targKeys c1ExpectedJoins
  rw [List.map_map]
  apply List.map_congr_left
  intro j hj
  show ((j.target.name, pyOr (some (effAlias j.target)) j.target.name)
      : String × String) = (j.target.name, effAlias j.target)
  rw [show pyOr (some (effAlias j.target)) j.target.name
    = effAlias j.target from by
    show (if effAlias j.target = "" then j.target.name
      else effAlias j.target) = effAlias j.target
    exact if_neg (hnn j hj)]

/-- The emitted statement of a round-trippable star query is structurally
equivalent to the original. -/
theorem structEquiv_c1 (re : Entity) (joins : List Join)
    (ps : List Projection) (qual : Option String)
    (h : c1QueryOK ⟨ps, ⟨[re], joins⟩, qual⟩ = true) :
    structurallyEquivalentQ (c1Expected ⟨ps, ⟨[re], joins⟩, qual⟩)
      ⟨ps, ⟨[re], joins⟩, qual⟩ = true := by
  simp only [c1QueryOK, Bool.and_eq_true] at h
  obtain ⟨⟨⟨⟨hroot', hall⟩, hdA⟩, hdT⟩, hprojs⟩ := h
  have hroot : pyOr re.alias_ re.name ≠ "" := by simpa using hroot'
  have hane : ∀ j ∈ joins, effAlias j.target ≠ pyOr re.alias_ re.name := by
    intro j hj
    have hjok := List.all_eq_true.mp hall j hj
    simp only [c1JoinOK, Bool.and_eq_true] at hjok
    simpa using hjok.1.1.2
  have hnn : ∀ j ∈ joins, effAlias j.target ≠ "" := by
    intro j hj
    have hjok := List.all_eq_true.mp hall j hj
    simp only [c1JoinOK, Bool.and_eq_true] at hjok
    simpa using hjok.1.1.1.2
  have hcne : ∀ j ∈ joins, j.onConds ≠ [] := by
    intro j hj
    have hjok := List.all_eq_true.mp hall j hj
    simp only [c1JoinOK, Bool.and_eq_true] at hjok
    have h4 := hjok.1.2
    intro hnil
    rw [hnil] at h4
    exact Bool.noConfusion h4
  have hconds : ∀ j ∈ joins, j.onConds.all
      (c1CondOK (pyOr re.alias_ re.name)) = true := by
    intro j hj
    have hjok := List.all_eq_true.mp hall j hj
    simp only [c1JoinOK, Bool.and_eq_true] at hjok
    exact hjok.2
  have hEA : ∀ j ∈ joins, effAlias (⟨j.target.name,
      some (effAlias j.target)⟩ : Entity) = effAlias j.target := by
    intro j hj
    show (if effAlias j.target = "" then j.target.name
      else effAlias j.target) = effAlias j.target
    exact if_neg (hnn j hj)
  have hmatch : ∀ j ∈ joins,
      ((((⟨⟨j.target.name, some (effAlias j.target)⟩,
          (firstOcc (j.onConds.map charOf)).map fun c =>
            ⟨⟨some (pyOr re.alias_ re.name), some c⟩,
              some ⟨some (effAlias j.target), none⟩⟩⟩ : Join).target.name,
        effAlias (⟨⟨j.target.name, some (effAlias j.target)⟩,
          (firstOcc (j.onConds.map charOf)).map fun c =>
            ⟨⟨some (pyOr re.alias_ re.name), some c⟩,
              some ⟨some (effAlias j.target), none⟩⟩⟩ : Join).target)
        == (j.target.name, effAlias j.target)) &&
      condSetEquiv (pyOr re.alias_ re.name)
        (effAlias (⟨⟨j.target.name, some (effAlias j.target)⟩,
          (firstOcc (j.onConds.map charOf)).map fun c =>
            ⟨⟨some (pyOr re.alias_ re.name), some c⟩,
              some ⟨some (effAlias j.target), none⟩⟩⟩ : Join).target)
        ((⟨⟨j.target.name, some (effAlias j.target)⟩,
          (firstOcc (j.onConds.map charOf)).map fun c =>
            ⟨⟨some (pyOr re.alias_ re.name), some c⟩,
              some ⟨some (effAlias j.target), none⟩⟩⟩ : Join).onConds)
        j.onConds) = true := by
    intro j hj
    rw [Bool.and_eq_true]
    constructor
    · rw [show effAlias (⟨⟨j.target.name, some (effAlias j.target)⟩,
          (firstOcc (j.onConds.map charOf)).map fun c =>
            ⟨⟨some (pyOr re.alias_ re.name), some c⟩,
              some ⟨some (effAlias j.target), none⟩⟩⟩ : Join).target
        = effAlias j.target from hEA j hj]
      simp
    · rw [show effAlias (⟨⟨j.target.name, some (effAlias j.target)⟩,
          (firstOcc (j.onConds.map charOf)).map fun c =>
            ⟨⟨some (pyOr re.alias_ re.name), some c⟩,
              some ⟨some (effAlias j.target), none⟩⟩⟩ : Join).target
        = effAlias j.target from hEA j hj]
      exact condSetEquiv_c1 (pyOr re.alias_ re.name) (effAlias j.target)
        (hnn j hj) j.onConds (hconds j hj)
  rw [show c1Expected ⟨ps, ⟨[re], joins⟩, qual⟩
    = ⟨c1ExpectedProjections re.name (pyOr re.alias_ re.name) joins ps,
       ⟨[⟨re.name, some (pyOr re.alias_ re.name)⟩],
        c1ExpectedJoins (pyOr re.alias_ re.name) joins⟩, none⟩ from rfl]
  unfold structurallyEquivalentQ
  simp only [List.head?_cons]
  rw [show pyOr (some (pyOr re.alias_ re.name)) re.name
    = pyOr re.alias_ re.name from by
    show (if pyOr re.alias_ re.name = "" then re.name
      else pyOr re.alias_ re.name) = pyOr re.alias_ re.name
    exact if_neg hroot]
  simp only [Bool.and_eq_true]
  refine ⟨⟨⟨?_, ?_⟩, ?_⟩, ?_⟩
  · exact sameSetB_of_mem_iff _ _
      (projKeys_EP_mem re.name (pyOr re.alias_ re.name) joins hroot hnn hane
        hcne hdA ps hprojs)
  · rw [targKeys_EJ (pyOr re.alias_ re.name) joins hnn]
    exact sameSetB_of_mem_iff _ _ (fun x => Iff.rfl)
  · rw [List.all_eq_true]
    intro e he
    obtain ⟨j, hj, rfl⟩ := List.mem_map.mp he
    rw [List.any_eq_true]
    exact ⟨j, hj, hmatch j hj⟩
  · rw [List.all_eq_true]
    intro j hj
    rw [List.any_eq_true]
    refine ⟨⟨⟨j.target.name, some (effAlias j.target)⟩,
      (firstOcc (j.onConds.map charOf)).map fun c =>
        ⟨⟨some (pyOr re.alias_ re.name), some c⟩,
          some ⟨some (effAlias j.target), none⟩⟩⟩,
      List.mem_map_of_mem _ hj, hmatch j hj⟩

/-- C1 counterexample: the parsed identity-form query
`SELECT B.x FROM A JOIN B ON A.b = B` does not round-trip — the bare identity
operand parses as a characteristic-only reference, so no classification
branch fires, alias `B` keeps an empty path list, and `path2query` crashes
(`ValueError` from `min` on an empty sequence) instead of returning an
equivalent statement. -/
theorem c1_identity_join_crashes_roundtrip :
    getAst "SELECT B.x FROM A JOIN B ON A.b = B"
      = some ⟨[.projChar ⟨some "B", some "x"⟩ none],
          ⟨[⟨"A", none⟩], [⟨⟨"B", none⟩,
            [⟨⟨some "A", some "b"⟩, some ⟨none, some "B"⟩⟩]⟩]⟩, none⟩ ∧
    path2query
      (query2path ⟨[.projChar ⟨some "B", some "x"⟩ none],
          ⟨[⟨"A", none⟩], [⟨⟨"B", none⟩,
            [⟨⟨some "A", some "b"⟩, some ⟨none, some "B"⟩⟩]⟩]⟩, none⟩ []).1
      (query2path ⟨[.projChar ⟨some "B", some "x"⟩ none],
          ⟨[⟨"A", none⟩], [⟨⟨"B", none⟩,
            [⟨⟨some "A", some "b"⟩, some ⟨none, some "B"⟩⟩]⟩]⟩, none⟩ []).2
      [] = none :=
  ⟨rfl, rfl⟩

/-- C1 (amended): for every star-shaped query — a single root entity,
every join condition a unary characteristic of the root, pairwise-distinct
nonempty target aliases and target type names, and projections over known
aliases — `path2query (query2path q)` succeeds for every model and returns
exactly one statement, `c1Expected q`, which is structurally equivalent to
`q`: the same projected characteristics as a set, the same join targets,
and for each join the same condition set up to operand order and the
unary/identity spelling. -/
theorem c1_star_query_roundtrip (q : QueryStatement) (model : List UddlTuple)
    (h : c1QueryOK q = true) :
    path2query (query2path q model).1 (query2path q model).2 model
        = some [c1Expected q]
      ∧ structurallyEquivalentQ (c1Expected q) q = true := by
  obtain ⟨ps, ⟨ents, joins⟩, qual⟩ := q
  match ents, h with
  | [], h => exact Bool.noConfusion h
  | _ :: _ :: _, h => exact Bool.noConfusion h
  | [re], h =>
    rw [query2path_c1 re joins ps qual model h]
    exact ⟨path2query_c1 re joins ps qual model h,
      structEquiv_c1 re joins ps qual h⟩

/-- Witness for C1: a two-join star query with a duplicate unary condition
round-trips to its expected form under a nonempty model. -/
theorem c1_star_witness :
    c1QueryOK ⟨[.projChar ⟨none, some "x"⟩ none,
        .projChar ⟨some "b", some "y"⟩ (some "al")],
      ⟨[⟨"A", none⟩],
        [⟨⟨"B", some "b"⟩, [⟨⟨none, some "p"⟩, none⟩,
            ⟨⟨some "A", some "p"⟩, none⟩, ⟨⟨some "A", some "q"⟩, none⟩]⟩,
          ⟨⟨"C", none⟩, [⟨⟨some "A", some "r"⟩, none⟩]⟩]⟩,
      none⟩ = true
    ∧ (path2query
        (query2path ⟨[.projChar ⟨none, some "x"⟩ none,
            .projChar ⟨some "b", some "y"⟩ (some "al")],
          ⟨[⟨"A", none⟩],
            [⟨⟨"B", some "b"⟩, [⟨⟨none, some "p"⟩, none⟩,
                ⟨⟨some "A", some "p"⟩, none⟩, ⟨⟨some "A", some "q"⟩, none⟩]⟩,
              ⟨⟨"C", none⟩, [⟨⟨some "A", some "r"⟩, none⟩]⟩]⟩,
          none⟩ [⟨"A", "composes", "B", "p"⟩]).1
        (query2path ⟨[.projChar ⟨none, some "x"⟩ none,
            .projChar ⟨some "b", some "y"⟩ (some "al")],
          ⟨[⟨"A", none⟩],
            [⟨⟨"B", some "b"⟩, [⟨⟨none, some "p"⟩, none⟩,
                ⟨⟨some "A", some "p"⟩, none⟩, ⟨⟨some "A", some "q"⟩, none⟩]⟩,
              ⟨⟨"C", none⟩, [⟨⟨some "A", some "r"⟩, none⟩]⟩]⟩,
          none⟩ [⟨"A", "composes", "B", "p"⟩]).2
        [⟨"A", "composes", "B", "p"⟩]
        = some [c1Expected ⟨[.projChar ⟨none, some "x"⟩ none,
            .projChar ⟨some "b", some "y"⟩ (some "al")],
          ⟨[⟨"A", none⟩],
            [⟨⟨"B", some "b"⟩, [⟨⟨none, some "p"⟩, none⟩,
                ⟨⟨some "A", some "p"⟩, none⟩, ⟨⟨some "A", some "q"⟩, none⟩]⟩,
              ⟨⟨"C", none⟩, [⟨⟨some "A", some "r"⟩, none⟩]⟩]⟩,
          none⟩]
      ∧ structurallyEquivalentQ
        (c1Expected ⟨[.projChar ⟨none, some "x"⟩ none,
            .projChar ⟨some "b", some "y"⟩ (some "al")],
          ⟨[⟨"A", none⟩],
            [⟨⟨"B", some "b"⟩, [⟨⟨none, some "p"⟩, none⟩,
                ⟨⟨some "A", some "p"⟩, none⟩, ⟨⟨some "A", some "q"⟩, none⟩]⟩,
              ⟨⟨"C", none⟩, [⟨⟨some "A", some "r"⟩, none⟩]⟩]⟩,
          none⟩)
        ⟨[.projChar ⟨none, some "x"⟩ none,
            .projChar ⟨some "b", some "y"⟩ (some "al")],
          ⟨[⟨"A", none⟩],
            [⟨⟨"B", some "b"⟩, [⟨⟨none, some "p"⟩, none⟩,
                ⟨⟨some "A", some "p"⟩, none⟩, ⟨⟨some "A", some "q"⟩, none⟩]⟩,
              ⟨⟨"C", none⟩, [⟨⟨some "A", some "r"⟩, none⟩]⟩]⟩,
          none⟩ = true) :=
  ⟨by decide,
    c1_star_query_roundtrip
      ⟨[.projChar ⟨none, some "x"⟩ none,
          .projChar ⟨some "b", some "y"⟩ (some "al")],
        ⟨[⟨"A", none⟩],
          [⟨⟨"B", some "b"⟩, [⟨⟨none, some "p"⟩, none⟩,
              ⟨⟨some "A", some "p"⟩, none⟩, ⟨⟨some "A", some "q"⟩, none⟩]⟩,
            ⟨⟨"C", none⟩, [⟨⟨some "A", some "r"⟩, none⟩]⟩]⟩,
        none⟩
      [⟨"A", "composes", "B", "p"⟩] (by decide)⟩

end UddlOwl
